import Mathlib

/-!
# OptimizerPlayground: the neural-network engine of `src/ml.js`

A shallow embedding of the activation table, the `MLP` class and the `Optimizer`
class of `src/ml.js`, followed by theorems about them.

Numbers are the elements of an arbitrary linearly ordered field `R` (JavaScript
doubles are idealised as exact numbers); every definition is computable and can be
evaluated at `R = ℚ`.  The transcendental functions of JavaScript's `Math` object
are passed in as a record `JsMath R`.  Operations of the array library that can
throw return `Option`.
-/

namespace OptimizerPlayground

/-! ## The array substrate (numjs) -/

/-- Modelled from the spec: the numjs array type `NdArray` (an external library, not
part of `src/`), section 6 of the spec: a numeric N-dimensional array given by its
`shape` and its elements `data` in row-major order (`A.selection.data` in the source). -/
structure NdArray (R : Type) where
  shape : List Nat
  data : List R
deriving DecidableEq, Repr

/-- An array is well formed when its buffer holds exactly one element per index:
`data.length` is the product of the dimensions.  Every array built by the library is. -/
def NdArray.WF {R : Type} (A : NdArray R) : Prop :=
  A.data.length = A.shape.prod

instance {R : Type} (A : NdArray R) : Decidable A.WF := by
  unfold NdArray.WF
  infer_instance

section Substrate

variable {R : Type} [LinearOrderedField R]

/-- Modelled from the spec: `A.clone()`, a deep copy (section 6). Values are immutable
here, so the copy is the array itself. -/
def NdArray.clone (A : NdArray R) : NdArray R := A

/-- Modelled from the spec: `nj.zeros(shape)`, zero-filled tensor construction given a
shape (section 6). -/
def NdArray.zeros (shape : List Nat) : NdArray R :=
  ⟨shape, List.replicate shape.prod 0⟩

/-- Modelled from the spec: `A.reshape(n, 1)` (section 6), as used by `asCol` on a
one-dimensional array of length `n`: same elements, shape `[n, 1]`. -/
def NdArray.reshapeCol (A : NdArray R) (n : Nat) : NdArray R :=
  ⟨[n, 1], A.data⟩

/-- Modelled from the spec: the tensor-scalar form of `A.add(s)` (section 6). -/
def NdArray.addScalar (A : NdArray R) (s : R) : NdArray R :=
  ⟨A.shape, A.data.map (fun v => v + s)⟩

/-- Modelled from the spec: the tensor-scalar form of `A.subtract(s)` (section 6). -/
def NdArray.subtractScalar (A : NdArray R) (s : R) : NdArray R :=
  ⟨A.shape, A.data.map (fun v => v - s)⟩

/-- Modelled from the spec: the tensor-scalar form of `A.multiply(s)` (section 6). -/
def NdArray.multiplyScalar (A : NdArray R) (s : R) : NdArray R :=
  ⟨A.shape, A.data.map (fun v => v * s)⟩

/-- Modelled from the spec: the tensor-tensor form of `A.add(B)` (section 6), a new
tensor; operands of different shapes are a shape mismatch (section 7) and give `none`. -/
def NdArray.add (A B : NdArray R) : Option (NdArray R) :=
  if A.shape = B.shape then some ⟨A.shape, List.zipWith (fun x y => x + y) A.data B.data⟩
  else none

/-- Modelled from the spec: the tensor-tensor form of `A.subtract(B)` (section 6);
`none` on a shape mismatch. -/
def NdArray.subtract (A B : NdArray R) : Option (NdArray R) :=
  if A.shape = B.shape then some ⟨A.shape, List.zipWith (fun x y => x - y) A.data B.data⟩
  else none

/-- Modelled from the spec: the tensor-tensor (elementwise) form of `A.multiply(B)`
(section 6); `none` on a shape mismatch. -/
def NdArray.multiply (A B : NdArray R) : Option (NdArray R) :=
  if A.shape = B.shape then some ⟨A.shape, List.zipWith (fun x y => x * y) A.data B.data⟩
  else none

/-- Element `(i, j)` of a two-dimensional array with `cols` columns (row-major);
`0` outside the buffer. -/
def NdArray.at2 (A : NdArray R) (cols i j : Nat) : R :=
  A.data.getD (i * cols + j) 0

/-- Modelled from the spec: `A.T`, the transpose (section 6). For a two-dimensional
array of shape `[r, c]` the result has shape `[c, r]` and element `(j, i)` is element
`(i, j)` of `A`; an array of another rank is returned as it is (the source only
transposes two-dimensional arrays). -/
def NdArray.T (A : NdArray R) : NdArray R :=
  match A.shape with
  | [r, c] =>
      ⟨[c, r], (List.range c).flatMap (fun j => (List.range r).map (fun i => A.at2 c i j))⟩
  | _ => A

/-- Modelled from the spec: `nj.dot(A, B)`, the matrix product of two 2-D tensors with
the standard shape-compatibility requirement (inner dimensions match); it fails on a
mismatch (section 6), which is `none` here. -/
def dot (A B : NdArray R) : Option (NdArray R) :=
  match A.shape, B.shape with
  | [m, k], [k2, n] =>
      if k = k2 then
        some ⟨[m, n], (List.range m).flatMap (fun i => (List.range n).map (fun j =>
          ((List.range k).map (fun t => A.at2 k i t * B.at2 n t j)).sum))⟩
      else none
  | _, _ => none

/-! ## `src/ml.js`: helpers and the activation table -/

/-- Source `dataOf(A)`: the raw buffer of `A`. The source throws when `A.selection.data` is
absent; every `NdArray` of this model has its buffer, so the result is always present. -/
def dataOf (A : NdArray R) : List R := A.data

/-- Source `mapNd(A, fn)`: clone `A` and replace every element `d[i]` by `fn(d[i], i)`. Every
caller in `src/ml.js` passes a function of the element alone, so `fn` takes one argument. -/
def mapNd (A : NdArray R) (fn : R → R) : NdArray R :=
  ⟨A.clone.shape, (dataOf A.clone).map fn⟩

/-- The functions and constants of JavaScript's `Math` object used by `src/ml.js`
(`Math.exp`, `Math.tanh`, `Math.sqrt`, `Math.PI`); `Math.abs` is the absolute value of
the ordered field. -/
structure JsMath (R : Type) where
  exp : R → R
  tanh : R → R
  sqrt : R → R
  PI : R

/-- An activation object `{f, df}`: two functions from arrays to arrays. -/
structure Activation (R : Type) where
  f : NdArray R → NdArray R
  df : NdArray R → NdArray R

/-- The entry `Activations.relu`. -/
def Activations.relu : Activation R where
  f := fun z => mapNd z (fun v => if v > 0 then v else 0)
  df := fun z => mapNd z (fun v => if v > 0 then 1 else 0)

/-- The entry `Activations.leaky_relu`, with the default `alpha = 0.01`. -/
def Activations.leaky_relu : Activation R where
  f := fun z =>
    let alpha : R := 1 / 100
    mapNd z (fun v => if v > 0 then v else alpha * v)
  df := fun z =>
    let alpha : R := 1 / 100
    mapNd z (fun v => if v > 0 then 1 else alpha)

/-- The entry `Activations.elu`, with the default `alpha = 1.0`. -/
def Activations.elu (M : JsMath R) : Activation R where
  f := fun z =>
    let alpha : R := 1
    mapNd z (fun v => if v ≥ 0 then v else alpha * (M.exp v - 1))
  df := fun z =>
    let alpha : R := 1
    mapNd z (fun v => if v ≥ 0 then 1 else alpha * M.exp v)

/-- The entry `Activations.gelu` (tanh approximation). -/
def Activations.gelu (M : JsMath R) : Activation R where
  f := fun z =>
    let c := M.sqrt (2 / M.PI)
    mapNd z (fun x =>
      let x3 := x * x * x
      let u := c * (x + 44715 / 1000000 * x3)
      let t := M.tanh u
      1 / 2 * x * (1 + t))
  df := fun z =>
    let c := M.sqrt (2 / M.PI)
    mapNd z (fun x =>
      let x2 := x * x
      let x3 := x2 * x
      let u := c * (x + 44715 / 1000000 * x3)
      let t := M.tanh u
      let sech2 := 1 - t * t
      let du := c * (1 + 3 * (44715 / 1000000) * x2)
      1 / 2 * (1 + t) + 1 / 2 * x * sech2 * du)

/-- The entry `Activations.swish`. -/
def Activations.swish (M : JsMath R) : Activation R where
  f := fun z => mapNd z (fun x =>
    let s := 1 / (1 + M.exp (-x))
    x * s)
  df := fun z => mapNd z (fun x =>
    let s := 1 / (1 + M.exp (-x))
    s + x * s * (1 - s))

/-- The entry `Activations.tanh`. -/
def Activations.tanh (M : JsMath R) : Activation R where
  f := fun z => mapNd z (fun v =>
    let e2 := M.exp (2 * v)
    (e2 - 1) / (e2 + 1))
  df := fun z =>
    let t := mapNd z (fun v =>
      let e2 := M.exp (2 * v)
      (e2 - 1) / (e2 + 1))
    mapNd t (fun v => 1 - v * v)

/-- The entry `Activations.sigmoid`. -/
def Activations.sigmoid (M : JsMath R) : Activation R where
  f := fun z => mapNd z (fun v => 1 / (1 + M.exp (-v)))
  df := fun z =>
    let s := mapNd z (fun v => 1 / (1 + M.exp (-v)))
    mapNd s (fun v => v * (1 - v))

/-- The entry `Activations.softsign`. -/
def Activations.softsign : Activation R where
  f := fun z => mapNd z (fun x => x / (1 + |x|))
  df := fun z => mapNd z (fun x =>
    let d := 1 + |x|
    1 / (d * d))

/-- The entry `Activations.linear`. -/
def Activations.linear : Activation R where
  f := fun z => z
  df := fun z => mapNd z (fun _ => 1)

/-- The table `Activations`, as the lookup `Activations[name]`: the entry of an own key,
`none` for any other string. (A key inherited from `Object.prototype`, such as
`"toString"`, yields a value without `f` and `df`, which the constructor rejects like a
missing entry.) -/
def Activations (M : JsMath R) (name : String) : Option (Activation R) :=
  if name = "relu" then some Activations.relu
  else if name = "leaky_relu" then some (Activations.leaky_relu)
  else if name = "elu" then some (Activations.elu M)
  else if name = "gelu" then some (Activations.gelu M)
  else if name = "swish" then some (Activations.swish M)
  else if name = "tanh" then some (Activations.tanh M)
  else if name = "sigmoid" then some (Activations.sigmoid M)
  else if name = "softsign" then some Activations.softsign
  else if name = "linear" then some Activations.linear
  else none

/-- Source `asCol(v)`: a one-dimensional array of length `n` is reshaped to `[n, 1]`; any other
array is returned as it is. -/
def asCol (v : NdArray R) : NdArray R :=
  match v.shape with
  | [n] => v.reshapeCol n
  | _ => v

/-- Source `mseGrad(yPred, yTrue)`: `yPred.subtract(yTrue)`. -/
def mseGrad (yPred yTrue : NdArray R) : Option (NdArray R) :=
  yPred.subtract yTrue

/-! ## `src/ml.js`: the class `MLP` -/

/-- A model: the fields `sizes`, `weights`, `biases` and `act` of an `MLP` object. -/
structure MLP (R : Type) where
  sizes : List Nat
  weights : List (NdArray R)
  biases : List (NdArray R)
  act : Activation R

/-- The `activation` option of the constructor: a string, or an object whose members
`f` and `df` may be missing. -/
inductive ActivationArg (R : Type) where
  | name (s : String)
  | obj (f df : Option (NdArray R → NdArray R))

/-- The outcome of running the constructor: the number of arrays it created with
`nj.random` and `nj.zeros` before it returned or threw, and the model or the error. -/
structure Construction (R : Type) where
  allocated : Nat
  outcome : Except String (MLP R)

/-- The resolution `typeof activation === "string" ? Activations[activation] : activation`
followed by the test `!this.act || !this.act.f || !this.act.df`: the activation, or
`none` when the constructor throws. -/
def resolveActivation (M : JsMath R) : ActivationArg R → Option (Activation R)
  | .name s => Activations M s
  | .obj (some f) (some df) => some ⟨f, df⟩
  | .obj _ _ => none

/-- The allocation loop of the constructor, `for (l = ...; l < sizes.length - 1; l++)`,
from index `l` with `n` iterations left: each iteration pushes
`nj.random([fanOut, fanIn]).subtract(0.5).multiply(2 / Math.sqrt(fanIn))` and
`nj.zeros([fanOut, 1])`. `random k shape` is the array returned by the `k`-th call of
`nj.random`. The result is the weights, the biases and the number of arrays created. -/
def buildLayers (M : JsMath R) (random : Nat → List Nat → NdArray R) (sizes : List Nat) :
    Nat → Nat → List (NdArray R) → List (NdArray R) → Nat →
      List (NdArray R) × List (NdArray R) × Nat
  | 0, _, weights, biases, allocated => (weights, biases, allocated)
  | n + 1, l, weights, biases, allocated =>
      let fanIn := sizes.getD l 0
      let fanOut := sizes.getD (l + 1) 0
      let W := ((random l [fanOut, fanIn]).subtractScalar (1 / 2)).multiplyScalar
        (2 / M.sqrt (fanIn : R))
      let b : NdArray R := NdArray.zeros [fanOut, 1]
      buildLayers M random sizes n (l + 1) (weights ++ [W]) (biases ++ [b]) (allocated + 2)

/-- Source `new MLP(sizes, { activation })`. The activation is resolved and checked first
(the `throw`), then the layers are allocated; `sizes.length - 1` iterations, none when
`sizes` has fewer than two entries. -/
def MLP.construct (M : JsMath R) (random : Nat → List Nat → NdArray R) (sizes : List Nat)
    (activation : ActivationArg R) : Construction R :=
  match resolveActivation M activation with
  | none => ⟨0, .error "activation must be a name in Activations or an object \x7bf, df\x7d"⟩
  | some act =>
      let r := buildLayers M random sizes (sizes.length - 1) 0 [] [] 0
      ⟨r.2.2, .ok ⟨sizes, r.1, r.2.1, act⟩⟩

/-- The forward cache `{ a, z }`. -/
structure Cache (R : Type) where
  a : List (NdArray R)
  z : List (NdArray R)
deriving DecidableEq, Repr

/-- The hidden-layer loop of `forward`, `for (l = ...; l < L - 1; l++)`, from index `l`
with `n` iterations left: `z = nj.dot(W[l], a).add(b[l])`, `a = asCol(act.f(z))`, and
the pushes to the cache in training mode. -/
def forwardLoop (m : MLP R) : Nat → Nat → NdArray R → Option (Cache R) →
    Option (NdArray R × Option (Cache R))
  | 0, _, a, cache => some (a, cache)
  | n + 1, l, a, cache => do
      let W ← m.weights[l]?
      let b ← m.biases[l]?
      let z ← (← dot W a).add b
      let a2 := asCol (m.act.f z)
      forwardLoop m n (l + 1) a2
        (cache.map (fun c => ⟨c.a ++ [a2], c.z ++ [z]⟩))

/-- Source `forward(x, { training })`: the output `y`, with the cache in training mode
(`none` for the cache otherwise). A model without layers makes the source read
`this.weights[-1]`, which is `undefined`, and `nj.dot` throws. -/
def MLP.forward (m : MLP R) (x : NdArray R) (training : Bool) :
    Option (NdArray R × Option (Cache R)) :=
  let a := asCol x
  let cache : Option (Cache R) := if training then some ⟨[a], []⟩ else none
  let L := m.weights.length
  if L = 0 then none else do
    let (a, cache) ← forwardLoop m (L - 1) 0 a cache
    let W ← m.weights[L - 1]?
    let b ← m.biases[L - 1]?
    let out ← (← dot W a).add b
    let y := asCol out
    pure (y, cache.map (fun c => ⟨c.a ++ [y], c.z ++ [y]⟩))

/-- The gradients `{ dW, db }`. -/
structure Grads (R : Type) where
  dW : List (NdArray R)
  db : List (NdArray R)
deriving DecidableEq, Repr

/-- The loop of `backward`, `for (l = L - 2; l >= 0; l--)`, with `n` iterations left,
so that the next index is `l = n - 1`: the new `delta`, and the entries `dW[l]`, `db[l]`
(the arrays `dW` and `db` are filled from the back, so the entries already present are
those of the indices above `l`). -/
def backwardLoop (m : MLP R) (cache : Cache R) : Nat → NdArray R → List (NdArray R) →
    List (NdArray R) → Option (List (NdArray R) × List (NdArray R))
  | 0, _, dW, db => some (dW, db)
  | l + 1, delta, dW, db => do
      let wNext ← m.weights[l + 1]?
      let wNextT := wNext.T
      let zl ← cache.z[l]?
      let delta2 ← (← dot wNextT delta).multiply (m.act.df zl)
      let al ← cache.a[l]?
      let g ← dot delta2 al.T
      backwardLoop m cache l delta2 (g :: dW) (delta2.clone :: db)

/-- Source `backward(yTrue, cache)`. It assigns no field of the model, so the embedding returns
the gradients only. A model without layers makes the source read `a[-1]`, which is
`undefined`, and `.T` throws. -/
def MLP.backward (m : MLP R) (yTrue : NdArray R) (cache : Cache R) : Option (Grads R) :=
  let L := m.weights.length
  let a := cache.a
  if L = 0 then none else do
    let aL ← a[L]?
    let delta ← mseGrad aL yTrue
    let aPrev ← a[L - 1]?
    let g ← dot delta aPrev.T
    let (dW, db) ← backwardLoop m cache (L - 1) delta [g] [delta.clone]
    pure ⟨dW, db⟩

/-- The loop of `step`, from index `l` with `n` iterations left. -/
def stepLoop (grads : Grads R) (lr : R) : Nat → Nat → MLP R → Option (MLP R)
  | 0, _, m => some m
  | n + 1, l, m => do
      let W ← m.weights[l]?
      let gW ← grads.dW[l]?
      let W2 ← W.subtract (gW.multiplyScalar lr)
      let b ← m.biases[l]?
      let gb ← grads.db[l]?
      let b2 ← b.subtract (gb.multiplyScalar lr)
      stepLoop grads lr n (l + 1)
        { m with weights := m.weights.set l W2, biases := m.biases.set l b2 }

/-- Source `step(grads, lr)`: the model after the in-place update, `none` when an array
operation throws. -/
def MLP.step (m : MLP R) (grads : Grads R) (lr : R) : Option (MLP R) :=
  stepLoop grads lr m.weights.length 0 m

/-! ## `src/ml.js`: the class `Optimizer` -/

/-- An optimizer: its five coefficients and its accumulators, `none` for `null`. -/
structure Optimizer (R : Type) where
  lr : R
  momentum : R
  l2 : R
  weightDecay : R
  clipNorm : R
  vW : Option (List (NdArray R))
  vb : Option (List (NdArray R))
  vW2 : Option (List (NdArray R))
  vb2 : Option (List (NdArray R))

/-- Source `new Optimizer({ lr, momentum, l2, weightDecay, clipNorm })`: all accumulators are
`null`. (The defaults of the source are `0.01, 0, 0, 0, 0`.) -/
def Optimizer.construct (lr momentum l2 weightDecay clipNorm : R) : Optimizer R :=
  ⟨lr, momentum, l2, weightDecay, clipNorm, none, none, none, none⟩

/-- Source `_initState(model)`: zero accumulators of the shapes of the weights and biases. -/
def Optimizer._initState (o : Optimizer R) (model : MLP R) : Optimizer R :=
  { o with
    vW := some (model.weights.map (fun W => NdArray.zeros W.shape))
    vb := some (model.biases.map (fun b => NdArray.zeros b.shape))
    vW2 := some (model.weights.map (fun W => NdArray.zeros W.shape))
    vb2 := some (model.biases.map (fun b => NdArray.zeros b.shape)) }

/-- The closure `addSumsq(G)` of `_maybeClip`: add the squares of the elements of `G`
to the running `sumsq`. -/
def addSumsq (sumsq : R) (G : NdArray R) : R :=
  G.data.foldl (fun acc v => acc + v * v) sumsq

/-- The value of `sumsq` in `_maybeClip` after the two loops over `grads.dW` and
`grads.db`. -/
def sumsqOf (grads : Grads R) : R :=
  grads.db.foldl addSumsq (grads.dW.foldl addSumsq 0)

/-- Source `_maybeClip(grads)`. -/
def Optimizer._maybeClip (M : JsMath R) (o : Optimizer R) (grads : Grads R) : Grads R :=
  if o.clipNorm = 0 ∨ o.clipNorm ≤ 0 then grads
  else
    let sumsq := sumsqOf grads
    let norm := M.sqrt sumsq
    if norm ≤ o.clipNorm then grads
    else
      let scale := o.clipNorm / (norm + 1 / 1000000000000)
      ⟨grads.dW.map (fun g => g.multiplyScalar scale),
       grads.db.map (fun g => g.multiplyScalar scale)⟩

/-- The body of the loop of `apply` for the layer `l`, on the optimizer and the model
that `apply` updates in place. -/
def applyLayer (grads : Grads R) (l : Nat) (o : Optimizer R) (model : MLP R) :
    Option (Optimizer R × MLP R) := do
  let lr := o.lr
  let mu := o.momentum
  let gW0 ← grads.dW[l]?
  let gb0 ← grads.db[l]?
  let W0 ← model.weights[l]?
  -- L2
  let gW1 ← (if o.l2 ≠ 0 then gW0.add (W0.multiplyScalar o.l2) else some gW0)
  -- Momentum
  let (o2, gW, gb) ←
    if mu ≠ 0 then do
      let vW ← o.vW
      let v ← vW[l]?
      let nvW ← (v.multiplyScalar mu).add (gW1.multiplyScalar (1 - mu))
      let vb ← o.vb
      let u ← vb[l]?
      let nvb ← (u.multiplyScalar mu).add (gb0.multiplyScalar (1 - mu))
      pure ({ o with vW := some (vW.set l nvW), vb := some (vb.set l nvb) }, nvW, nvb)
    else pure (o, gW1, gb0)
  -- Weight Decay
  let W1 := if o.weightDecay ≠ 0 then W0.multiplyScalar (1 - lr * o.weightDecay) else W0
  let W2 ← W1.subtract (gW.multiplyScalar lr)
  let b0 ← model.biases[l]?
  let b1 ← b0.subtract (gb.multiplyScalar lr)
  pure (o2, { model with weights := model.weights.set l W2, biases := model.biases.set l b1 })

/-- The loop of `apply`, `for (l = ...; l < L; l++)`, from index `l` with `n` iterations
left. -/
def applyLoop (grads : Grads R) : Nat → Nat → Optimizer R → MLP R →
    Option (Optimizer R × MLP R)
  | 0, _, o, model => some (o, model)
  | n + 1, l, o, model => do
      let (o2, model2) ← applyLayer grads l o model
      applyLoop grads n (l + 1) o2 model2

/-- Source `apply(model, grads)`: the optimizer and the model after the in-place update, `none`
when an array operation throws. -/
def Optimizer.apply (M : JsMath R) (o : Optimizer R) (model : MLP R) (grads : Grads R) :
    Option (Optimizer R × MLP R) :=
  let o1 := if o.vW.isNone then o._initState model else o
  let grads := o1._maybeClip M grads
  let L := model.weights.length
  applyLoop grads L 0 o1 model

/-! ## Evaluation over the rationals -/

/-- The rational square root of a perfect square of rationals (numerator and denominator
by the integer square root); exact on the squares of rationals. -/
def ratSqrt (q : ℚ) : ℚ :=
  (Nat.sqrt q.num.toNat : ℚ) / (Nat.sqrt q.den : ℚ)

/-- A `Math` object over the rationals, for evaluating the model on inputs where the
transcendental functions are not reached: `sqrt` is exact on squares of rationals, `exp`
and `tanh` are their first-order expansions at `0`, and `PI` is `22/7`. -/
def ratMath : JsMath ℚ where
  exp := fun x => 1 + x
  tanh := fun x => x
  sqrt := ratSqrt
  PI := 22 / 7

/-! ## Shapes and example inputs -/

/-- The shapes of a list of arrays, in order. -/
def shapesOf (xs : List (NdArray R)) : List (List Nat) := xs.map NdArray.shape

/-- A one-layer model over the rationals: weight `[[1]]`, bias `[[0]]`, activation
`relu`. -/
def exModel1 : MLP ℚ :=
  ⟨[1, 1], [⟨[1, 1], [1]⟩], [⟨[1, 1], [0]⟩], Activations.relu⟩

/-- Gradients for `exModel1`: `dW = [[2]]`, `db = [[3]]`. -/
def exGrads1 : Grads ℚ :=
  ⟨[⟨[1, 1], [2]⟩], [⟨[1, 1], [3]⟩]⟩

/-! ## The recurrences of the forward pass, layer by layer -/

/-- The input of layer `l` in the forward pass on `x`: `a[0] = asCol(x)` and
`a[l+1] = asCol(act.f(W[l]·a[l] + b[l]))`. -/
def layerInput (m : MLP R) (x : NdArray R) : Nat → Option (NdArray R)
  | 0 => some (asCol x)
  | l + 1 => do
      let a ← layerInput m x l
      let W ← m.weights[l]?
      let b ← m.biases[l]?
      let z ← (← dot W a).add b
      pure (asCol (m.act.f z))

/-- The pre-activation of layer `l` in the forward pass on `x`: `z[l] = W[l]·a[l] + b[l]`. -/
def preActivation (m : MLP R) (x : NdArray R) (l : Nat) : Option (NdArray R) := do
  let a ← layerInput m x l
  let W ← m.weights[l]?
  let b ← m.biases[l]?
  (← dot W a).add b

/-- A two-layer model over the rationals, sizes `[2, 2, 1]`, activation `relu`. -/
def exModel2 : MLP ℚ :=
  ⟨[2, 2, 1], [⟨[2, 2], [1, 2, 3, 4]⟩, ⟨[1, 2], [1, -1]⟩],
    [⟨[2, 1], [0, 1]⟩, ⟨[1, 1], [5]⟩], Activations.relu⟩

/-- The cache of `exModel2.forward` on the input `[2, 1]` in training mode. -/
def exCache2 : Cache ℚ :=
  ⟨[⟨[2, 1], [2, 1]⟩, ⟨[2, 1], [4, 11]⟩, ⟨[1, 1], [-2]⟩],
   [⟨[2, 1], [4, 11]⟩, ⟨[1, 1], [-2]⟩]⟩

/-- The gradients of `exModel2.backward` on the label `[[1]]` and `exCache2`. -/
def exGrads2 : Grads ℚ :=
  ⟨[⟨[2, 2], [-6, -3, 6, 3]⟩, ⟨[1, 2], [-12, -33]⟩],
   [⟨[2, 1], [-3, 3]⟩, ⟨[1, 1], [-3]⟩]⟩

/-! ## Gradient clipping, as the spec words it -/

/-- The global L2 norm of a gradient set: the square root of the sum of the squares of the
entries of the flattened concatenation of all `dW` and `db` tensors. -/
def globalNorm (M : JsMath R) (grads : Grads R) : R :=
  M.sqrt (((grads.dW ++ grads.db).flatMap NdArray.data).map (fun v => v * v)).sum

/-- The tensor `A` with every entry multiplied by `s`. -/
def scaleEntries (s : R) (A : NdArray R) : NdArray R :=
  ⟨A.shape, A.data.map (fun v => v * s)⟩

/-- Clipping with one global scale factor, as the spec words it: with `n` the global L2
norm, the gradients are unchanged if `c ≤ 0` or `n ≤ c`; otherwise every entry of every
`dW[l]` and `db[l]` is multiplied by `c / (n + 1e-12)`. -/
def clipSpec (M : JsMath R) (c : R) (grads : Grads R) : Grads R :=
  let n := globalNorm M grads
  if c ≤ 0 ∨ n ≤ c then grads
  else
    ⟨grads.dW.map (scaleEntries (c / (n + 1 / 1000000000000))),
     grads.db.map (scaleEntries (c / (n + 1 / 1000000000000)))⟩

/-- Gradients of global L2 norm `10`: `dW = [[6]]`, `db = [[8]]`. -/
def exGradsNorm10 : Grads ℚ :=
  ⟨[⟨[1, 1], [6]⟩], [⟨[1, 1], [8]⟩]⟩

/-! ## The update of one layer, as the spec words it -/

/-- Entry `i` of the buffer of `A` (`0` outside the buffer). -/
def NdArray.entry (A : NdArray R) (i : Nat) : R :=
  A.data.getD i 0

/-- The array of the shape and size of `A` whose entry `i` is `f i`. -/
def entrywise (A : NdArray R) (f : Nat → R) : NdArray R :=
  ⟨A.shape, (List.range A.data.length).map f⟩

/-- Two arrays of the same shape with the same number of stored entries. -/
def NdArray.Conforms (A B : NdArray R) : Prop :=
  A.shape = B.shape ∧ A.data.length = B.data.length

/-- The parameters and accumulators of one layer: `weights[l]`, `biases[l]`, `vW[l]`,
`vb[l]`. -/
structure LayerState (R : Type) where
  W : NdArray R
  b : NdArray R
  vW : NdArray R
  vb : NdArray R
deriving DecidableEq, Repr

/-- The parameters and accumulators of layer `l` in an optimizer and a model. -/
def layerAt (o : Optimizer R) (m : MLP R) (l : Nat) : Option (LayerState R) := do
  let W ← m.weights[l]?
  let b ← m.biases[l]?
  let vW ← o.vW
  let v ← vW[l]?
  let vb ← o.vb
  let u ← vb[l]?
  pure ⟨W, b, v, u⟩

/-- The update of one layer from the (clipped) gradients `gW`, `gb`, as the spec words it.
With momentum `mu ≠ 0`: `vW' = mu·vW + (1-mu)·(gW + l2·W)`, `vb' = mu·vb + (1-mu)·gb`,
`W' = (1 - lr·wd)·W - lr·vW'`, `b' = b - lr·vb'`. With `mu = 0` the accumulators are
unchanged and `W' = (1 - lr·wd)·W - lr·(gW + l2·W)`, `b' = b - lr·gb`. -/
def layerUpdateSpec (lr mu l2 wd : R) (gW gb : NdArray R) (pre : LayerState R) :
    LayerState R :=
  if mu ≠ 0 then
    let vW2 := entrywise pre.vW
      (fun i => mu * pre.vW.entry i + (1 - mu) * (gW.entry i + l2 * pre.W.entry i))
    let vb2 := entrywise pre.vb (fun i => mu * pre.vb.entry i + (1 - mu) * gb.entry i)
    ⟨entrywise pre.W (fun i => (1 - lr * wd) * pre.W.entry i - lr * vW2.entry i),
     entrywise pre.b (fun i => pre.b.entry i - lr * vb2.entry i), vW2, vb2⟩
  else
    ⟨entrywise pre.W
      (fun i => (1 - lr * wd) * pre.W.entry i - lr * (gW.entry i + l2 * pre.W.entry i)),
     entrywise pre.b (fun i => pre.b.entry i - lr * gb.entry i), pre.vW, pre.vb⟩

/-- Layer `l` is ready for `apply`: its parameters, accumulators and gradients exist,
the gradients and accumulators have the shape and size of the parameter they belong to. -/
def LayerReady (grads : Grads R) (o : Optimizer R) (m : MLP R) (l : Nat) : Prop :=
  ∃ pre gW gb, layerAt o m l = some pre ∧ grads.dW[l]? = some gW ∧ grads.db[l]? = some gb ∧
    gW.Conforms pre.W ∧ gb.Conforms pre.b ∧ pre.vW.Conforms pre.W ∧ pre.vb.Conforms pre.b

/-- The state of layer `l` after `apply`, as the spec words it: `layerUpdateSpec` on the
state of the layer before, with the gradients of the layer. -/
def layerAfterSpec (grads : Grads R) (o : Optimizer R) (m : MLP R) (l : Nat) :
    Option (LayerState R) := do
  let pre ← layerAt o m l
  let gW ← grads.dW[l]?
  let gb ← grads.db[l]?
  pure (layerUpdateSpec o.lr o.momentum o.l2 o.weightDecay gW gb pre)

/-- The optimizer `o2` has the coefficients of `o`, and accumulators where `o` has. -/
def SameConfig (o o2 : Optimizer R) : Prop :=
  o2.lr = o.lr ∧ o2.momentum = o.momentum ∧ o2.l2 = o.l2 ∧
  o2.weightDecay = o.weightDecay ∧ o2.clipNorm = o.clipNorm ∧
  (o.vW.isSome → o2.vW.isSome) ∧ (o.vb.isSome → o2.vb.isSome)

/-- The list `xs` has, for every entry of `ys`, an entry at the same index of the same
shape and size. -/
def Covers (xs ys : List (NdArray R)) : Prop :=
  ∀ i, i < ys.length → ∃ x y, xs[i]? = some x ∧ ys[i]? = some y ∧ x.Conforms y

/-- The precondition of `apply`: as many biases as weights, gradients of the shapes and
sizes of the parameters, and an optimizer that is either fresh (accumulators `null`, to be
allocated from the well-formed parameters) or has accumulators of the shapes and sizes
of the parameters. -/
def ApplyReady (o : Optimizer R) (m : MLP R) (grads : Grads R) : Prop :=
  m.biases.length = m.weights.length ∧ Covers grads.dW m.weights ∧ Covers grads.db m.biases ∧
  ((o.vW = none ∧ (∀ W, W ∈ m.weights → W.WF) ∧ (∀ b, b ∈ m.biases → b.WF)) ∨
   (∃ vW vb, o.vW = some vW ∧ o.vb = some vb ∧ Covers vW m.weights ∧ Covers vb m.biases))

/-- The optimizer after the lazy allocation at the start of `apply`:
`if (!this.vW) this._initState(model)`. -/
def withState (o : Optimizer R) (model : MLP R) : Optimizer R :=
  if o.vW.isNone then o._initState model else o

/-! ## Repeated steps and example optimizers -/

/-- All-zero gradients: every entry of every tensor of the list is `0`. -/
def AllZero (xs : List (NdArray R)) : Prop :=
  ∀ g, g ∈ xs → ∀ v, v ∈ g.data → v = 0

/-- Performs `k` successive calls `opt.apply(model, grads)` with the same gradients. -/
def applyTimes (M : JsMath R) (grads : Grads R) : Nat → Optimizer R → MLP R →
    Option (Optimizer R × MLP R)
  | 0, o, model => some (o, model)
  | k + 1, o, model => do
      let (o2, model2) ← o.apply M model grads
      applyTimes M grads k o2 model2

/-- A fresh optimizer with `lr = 1/10`, `momentum = 1/2`, `l2 = 1/4`,
`weightDecay = 1/5` and clipping disabled. -/
def exOptimizer : Optimizer ℚ :=
  Optimizer.construct (1 / 10) (1 / 2) (1 / 4) (1 / 5) 0

/-- A fresh optimizer with `lr = 1/2` and `weightDecay = 0.1` alone. -/
def exDecayOptimizer : Optimizer ℚ :=
  Optimizer.construct (1 / 2) 0 0 (1 / 10) 0

/-- All-zero gradients of the shapes of `exModel2`. -/
def exZeroGrads2 : Grads ℚ :=
  ⟨[⟨[2, 2], [0, 0, 0, 0]⟩, ⟨[1, 2], [0, 0]⟩], [⟨[2, 1], [0, 0]⟩, ⟨[1, 1], [0]⟩]⟩

/-! ## Construction: names and example inputs -/

/-- The nine keys of the table `Activations`. -/
def supportedNames : List String :=
  ["relu", "leaky_relu", "elu", "gelu", "swish", "tanh", "sigmoid", "softsign", "linear"]

/-- A stand-in for `nj.random`: every call returns the array of the requested shape
filled with `3/4`. -/
def exRandom : Nat → List Nat → NdArray ℚ :=
  fun _ shape => ⟨shape, List.replicate shape.prod (3 / 4)⟩

/-! ## Shapes of a model -/

/-- Entry `i` of `sizes` (`0` past the end). -/
def MLP.size (m : MLP R) (i : Nat) : Nat := m.sizes.getD i 0

/-- The shape invariant of a model with `L` layers: `sizes` has `L + 1` entries, there are
`L` biases, and layer `l` has a weight matrix of shape `sizes[l+1] × sizes[l]` and a
bias of shape `sizes[l+1] × 1`. -/
def MLP.WellShaped (m : MLP R) : Prop :=
  m.sizes.length = m.weights.length + 1 ∧ m.biases.length = m.weights.length ∧
  ∀ l, l < m.weights.length → ∃ W b, m.weights[l]? = some W ∧ m.biases[l]? = some b ∧
    W.shape = [m.size (l + 1), m.size l] ∧ b.shape = [m.size (l + 1), 1]

/-- An activation whose `f` and `df` return an array of the shape of their argument, as
the elementwise activations of the table do. -/
def ShapePreserving (act : Activation R) : Prop :=
  ∀ z, (act.f z).shape = z.shape ∧ (act.df z).shape = z.shape

/-- The cache after `k` layers of a forward pass has `k + 1` entries in `a` and `k` in
`z`, with `a[i]` of shape `sizes[i] × 1` and `z[i]` of shape `sizes[i+1] × 1`. -/
def CacheShaped (m : MLP R) (c : Cache R) (k : Nat) : Prop :=
  c.a.length = k + 1 ∧ c.z.length = k ∧
  (∀ i, i ≤ k → ∃ A, c.a[i]? = some A ∧ A.shape = [m.size i, 1]) ∧
  (∀ i, i < k → ∃ Z, c.z[i]? = some Z ∧ Z.shape = [m.size (i + 1), 1])

/-! ## Activations on single numbers -/

/-- The number that an array function returns for the one-entry array `[[x]]`. -/
def scalarOf (g : NdArray R → NdArray R) (x : R) : R :=
  (g ⟨[1, 1], [x]⟩).entry 0

/-- The sample points of the finite-difference test of the activations:
`-5, -1, -0.1, 0, 0.1, 1, 5`. -/
def samplePoints : List R :=
  [-5, -1, -(1 / 10), 0, 1 / 10, 1, 5]

/-! ## Columns, matrices and the loss -/

/-- A well-formed column vector with `n` entries. -/
def NdArray.IsCol (A : NdArray R) (n : Nat) : Prop :=
  A.shape = [n, 1] ∧ A.data.length = n

/-- A well-formed matrix with `p` rows and `q` columns. -/
def NdArray.IsMat (A : NdArray R) (p q : Nat) : Prop :=
  A.shape = [p, q] ∧ A.data.length = p * q

/-- The loss `0.5 · sum((y - t)²)` of an output `y` against a label `t`. -/
def halfSumSquares (y t : NdArray R) : R :=
  1 / 2 * ∑ i ∈ Finset.range y.data.length, (y.entry i - t.entry i) * (y.entry i - t.entry i)

/-- Source `mseLoss(yPred, yTrue)` of `script.js`: `tolist()[0][0]` of `0.5 · err²`, where
`err = yPred.subtract(yTrue)`. The value is a number only for a two-dimensional array with
at least one row and one column, where it is element `(0, 0)`; `none` stands for every
other outcome (`undefined` for a one-dimensional array or for a row without entries, a
nested list for a higher rank, a throw for an array without rows). -/
def mseLoss (yPred yTrue : NdArray R) : Option R := do
  let err ← yPred.subtract yTrue
  let sq ← err.multiply err
  let half := sq.multiplyScalar (1 / 2)
  match half.shape with
  | [r, c] => if 0 < r ∧ 0 < c then half.data[0]? else none
  | _ => none

/-- The loss `0.5 · sum((forward(x) - t)²)` of a model on the input `x` and the label `t`
(`0` when `forward` throws). -/
def lossOf (m : MLP R) (x t : NdArray R) : R :=
  match m.forward x false with
  | some (y, _) => halfSumSquares y t
  | none => 0

/-- The array `A` with entry `i` of its buffer replaced by `v`. -/
def NdArray.setEntry (A : NdArray R) (i : Nat) (v : R) : NdArray R :=
  ⟨A.shape, A.data.set i v⟩

/-- The model `m` with entry `i` of `weights[l]` replaced by `v`. -/
def MLP.withWeight (m : MLP R) (l i : Nat) (v : R) : MLP R :=
  match m.weights[l]? with
  | some W => { m with weights := m.weights.set l (W.setEntry i v) }
  | none => m

/-- The model `m` with entry `i` of `biases[l]` replaced by `v`. -/
def MLP.withBias (m : MLP R) (l i : Nat) (v : R) : MLP R :=
  match m.biases[l]? with
  | some b => { m with biases := m.biases.set l (b.setEntry i v) }
  | none => m

/-- An activation that acts entry by entry: `f` and `df` map every entry of their argument
through one function of a number (the functions `scalarOf f` and `scalarOf df`). -/
def Elementwise (act : Activation R) : Prop :=
  ∀ z, act.f z = mapNd z (scalarOf act.f) ∧ act.df z = mapNd z (scalarOf act.df)

/-- The pre-activation of layer `k + 1` computed from the pre-activation `z` of layer `k`:
`W[k+1] · asCol(act.f(z)) + b[k+1]`. -/
def nextPreActivation (m : MLP R) (k : Nat) (z : NdArray R) : Option (NdArray R) := do
  let W ← m.weights[k + 1]?
  let b ← m.biases[k + 1]?
  (← dot W (asCol (m.act.f z))).add b

/-- The loss reached from the pre-activation `z` of layer `k` when `n` layers follow:
the remaining layers are applied and the last pre-activation is the output. -/
def lossFrom (m : MLP R) (t : NdArray R) : Nat → Nat → NdArray R → Option R
  | 0, _, z => some (halfSumSquares (asCol z) t)
  | n + 1, k, z => do
      let z2 ← nextPreActivation m k z
      lossFrom m t n (k + 1) z2

/-- A model with the shape invariant whose weights and biases are well-formed arrays. -/
def MLP.WellFormed (m : MLP R) : Prop :=
  m.WellShaped ∧ (∀ W, W ∈ m.weights → W.WF) ∧ (∀ b, b ∈ m.biases → b.WF)

/-- An input for the model `m`: a well-formed array of length `sizes[0]`, as a vector or
as a column. -/
def MLP.IsInput (m : MLP R) (x : NdArray R) : Prop :=
  (x.shape = [m.size 0] ∨ x.shape = [m.size 0, 1]) ∧ x.WF

/-- The cache of a forward pass on `x` after `k` layers: `a[i]` is the input of layer `i`
for `i ≤ k` and `z[i]` the pre-activation of layer `i` for `i < k`. -/
def CacheOf (m : MLP R) (x : NdArray R) (c : Cache R) (k : Nat) : Prop :=
  c.a.length = k + 1 ∧ c.z.length = k ∧
  (∀ i, i ≤ k → c.a[i]? = layerInput m x i) ∧
  (∀ i, i < k → c.z[i]? = preActivation m x i)

/-- A model of sizes `[2, 2, 1]` with the `sigmoid` activation. -/
def exModel3 (M : JsMath R) : MLP R :=
  ⟨[2, 2, 1], [⟨[2, 2], [1, 2, 3, 4]⟩, ⟨[1, 2], [1, -1]⟩],
    [⟨[2, 1], [0, 1]⟩, ⟨[1, 1], [5]⟩], Activations.sigmoid M⟩

end Substrate

/-! # Theorems -/

section Theorems

variable {R : Type} [LinearOrderedField R]

/-! ## Elementwise operations and shapes -/

theorem subtract_shape {A B C : NdArray R} (h : A.subtract B = some C) : C.shape = A.shape := by
  unfold NdArray.subtract at h
  split at h
  · cases h; rfl
  · cases h

theorem subtract_isSome {A B : NdArray R} (h : A.shape = B.shape) :
    ∃ C, A.subtract B = some C := by
  unfold NdArray.subtract
  rw [if_pos h]
  exact ⟨_, rfl⟩

omit [LinearOrderedField R] in
theorem shapesOf_set {xs : List (NdArray R)} {l : Nat} {A B : NdArray R}
    (hA : xs[l]? = some A) (hB : B.shape = A.shape) : shapesOf (xs.set l B) = shapesOf xs := by
  unfold shapesOf
  rw [List.map_set]
  apply List.ext_getElem?
  intro i
  by_cases hi : l = i
  · subst hi
    simp [List.getElem?_set_self', hA, hB]
  · rw [List.getElem?_set_ne hi]

omit [LinearOrderedField R] in
theorem shapesOf_getElem? {xs ys : List (NdArray R)} (h : shapesOf xs = shapesOf ys) {l : Nat}
    {A : NdArray R} (hA : xs[l]? = some A) : ∃ B, ys[l]? = some B ∧ A.shape = B.shape := by
  have h1 : (shapesOf xs)[l]? = (shapesOf ys)[l]? := by rw [h]
  unfold shapesOf at h1
  rw [List.getElem?_map, List.getElem?_map, hA] at h1
  cases hB : ys[l]? with
  | none => rw [hB] at h1; cases h1
  | some B =>
      rw [hB] at h1
      exact ⟨B, rfl, by simpa using h1⟩

/-- With `momentum = 0`, `l2 = 0` and `weightDecay = 0` the loop of `apply` is the loop of
`step`, and it leaves the optimizer as it is. -/
theorem applyLoop_eq_stepLoop (grads : Grads R) (o : Optimizer R) (hmu : o.momentum = 0)
    (hl2 : o.l2 = 0) (hwd : o.weightDecay = 0) :
    ∀ (n l : Nat) (m : MLP R),
      applyLoop grads n l o m = (stepLoop grads o.lr n l m).map (fun m2 => (o, m2)) := by
  intro n
  induction n with
  | zero => intro l m; simp [applyLoop, stepLoop]
  | succ n ih =>
      intro l m
      simp only [applyLoop, stepLoop, applyLayer, hmu, hl2, hwd, ne_eq, not_true_eq_false,
        if_false, Option.bind_eq_bind, Option.pure_def, Option.some_bind]
      cases h1 : grads.dW[l]? <;> cases h2 : grads.db[l]? <;> cases h3 : m.weights[l]? <;>
        cases h5 : m.biases[l]? <;>
        simp only [Option.some_bind, Option.none_bind, Option.map_none', Option.bind_none]
      · rename_i gW gb W b
        cases h4 : W.subtract (gW.multiplyScalar o.lr) <;>
          simp only [Option.some_bind, Option.none_bind, Option.map_none', Option.bind_none]
        cases h6 : b.subtract (gb.multiplyScalar o.lr) <;>
          simp only [Option.some_bind, Option.none_bind, Option.map_none', Option.bind_none]
        exact ih _ _

/-- The loop of `step` returns a model when the gradients have the shapes of the
parameters. -/
theorem stepLoop_isSome (grads : Grads R) (lr : R) :
    ∀ (n l : Nat) (m : MLP R), l + n = m.weights.length → m.biases.length = m.weights.length →
      shapesOf m.weights = shapesOf grads.dW → shapesOf m.biases = shapesOf grads.db →
      ∃ m2, stepLoop grads lr n l m = some m2 := by
  intro n
  induction n with
  | zero => intro l m _ _ _ _; exact ⟨m, rfl⟩
  | succ n ih =>
      intro l m hl hb hW hB
      have hlW : l < m.weights.length := by omega
      have hlb : l < m.biases.length := by omega
      have e1 : m.weights[l]? = some m.weights[l] := List.getElem?_eq_getElem hlW
      have e2 : m.biases[l]? = some m.biases[l] := List.getElem?_eq_getElem hlb
      obtain ⟨gW, e3, s3⟩ := shapesOf_getElem? hW e1
      obtain ⟨gb, e4, s4⟩ := shapesOf_getElem? hB e2
      obtain ⟨W2, e5⟩ := subtract_isSome (A := m.weights[l]) (B := gW.multiplyScalar lr) s3
      obtain ⟨b2, e6⟩ := subtract_isSome (A := m.biases[l]) (B := gb.multiplyScalar lr) s4
      have := ih (l + 1) { m with weights := m.weights.set l W2, biases := m.biases.set l b2 }
        (by simp; omega) (by simp [hb])
        (by simp only; rw [shapesOf_set e1 (subtract_shape e5)]; exact hW)
        (by simp only; rw [shapesOf_set e2 (subtract_shape e6)]; exact hB)
      obtain ⟨m2, h2⟩ := this
      refine ⟨m2, ?_⟩
      simp only [stepLoop, e1, e2, e3, e4, e5, e6, Option.bind_eq_bind, Option.some_bind]
      exact h2

/-- C1: an optimizer with `momentum = 0`, `l2 = 0`, `weightDecay = 0`, `clipNorm = 0`
and learning rate `lr`, applied to a model and gradients of the shapes of its weights and
biases, returns, and leaves the model with exactly the weights and biases that
`step(gradients, lr)` produces from the same model and gradients. -/
theorem apply_plain_eq_step (M : JsMath R) (o : Optimizer R) (m : MLP R) (grads : Grads R)
    (hmu : o.momentum = 0) (hl2 : o.l2 = 0) (hwd : o.weightDecay = 0)
    (hclip : o.clipNorm = 0) (hb : m.biases.length = m.weights.length)
    (hW : shapesOf m.weights = shapesOf grads.dW)
    (hB : shapesOf m.biases = shapesOf grads.db) :
    ∃ o2 m2, o.apply M m grads = some (o2, m2) ∧ m.step grads o.lr = some m2 := by
  obtain ⟨m2, h2⟩ := stepLoop_isSome grads o.lr m.weights.length 0 m (by simp) hb hW hB
  have hclip2 : (if o.vW.isNone then o._initState m else o).clipNorm = 0 := by
    split <;> simp [Optimizer._initState, hclip]
  have hlr : (if o.vW.isNone then o._initState m else o).lr = o.lr := by
    split <;> simp [Optimizer._initState]
  refine ⟨if o.vW.isNone then o._initState m else o, m2, ?_, h2⟩
  unfold Optimizer.apply
  simp only [Optimizer._maybeClip, hclip2, true_or, if_true]
  rw [applyLoop_eq_stepLoop grads _ (by split <;> simp [Optimizer._initState, hmu])
    (by split <;> simp [Optimizer._initState, hl2])
    (by split <;> simp [Optimizer._initState, hwd]), hlr, h2]
  rfl

/-- C1, evaluated: the learning rate `1/10` on `exModel1` and `exGrads1`. -/
theorem apply_plain_eq_step_witness :
    ∃ o2 m2, (Optimizer.construct (1 / 10) 0 0 0 0).apply ratMath exModel1 exGrads1
        = some (o2, m2) ∧
      exModel1.step exGrads1 (1 / 10) = some m2 :=
  apply_plain_eq_step ratMath (Optimizer.construct (1 / 10) 0 0 0 0) exModel1 exGrads1
    rfl rfl rfl rfl rfl rfl rfl

/-! ## The forward pass -/

theorem layerInput_none_add (m : MLP R) (x : NdArray R) (l : Nat)
    (h : layerInput m x l = none) : ∀ j, layerInput m x (l + j) = none := by
  intro j
  induction j with
  | zero => exact h
  | succ j ih =>
      show layerInput m x ((l + j) + 1) = none
      simp only [layerInput, ih, Option.bind_eq_bind, Option.none_bind]

theorem layerInput_succ_of_some (m : MLP R) (x : NdArray R) (l : Nat) {a : NdArray R}
    (h : layerInput m x l = some a) :
    layerInput m x (l + 1) = (do
      let W ← m.weights[l]?
      let b ← m.biases[l]?
      let z ← (← dot W a).add b
      pure (asCol (m.act.f z))) := by
  simp only [layerInput, h, Option.bind_eq_bind, Option.some_bind]

/-- The hidden-layer loop of `forward` started at layer `l` on the input of layer `l`
ends with the input of layer `l + n`, and fails exactly when that is undefined. -/
theorem forwardLoop_fst (m : MLP R) (x : NdArray R) :
    ∀ (n l : Nat) (a : NdArray R) (cache : Option (Cache R)), layerInput m x l = some a →
      (forwardLoop m n l a cache).map Prod.fst = layerInput m x (l + n) := by
  intro n
  induction n with
  | zero => intro l a cache h; simp [forwardLoop, h]
  | succ n ih =>
      intro l a cache h
      have hs := layerInput_succ_of_some m x l h
      simp only [Option.bind_eq_bind, Option.pure_def] at hs
      simp only [forwardLoop, Option.bind_eq_bind]
      have e : l + (n + 1) = (l + 1) + n := by omega
      rw [e]
      cases hW : m.weights[l]? with
      | none =>
          simp only [hW, Option.none_bind] at hs ⊢
          simpa using (layerInput_none_add m x (l + 1) hs n).symm
      | some W =>
        cases hb : m.biases[l]? with
        | none =>
            simp only [hW, hb, Option.some_bind, Option.none_bind] at hs ⊢
            simpa using (layerInput_none_add m x (l + 1) hs n).symm
        | some b =>
          cases hd : dot W a with
          | none =>
              simp only [hW, hb, hd, Option.some_bind, Option.none_bind] at hs ⊢
              simpa using (layerInput_none_add m x (l + 1) hs n).symm
          | some d =>
            cases hz : d.add b with
            | none =>
                simp only [hW, hb, hd, hz, Option.some_bind, Option.none_bind] at hs ⊢
                simpa using (layerInput_none_add m x (l + 1) hs n).symm
            | some z =>
                simp only [hW, hb, hd, hz, Option.some_bind] at hs ⊢
                exact ih (l + 1) _ _ hs

/-- C2 (amended): `forward` applies the activation in the layers `0 .. L-2` only; the
returned output is `asCol` of the last layer's pre-activation `W[L-1]·a[L-1] + b[L-1]`
itself, where `a[0] = asCol(x)` and `a[l+1] = asCol(act.f(W[l]·a[l] + b[l]))`. It returns
exactly when that pre-activation is defined. -/
theorem forward_output_is_last_preActivation (m : MLP R) (x : NdArray R) (training : Bool) :
    (m.forward x training).map Prod.fst
      = (preActivation m x (m.weights.length - 1)).map asCol := by
  unfold MLP.forward preActivation
  by_cases hL : m.weights.length = 0
  · have hw : m.weights[0]? = none := by
      rw [List.getElem?_eq_none]; omega
    simp [hL, hw, layerInput]
  · simp only [hL, if_false, Option.bind_eq_bind, Option.pure_def]
    have h := forwardLoop_fst m x (m.weights.length - 1) 0 (asCol x)
      (if training = true then some ⟨[asCol x], []⟩ else none) rfl
    rw [Nat.zero_add] at h
    rw [← h]
    cases forwardLoop m (m.weights.length - 1) 0 (asCol x)
      (if training = true then some ⟨[asCol x], []⟩ else none) with
    | none => rfl
    | some r =>
        obtain ⟨a, c⟩ := r
        simp only [Option.some_bind, Option.map_some']
        cases m.weights[m.weights.length - 1]? <;> simp
        cases m.biases[m.weights.length - 1]? <;> simp
        cases dot _ a <;> simp
        rename_i W b d
        cases d.add b <;> simp

/-- C2 fails as stated: on the one-layer `relu` model `exModel1` and the input `[[-1]]`
the last (only) pre-activation is `[[-1]]`, `forward` returns it unchanged, and
`relu` of it is `[[0]]`. -/
theorem forward_last_layer_not_activated :
    preActivation exModel1 ⟨[1, 1], [-1]⟩ 0 = some ⟨[1, 1], [-1]⟩ ∧
    exModel1.forward ⟨[1, 1], [-1]⟩ false = some (⟨[1, 1], [-1]⟩, none) ∧
    exModel1.act.f ⟨[1, 1], [-1]⟩ = ⟨[1, 1], [0]⟩ ∧
    (exModel1.forward ⟨[1, 1], [-1]⟩ false).map Prod.fst
      ≠ (preActivation exModel1 ⟨[1, 1], [-1]⟩ 0).map exModel1.act.f := by
  norm_num [preActivation, layerInput, MLP.forward, forwardLoop, exModel1, asCol, dot,
    NdArray.add, NdArray.at2, Activations.relu, mapNd, dataOf, NdArray.clone, List.range_succ]

/-! ## The backward pass -/

omit [LinearOrderedField R] in
theorem drop_cons_facts {α : Type} {xs : List α} {n : Nat} {x : α} {rest : List α}
    (h : xs.drop n = x :: rest) :
    n < xs.length ∧ xs[n]? = some x ∧ xs.drop (n + 1) = rest := by
  have hlt : n < xs.length := by
    by_contra hc
    have : xs.drop n = [] := List.drop_eq_nil_iff.mpr (by omega)
    rw [this] at h
    cases h
  refine ⟨hlt, ?_, ?_⟩
  · have := List.getElem?_drop xs n 0
    rw [h] at this
    simpa using this.symm
  · rw [← List.tail_drop, h]
    rfl

/-- The loop of `backward` with `n` iterations left, entered with `delta = delta[n]` at the
head of the entries of `db` already present: it returns `(dW, db)` exactly when the
entries above index `n` are the ones already present and the entries below satisfy the
recurrences of back-propagation. -/
theorem backwardLoop_iff (m : MLP R) (c : Cache R) :
    ∀ (n : Nat) (d : NdArray R) (accW accb dW db : List (NdArray R)), accb[0]? = some d →
      (backwardLoop m c n d accW accb = some (dW, db) ↔
        dW.drop n = accW ∧ db.drop n = accb ∧ n ≤ dW.length ∧
        (∀ l, l < n → ∃ W zl d1, m.weights[l + 1]? = some W ∧ c.z[l]? = some zl ∧
          db[l + 1]? = some d1 ∧
          (dot W.T d1).bind (fun p => p.multiply (m.act.df zl)) = db[l]?) ∧
        (∀ l, l < n → ∃ dl al, db[l]? = some dl ∧ c.a[l]? = some al ∧
          dot dl al.T = dW[l]?)) := by
  intro n
  induction n with
  | zero =>
      intro d accW accb dW db _
      simp only [backwardLoop, List.drop_zero, Option.some.injEq, Prod.mk.injEq]
      constructor
      · rintro ⟨h1, h2⟩
        exact ⟨h1.symm, h2.symm, Nat.zero_le _, fun l hl => absurd hl (Nat.not_lt_zero l),
          fun l hl => absurd hl (Nat.not_lt_zero l)⟩
      · rintro ⟨h1, h2, _, _, _⟩
        exact ⟨h1.symm, h2.symm⟩
  | succ n ih =>
      intro d accW accb dW db hd
      constructor
      · intro h
        simp only [backwardLoop, Option.bind_eq_bind, Option.bind_eq_some] at h
        obtain ⟨W, hW, zl, hz, p, hp, d2, hd2, al, ha, g, hg, hrec⟩ := h
        have hih := (ih d2 (g :: accW) (d2.clone :: accb) dW db (by simp [NdArray.clone])).mp hrec
        obtain ⟨e1, e2, _, r1, r2⟩ := hih
        obtain ⟨gl, g1, g2⟩ := drop_cons_facts e1
        obtain ⟨_, b1, b2⟩ := drop_cons_facts e2
        have hdn1 : db[n + 1]? = some d := by
          have := List.getElem?_drop db (n + 1) 0
          rw [b2, hd] at this
          simpa using this.symm
        refine ⟨g2, b2, gl, ?_, ?_⟩
        · intro l hl
          rcases Nat.lt_succ_iff_lt_or_eq.mp hl with hlt | heq
          · exact r1 l hlt
          · subst heq
            refine ⟨W, zl, d, hW, hz, hdn1, ?_⟩
            rw [hp, Option.some_bind, hd2, b1]
            rfl
        · intro l hl
          rcases Nat.lt_succ_iff_lt_or_eq.mp hl with hlt | heq
          · exact r2 l hlt
          · subst heq
            exact ⟨d2, al, b1, ha, by rw [hg, g1]⟩
      · rintro ⟨e1, e2, hlen, r1, r2⟩
        obtain ⟨W, zl, d1, hW, hz, hd1, hstep⟩ := r1 n (Nat.lt_succ_self n)
        obtain ⟨dl, al, hdl, ha, hg⟩ := r2 n (Nat.lt_succ_self n)
        have hdn1 : db[n + 1]? = some d := by
          have := List.getElem?_drop db (n + 1) 0
          rw [e2, hd] at this
          simpa using this.symm
        rw [hdn1] at hd1
        have hdd : d = d1 := Option.some.inj hd1
        subst hdd
        rw [hdl] at hstep
        have hnW : n < dW.length := hlen
        have hnb : n < db.length := by
          by_contra hc
          have : db[n]? = none := List.getElem?_eq_none (by omega)
          rw [this] at hdl
          cases hdl
        have hgn : dW[n]? = some dW[n] := List.getElem?_eq_getElem hnW
        have hbn : db[n] = dl := by
          have := List.getElem?_eq_getElem hnb
          rw [hdl] at this
          exact (Option.some.inj this).symm
        have hrec : backwardLoop m c n dl (dW[n] :: accW) (dl.clone :: accb) = some (dW, db) := by
          apply (ih dl (dW[n] :: accW) (dl.clone :: accb) dW db (by simp [NdArray.clone])).mpr
          refine ⟨?_, ?_, Nat.le_of_lt hnW, fun l hl => r1 l (Nat.lt_succ_of_lt hl),
            fun l hl => r2 l (Nat.lt_succ_of_lt hl)⟩
          · rw [List.drop_eq_getElem_cons hnW, e1]
          · rw [List.drop_eq_getElem_cons hnb, e2, hbn]
            rfl
        obtain ⟨p, hp, hd2⟩ := Option.bind_eq_some.mp hstep
        rw [hgn] at hg
        simp only [backwardLoop, Option.bind_eq_bind, hW, hz, ha, Option.some_bind, hp, hd2, hg]
        exact hrec
/-- C3: for a model with `L ≥ 1` layers, a label `yTrue` and a cache `{a, z}`, `backward`
returns `{dW, db}` exactly when `dW` and `db` have `L` entries with
`db[L-1] = a[L] - yTrue`, `db[l] = (transpose(W[l+1]) · db[l+1]) ⊙ df(z[l])` for
`l = L-2, …, 0`, and `dW[l] = db[l] · transpose(a[l])` for every layer `l` (so `db[l]` is
the `delta` of layer `l`). The model is an argument only: `backward` has no model to
return, its weights and biases are not changed. -/
theorem backward_spec (m : MLP R) (yTrue : NdArray R) (cache : Cache R) (g : Grads R)
    (hL : 1 ≤ m.weights.length) :
    m.backward yTrue cache = some g ↔
      g.dW.length = m.weights.length ∧ g.db.length = m.weights.length ∧
      (∃ aL, cache.a[m.weights.length]? = some aL ∧
        aL.subtract yTrue = g.db[m.weights.length - 1]?) ∧
      (∀ l, l + 1 < m.weights.length → ∃ W zl d1, m.weights[l + 1]? = some W ∧
        cache.z[l]? = some zl ∧ g.db[l + 1]? = some d1 ∧
        (dot W.T d1).bind (fun p => p.multiply (m.act.df zl)) = g.db[l]?) ∧
      (∀ l, l < m.weights.length → ∃ dl al, g.db[l]? = some dl ∧ cache.a[l]? = some al ∧
        dot dl al.T = g.dW[l]?) := by
  obtain ⟨n, hn⟩ : ∃ n, m.weights.length = n + 1 := ⟨m.weights.length - 1, by omega⟩
  have hne : ¬ (n + 1 = 0) := by omega
  obtain ⟨dW, db⟩ := g
  simp only [MLP.backward, hn, hne, if_false, Nat.add_sub_cancel, mseGrad,
    Option.bind_eq_bind, Option.pure_def]
  constructor
  · intro h
    simp only [Option.bind_eq_some, Option.some.injEq, Grads.mk.injEq] at h
    obtain ⟨aL, haL, delta, hdelta, aPrev, hPrev, g0, hg0, ⟨dW2, db2⟩, hloop, h1, h2⟩ := h
    simp only at h1 h2
    subst h1 h2
    obtain ⟨e1, e2, _, r1, r2⟩ :=
      (backwardLoop_iff m cache n delta [g0] [delta.clone] dW2 db2
        (by simp [NdArray.clone])).mp hloop
    obtain ⟨l1, g1, g2⟩ := drop_cons_facts e1
    obtain ⟨l2, b1, b2⟩ := drop_cons_facts e2
    have hlW : dW2.length = n + 1 := by
      have := List.drop_eq_nil_iff.mp g2
      omega
    have hlb : db2.length = n + 1 := by
      have := List.drop_eq_nil_iff.mp b2
      omega
    refine ⟨hlW, hlb, ⟨aL, haL, ?_⟩, fun l hl => r1 l (by omega), ?_⟩
    · rw [hdelta, b1]
      rfl
    · intro l hl
      rcases Nat.lt_succ_iff_lt_or_eq.mp hl with hlt | heq
      · exact r2 l hlt
      · subst heq
        exact ⟨delta, aPrev, b1, hPrev, by rw [hg0, g1]⟩
  · rintro ⟨hlW, hlb, ⟨aL, haL, hsub⟩, r1, r2⟩
    obtain ⟨dl, al, hdl, hal, hg⟩ := r2 n (Nat.lt_succ_self n)
    have hnW : n < dW.length := by omega
    have hnb : n < db.length := by omega
    have hgn : dW[n]? = some dW[n] := List.getElem?_eq_getElem hnW
    have hbn : db[n] = dl := by
      have := List.getElem?_eq_getElem hnb
      rw [hdl] at this
      exact (Option.some.inj this).symm
    rw [hdl] at hsub
    rw [hgn] at hg
    have hloop : backwardLoop m cache n dl [dW[n]] [dl.clone] = some (dW, db) := by
      apply (backwardLoop_iff m cache n dl [dW[n]] [dl.clone] dW db
        (by simp [NdArray.clone])).mpr
      refine ⟨?_, ?_, Nat.le_of_lt hnW, fun l hl => r1 l (by omega),
        fun l hl => r2 l (Nat.lt_succ_of_lt hl)⟩
      · rw [List.drop_eq_getElem_cons hnW, List.drop_eq_nil_iff.mpr (by omega)]
      · rw [List.drop_eq_getElem_cons hnb, List.drop_eq_nil_iff.mpr (by omega), hbn]
        rfl
    simp only [haL, hsub, hal, hg, hloop, Option.some_bind]

/-- C3, evaluated on the two-layer model `exModel2`, the label `[[1]]` and `exCache2`:
`backward` returns `exGrads2`, which therefore satisfies the recurrences. -/
theorem backward_spec_witness :
    1 ≤ exModel2.weights.length ∧
    exModel2.backward ⟨[1, 1], [1]⟩ exCache2 = some exGrads2 ∧
    (∀ l, l + 1 < exModel2.weights.length → ∃ W zl d1, exModel2.weights[l + 1]? = some W ∧
        exCache2.z[l]? = some zl ∧ exGrads2.db[l + 1]? = some d1 ∧
        (dot W.T d1).bind (fun p => p.multiply (exModel2.act.df zl)) = exGrads2.db[l]?) :=
  have h : exModel2.backward ⟨[1, 1], [1]⟩ exCache2 = some exGrads2 := by
    decide!
  ⟨by decide, h,
    ((backward_spec exModel2 ⟨[1, 1], [1]⟩ exCache2 exGrads2 (by decide)).mp h).2.2.2.1⟩

/-! ## Gradient clipping -/

/-- The sum of the squares of the entries of a tensor. -/
theorem addSumsq_eq (s : R) (G : NdArray R) :
    addSumsq s G = s + (G.data.map (fun v => v * v)).sum := by
  unfold addSumsq
  generalize G.data = xs
  induction xs generalizing s with
  | nil => simp
  | cons x xs ih => simp only [List.foldl_cons, ih, List.map_cons, List.sum_cons]; ring

theorem foldl_addSumsq_eq (s : R) (xs : List (NdArray R)) :
    xs.foldl addSumsq s = s + ((xs.flatMap NdArray.data).map (fun v => v * v)).sum := by
  induction xs generalizing s with
  | nil => simp
  | cons G xs ih =>
      simp only [List.foldl_cons, ih, addSumsq_eq, List.flatMap_cons, List.map_append,
        List.sum_append]
      ring

/-- The running `sumsq` of `_maybeClip` is the sum of the squares over the flattened
concatenation of all `dW` and `db` tensors. -/
theorem sumsqOf_eq (grads : Grads R) :
    sumsqOf grads
      = (((grads.dW ++ grads.db).flatMap NdArray.data).map (fun v => v * v)).sum := by
  unfold sumsqOf
  rw [foldl_addSumsq_eq, foldl_addSumsq_eq]
  simp only [List.flatMap_append, List.map_append, List.sum_append]
  ring

/-- C4: `_maybeClip` clips with one global scale factor: with `n` the L2 norm of the
flattened concatenation of all `dW` and `db` tensors, the gradients are returned unchanged
if `clipNorm ≤ 0` or `n ≤ clipNorm`, and otherwise every entry of every `dW[l]` and
`db[l]` is multiplied by the same factor `clipNorm / (n + 1e-12)`. -/
theorem maybeClip_eq_clipSpec (M : JsMath R) (o : Optimizer R) (grads : Grads R) :
    o._maybeClip M grads = clipSpec M o.clipNorm grads := by
  unfold Optimizer._maybeClip clipSpec globalNorm
  rw [sumsqOf_eq]
  dsimp only
  by_cases h0 : o.clipNorm ≤ 0
  · rw [if_pos (Or.inr h0), if_pos (Or.inl h0)]
  · have h1 : ¬ (o.clipNorm = 0 ∨ o.clipNorm ≤ 0) := by
      rintro (h | h)
      · exact h0 (le_of_eq h)
      · exact h0 h
    rw [if_neg h1]
    split
    · rename_i h2
      rw [if_pos (Or.inr h2)]
    · rename_i h2
      rw [if_neg (not_or.mpr ⟨h0, h2⟩)]
      rfl
theorem flatMap_data_scale (s : R) (xs : List (NdArray R)) :
    (xs.map (scaleEntries s)).flatMap NdArray.data
      = (xs.flatMap NdArray.data).map (fun v => v * s) := by
  induction xs with
  | nil => rfl
  | cons G xs ih =>
      simp only [List.map_cons, List.flatMap_cons, ih, List.map_append]
      rfl

theorem sum_sq_scale (s : R) (vs : List R) :
    ((vs.map (fun v => v * s)).map (fun v => v * v)).sum
      = s * s * (vs.map (fun v => v * v)).sum := by
  induction vs with
  | nil => simp
  | cons v vs ih =>
      simp only [List.map_cons, List.sum_cons, ih]
      ring

/-- Scaling every entry of every tensor by `s` scales the sum of squares by `s * s`. -/
theorem sumsqOf_scale (s : R) (grads : Grads R) :
    sumsqOf ⟨grads.dW.map (scaleEntries s), grads.db.map (scaleEntries s)⟩
      = s * s * sumsqOf grads := by
  rw [sumsqOf_eq, sumsqOf_eq]
  simp only [← List.map_append, flatMap_data_scale, sum_sq_scale]

/-- C5: when the global L2 norm `n` of the gradients exceeds `clipNorm = c > 0`,
`_maybeClip` multiplies every entry of every gradient tensor by the same positive factor
`s = c / (n + 1e-12)` (so the direction is unchanged), the sum of squares of the result is
`(s·n)²`, and the recomputed global L2 norm (the non-negative `m` with `m² =` that sum) is
`s·n`, within `1e-9` of `c`. -/
theorem maybeClip_norm_within (M : JsMath R) (o : Optimizer R) (grads : Grads R) (n : R)
    (hc : 0 < o.clipNorm) (hsqrt : M.sqrt (sumsqOf grads) = n) (hnn : n * n = sumsqOf grads)
    (hgt : o.clipNorm < n) :
    0 < o.clipNorm / (n + 1 / 1000000000000) ∧
    (o._maybeClip M grads).dW
      = grads.dW.map (scaleEntries (o.clipNorm / (n + 1 / 1000000000000))) ∧
    (o._maybeClip M grads).db
      = grads.db.map (scaleEntries (o.clipNorm / (n + 1 / 1000000000000))) ∧
    sumsqOf (o._maybeClip M grads)
      = (o.clipNorm / (n + 1 / 1000000000000) * n)
        * (o.clipNorm / (n + 1 / 1000000000000) * n) ∧
    ∀ m : R, 0 ≤ m → m * m = sumsqOf (o._maybeClip M grads) →
      m = o.clipNorm / (n + 1 / 1000000000000) * n ∧
      |m - o.clipNorm| ≤ 1 / 1000000000 := by
  have hn0 : 0 < n := lt_trans hc hgt
  have hden : 0 < n + 1 / 1000000000000 := by positivity
  have hs : 0 < o.clipNorm / (n + 1 / 1000000000000) := div_pos hc hden
  have hclip : o._maybeClip M grads
      = ⟨grads.dW.map (scaleEntries (o.clipNorm / (n + 1 / 1000000000000))),
         grads.db.map (scaleEntries (o.clipNorm / (n + 1 / 1000000000000)))⟩ := by
    unfold Optimizer._maybeClip
    rw [if_neg (not_or.mpr ⟨ne_of_gt hc, not_le.mpr hc⟩)]
    dsimp only
    rw [hsqrt, if_neg (not_le.mpr hgt)]
    rfl
  have hsum : sumsqOf (o._maybeClip M grads)
      = (o.clipNorm / (n + 1 / 1000000000000) * n)
        * (o.clipNorm / (n + 1 / 1000000000000) * n) := by
    rw [hclip, sumsqOf_scale, ← hnn]
    ring
  refine ⟨hs, by rw [hclip], by rw [hclip], hsum, ?_⟩
  intro m hm hmm
  have hsn : 0 ≤ o.clipNorm / (n + 1 / 1000000000000) * n :=
    le_of_lt (mul_pos hs hn0)
  have hm_eq : m = o.clipNorm / (n + 1 / 1000000000000) * n := by
    rw [hsum] at hmm
    exact (mul_self_inj hm hsn).mp hmm
  refine ⟨hm_eq, ?_⟩
  rw [hm_eq]
  have hdiff : o.clipNorm / (n + 1 / 1000000000000) * n - o.clipNorm
      = -(o.clipNorm * (1 / 1000000000000) / (n + 1 / 1000000000000)) := by
    field_simp
    ring
  rw [hdiff, abs_neg, abs_of_nonneg (by positivity)]
  rw [div_le_iff₀ hden]
  nlinarith

/-- C5, evaluated at the gradients `dW = [[6]]`, `db = [[8]]` of global norm `10` with
`clipNorm = 2`: every entry is scaled by the one factor `2 / (10 + 1e-12)`, which is
within `1e-13` of `0.2`, and the recomputed norm is within `1e-9` of `2`. -/
theorem maybeClip_norm_within_witness :
    (0 : ℚ) < 2 ∧ ratMath.sqrt (sumsqOf exGradsNorm10) = 10 ∧
    (10 : ℚ) * 10 = sumsqOf exGradsNorm10 ∧ (2 : ℚ) < 10 ∧
    (Optimizer._maybeClip ratMath (Optimizer.construct (1 / 100) 0 0 0 2) exGradsNorm10).dW
      = exGradsNorm10.dW.map (scaleEntries ((2 : ℚ) / (10 + 1 / 1000000000000))) ∧
    (Optimizer._maybeClip ratMath (Optimizer.construct (1 / 100) 0 0 0 2) exGradsNorm10).db
      = exGradsNorm10.db.map (scaleEntries ((2 : ℚ) / (10 + 1 / 1000000000000))) ∧
    |(2 : ℚ) / (10 + 1 / 1000000000000) - 2 / 10| ≤ 1 / 10000000000000 ∧
    ∀ m : ℚ, 0 ≤ m →
      m * m = sumsqOf
        (Optimizer._maybeClip ratMath (Optimizer.construct (1 / 100) 0 0 0 2) exGradsNorm10) →
      m = 2 / (10 + 1 / 1000000000000) * 10 ∧ |m - 2| ≤ 1 / 1000000000 :=
  have h := maybeClip_norm_within ratMath (Optimizer.construct (1 / 100) 0 0 0 2)
    exGradsNorm10 10 (by decide!) (by decide!) (by decide!) (by decide!)
  ⟨by decide!, by decide!, by decide!, by decide!, h.2.1, h.2.2.1, by norm_num [abs_le],
    h.2.2.2.2⟩

/-! ## Entrywise form of the array operations -/

omit [LinearOrderedField R] in
theorem getD_eq_of_lt [Zero R] (xs : List R) (i : Nat) (h : i < xs.length) :
    xs.getD i 0 = xs[i] := by
  simp [List.getD, List.getElem?_eq_getElem h]

theorem entrywise_shape (A : NdArray R) (f : Nat → R) : (entrywise A f).shape = A.shape := rfl

theorem entrywise_length (A : NdArray R) (f : Nat → R) :
    (entrywise A f).data.length = A.data.length := by
  simp [entrywise]

theorem entrywise_entry (A : NdArray R) (f : Nat → R) (i : Nat) (h : i < A.data.length) :
    (entrywise A f).entry i = f i := by
  unfold NdArray.entry entrywise
  rw [getD_eq_of_lt _ _ (by simpa using h)]
  simp

theorem entrywise_congr (A : NdArray R) (f g : Nat → R)
    (h : ∀ i, i < A.data.length → f i = g i) : entrywise A f = entrywise A g := by
  unfold entrywise
  congr 1
  apply List.map_congr_left
  intro i hi
  exact h i (List.mem_range.mp hi)

theorem entrywise_of_conforms (A B : NdArray R) (f : Nat → R) (h : A.Conforms B) :
    entrywise A f = entrywise B f := by
  unfold entrywise
  rw [h.1, h.2]

theorem entrywise_conforms (A : NdArray R) (f : Nat → R) : (entrywise A f).Conforms A :=
  ⟨rfl, entrywise_length A f⟩

theorem entrywise_self (A : NdArray R) : entrywise A (fun i => A.entry i) = A := by
  obtain ⟨shape, data⟩ := A
  unfold entrywise NdArray.entry
  congr 1
  apply List.ext_getElem
  · simp
  · intro i h1 h2
    simp only [List.length_map, List.length_range] at h1
    simp [List.getElem?_eq_getElem h1]

theorem multiplyScalar_eq_entrywise (A : NdArray R) (s : R) :
    A.multiplyScalar s = entrywise A (fun i => A.entry i * s) := by
  obtain ⟨shape, data⟩ := A
  unfold NdArray.multiplyScalar entrywise NdArray.entry
  congr 1
  apply List.ext_getElem
  · simp
  · intro i h1 h2
    simp only [List.length_map] at h1
    simp [List.getElem?_eq_getElem h1]

theorem add_eq_entrywise (A B : NdArray R) (h : A.Conforms B) :
    A.add B = some (entrywise A (fun i => A.entry i + B.entry i)) := by
  obtain ⟨sA, dA⟩ := A
  obtain ⟨sB, dB⟩ := B
  obtain ⟨h1, h2⟩ := h
  simp only at h1 h2
  unfold NdArray.add entrywise NdArray.entry
  simp only [h1, if_true, Option.some.injEq, NdArray.mk.injEq, true_and]
  apply List.ext_getElem
  · simp [h2]
  · intro i hi1 hi2
    simp only [List.length_zipWith, h2, min_self] at hi1
    simp [List.getElem?_eq_getElem (show i < dA.length from h2 ▸ hi1), List.getElem?_eq_getElem hi1]

theorem subtract_eq_entrywise (A B : NdArray R) (h : A.Conforms B) :
    A.subtract B = some (entrywise A (fun i => A.entry i - B.entry i)) := by
  obtain ⟨sA, dA⟩ := A
  obtain ⟨sB, dB⟩ := B
  obtain ⟨h1, h2⟩ := h
  simp only at h1 h2
  unfold NdArray.subtract entrywise NdArray.entry
  simp only [h1, if_true, Option.some.injEq, NdArray.mk.injEq, true_and]
  apply List.ext_getElem
  · simp [h2]
  · intro i hi1 hi2
    simp only [List.length_zipWith, h2, min_self] at hi1
    simp [List.getElem?_eq_getElem (show i < dA.length from h2 ▸ hi1), List.getElem?_eq_getElem hi1]
theorem conforms_refl (A : NdArray R) : A.Conforms A := ⟨rfl, rfl⟩

theorem conforms_symm {A B : NdArray R} (h : A.Conforms B) : B.Conforms A :=
  ⟨h.1.symm, h.2.symm⟩

theorem conforms_trans {A B C : NdArray R} (h1 : A.Conforms B) (h2 : B.Conforms C) :
    A.Conforms C :=
  ⟨h1.1.trans h2.1, h1.2.trans h2.2⟩

theorem entry_of_le (A : NdArray R) (i : Nat) (h : A.data.length ≤ i) : A.entry i = 0 := by
  unfold NdArray.entry
  simp [List.getElem?_eq_none h]

theorem multiplyScalar_conforms (A : NdArray R) (s : R) : (A.multiplyScalar s).Conforms A :=
  ⟨rfl, by simp [NdArray.multiplyScalar]⟩

theorem entry_multiplyScalar (A : NdArray R) (s : R) (i : Nat) :
    (A.multiplyScalar s).entry i = A.entry i * s := by
  by_cases h : i < A.data.length
  · rw [multiplyScalar_eq_entrywise, entrywise_entry _ _ _ h]
  · rw [entry_of_le _ _ (by simpa [NdArray.multiplyScalar] using h), entry_of_le A i (by omega)]
    ring

/-- An array of the shape and size of `A` with the entries `f i` is `entrywise A f`. -/
theorem eq_entrywise_of {X A : NdArray R} {f : Nat → R} (hc : X.Conforms A)
    (h : ∀ i, i < A.data.length → X.entry i = f i) : X = entrywise A f := by
  rw [← entrywise_self X, entrywise_of_conforms X A _ hc]
  exact entrywise_congr A _ _ h

theorem add_spec (A B : NdArray R) (h : A.Conforms B) :
    ∃ C, A.add B = some C ∧ C.Conforms A ∧ ∀ i, C.entry i = A.entry i + B.entry i := by
  refine ⟨_, add_eq_entrywise A B h, entrywise_conforms _ _, ?_⟩
  intro i
  by_cases hi : i < A.data.length
  · exact entrywise_entry _ _ _ hi
  · rw [entry_of_le _ _ (by rw [entrywise_length]; omega), entry_of_le A i (by omega),
      entry_of_le B i (by rw [← h.2]; omega)]
    ring

theorem subtract_spec (A B : NdArray R) (h : A.Conforms B) :
    ∃ C, A.subtract B = some C ∧ C.Conforms A ∧ ∀ i, C.entry i = A.entry i - B.entry i := by
  refine ⟨_, subtract_eq_entrywise A B h, entrywise_conforms _ _, ?_⟩
  intro i
  by_cases hi : i < A.data.length
  · exact entrywise_entry _ _ _ hi
  · rw [entry_of_le _ _ (by rw [entrywise_length]; omega), entry_of_le A i (by omega),
      entry_of_le B i (by rw [← h.2]; omega)]
    ring

/-! ## One layer of `apply` -/

/-- The parts of a layer state. -/
theorem layerAt_eq_some {o : Optimizer R} {m : MLP R} {l : Nat} {st : LayerState R}
    (h : layerAt o m l = some st) :
    m.weights[l]? = some st.W ∧ m.biases[l]? = some st.b ∧
    ∃ vW vb, o.vW = some vW ∧ o.vb = some vb ∧ vW[l]? = some st.vW ∧ vb[l]? = some st.vb := by
  simp only [layerAt, Option.bind_eq_bind, Option.pure_def, Option.bind_eq_some,
    Option.some.injEq] at h
  obtain ⟨W, hW, b, hb, vW, hvW, v, hv, vb, hvb, u, hu, rfl⟩ := h
  exact ⟨hW, hb, vW, vb, hvW, hvb, hv, hu⟩

/-- The L2 step: the effective weight gradient is `gW + l2·W`. -/
theorem l2_step_spec (l2 : R) (gW W : NdArray R) (h : gW.Conforms W) :
    ∃ G, (if l2 ≠ 0 then gW.add (W.multiplyScalar l2) else some gW) = some G ∧
      G.Conforms W ∧ ∀ i, G.entry i = gW.entry i + l2 * W.entry i := by
  by_cases h0 : l2 = 0
  · refine ⟨gW, by simp [h0], h, fun i => by rw [h0]; ring⟩
  · obtain ⟨C, hC, hc, he⟩ := add_spec gW (W.multiplyScalar l2)
      (conforms_trans h (conforms_symm (multiplyScalar_conforms W l2)))
    refine ⟨C, by rw [if_pos h0]; exact hC, conforms_trans hc h, fun i => ?_⟩
    rw [he, entry_multiplyScalar]
    ring

/-- The weight-decay step: the weight becomes `(1 - lr·wd)·W`. -/
theorem decay_step_spec (lr wd : R) (W : NdArray R) :
    (if wd ≠ 0 then W.multiplyScalar (1 - lr * wd) else W).Conforms W ∧
    ∀ i, (if wd ≠ 0 then W.multiplyScalar (1 - lr * wd) else W).entry i
      = (1 - lr * wd) * W.entry i := by
  by_cases h0 : wd = 0
  · simp only [h0, ne_eq, not_true_eq_false, if_false]
    exact ⟨conforms_refl W, fun i => by ring⟩
  · simp only [ne_eq, h0, not_false_eq_true, if_true]
    exact ⟨multiplyScalar_conforms W _, fun i => by rw [entry_multiplyScalar]; ring⟩
omit [LinearOrderedField R] in
theorem getElem?_set_eq_ite {α : Type} (xs : List α) (l i : Nat) (a : α) (h : l < xs.length) :
    (xs.set l a)[i]? = if i = l then some a else xs[i]? := by
  by_cases hi : i = l
  · subst hi
    rw [if_pos rfl, List.getElem?_set_self h]
  · rw [if_neg hi, List.getElem?_set_ne (fun e => hi e.symm)]

omit [LinearOrderedField R] in
theorem lt_length_of_getElem? {α : Type} {xs : List α} {l : Nat} {a : α}
    (h : xs[l]? = some a) : l < xs.length := by
  by_contra hc
  rw [List.getElem?_eq_none (by omega)] at h
  cases h

/-- One iteration of the loop of `apply` on a ready layer `l`: it returns, keeps the
coefficients and the sizes, changes layer `l` as `layerUpdateSpec` says and leaves the
other layers as they are. -/
theorem applyLayer_spec (grads : Grads R) (l : Nat) (o : Optimizer R) (m : MLP R)
    (pre : LayerState R) (gW gb : NdArray R) (hpre : layerAt o m l = some pre)
    (hgW : grads.dW[l]? = some gW) (hgb : grads.db[l]? = some gb)
    (c1 : gW.Conforms pre.W) (c2 : gb.Conforms pre.b) (c3 : pre.vW.Conforms pre.W)
    (c4 : pre.vb.Conforms pre.b) :
    ∃ o2 m2, applyLayer grads l o m = some (o2, m2) ∧
      (o2.lr = o.lr ∧ o2.momentum = o.momentum ∧ o2.l2 = o.l2 ∧
        o2.weightDecay = o.weightDecay ∧ o2.clipNorm = o.clipNorm) ∧
      (m2.weights.length = m.weights.length ∧ m2.biases.length = m.biases.length) ∧
      ∀ i, layerAt o2 m2 i
        = if i = l then
            some (layerUpdateSpec o.lr o.momentum o.l2 o.weightDecay gW gb pre)
          else layerAt o m i := by
  obtain ⟨hW, hb, vW, vb, hvW, hvb, hv, hu⟩ := layerAt_eq_some hpre
  obtain ⟨W, b, v, u⟩ := pre
  simp only at hW hb hv hu c1 c2 c3 c4
  have lW := lt_length_of_getElem? hW
  have lb := lt_length_of_getElem? hb
  have lv := lt_length_of_getElem? hv
  have lu := lt_length_of_getElem? hu
  obtain ⟨G, hG, cG, eG⟩ := l2_step_spec o.l2 gW W c1
  obtain ⟨cD, eD⟩ := decay_step_spec o.lr o.weightDecay W
  by_cases hmu : o.momentum = 0
  · -- no momentum
    obtain ⟨W2, hW2, cW2, eW2⟩ := subtract_spec _ (G.multiplyScalar o.lr)
      (conforms_trans cD (conforms_symm (conforms_trans (multiplyScalar_conforms G _) cG)))
    obtain ⟨b2, hb2, cb2, eb2⟩ := subtract_spec b (gb.multiplyScalar o.lr)
      (conforms_symm (conforms_trans (multiplyScalar_conforms gb _) c2))
    refine ⟨o, { m with weights := m.weights.set l W2, biases := m.biases.set l b2 }, ?_,
      ⟨rfl, rfl, rfl, rfl, rfl⟩, ⟨by simp, by simp⟩, ?_⟩
    · have hmu2 : ¬ (o.momentum ≠ 0) := not_not.mpr hmu
      simp only [applyLayer, hgW, hgb, hW, hb, hG, hmu2, if_false,
        Option.bind_eq_bind, Option.pure_def, Option.some_bind, hW2, hb2]
    · intro i
      have hWeq : W2 = entrywise W (fun i => (1 - o.lr * o.weightDecay) * W.entry i
          - o.lr * (gW.entry i + o.l2 * W.entry i)) :=
        eq_entrywise_of (conforms_trans cW2 cD) (fun i _ => by
          rw [eW2, eD, entry_multiplyScalar, eG]; ring)
      have hbeq : b2 = entrywise b (fun i => b.entry i - o.lr * gb.entry i) :=
        eq_entrywise_of cb2 (fun i _ => by rw [eb2, entry_multiplyScalar]; ring)
      simp only [layerAt, Option.bind_eq_bind, Option.pure_def, hvW, hvb, Option.some_bind,
        getElem?_set_eq_ite _ _ _ _ lW, getElem?_set_eq_ite _ _ _ _ lb]
      by_cases hi : i = l
      · subst hi
        simp only [if_true, Option.some_bind, hv, hu, layerUpdateSpec, hmu, ne_eq,
          not_true_eq_false, if_false, ← hWeq, ← hbeq]
      · simp only [hi, if_false]
  · -- momentum
    obtain ⟨nvW, hnvW, cnvW, envW⟩ := add_spec (v.multiplyScalar o.momentum)
      (G.multiplyScalar (1 - o.momentum))
      (conforms_trans (multiplyScalar_conforms v _) (conforms_trans c3
        (conforms_symm (conforms_trans (multiplyScalar_conforms G _) cG))))
    obtain ⟨nvb, hnvb, cnvb, envb⟩ := add_spec (u.multiplyScalar o.momentum)
      (gb.multiplyScalar (1 - o.momentum))
      (conforms_trans (multiplyScalar_conforms u _) (conforms_trans c4
        (conforms_symm (conforms_trans (multiplyScalar_conforms gb _) c2))))
    have cnvW2 : nvW.Conforms v := conforms_trans cnvW (multiplyScalar_conforms v _)
    have cnvb2 : nvb.Conforms u := conforms_trans cnvb (multiplyScalar_conforms u _)
    obtain ⟨W2, hW2, cW2, eW2⟩ := subtract_spec _ (nvW.multiplyScalar o.lr)
      (conforms_trans cD (conforms_symm (conforms_trans (multiplyScalar_conforms nvW _)
        (conforms_trans cnvW2 c3))))
    obtain ⟨b2, hb2, cb2, eb2⟩ := subtract_spec b (nvb.multiplyScalar o.lr)
      (conforms_symm (conforms_trans (multiplyScalar_conforms nvb _)
        (conforms_trans cnvb2 c4)))
    refine ⟨{ o with vW := some (vW.set l nvW), vb := some (vb.set l nvb) },
      { m with weights := m.weights.set l W2, biases := m.biases.set l b2 }, ?_,
      ⟨rfl, rfl, rfl, rfl, rfl⟩, ⟨by simp, by simp⟩, ?_⟩
    · have hmu2 : o.momentum ≠ 0 := hmu
      simp only [applyLayer, hgW, hgb, hW, hb, hG, hmu2, if_true,
        Option.bind_eq_bind, Option.pure_def, Option.some_bind, hW2, hb2, hvW, hvb, hv, hu,
        hnvW, hnvb]
      rw [if_pos hmu2]
    · intro i
      have hvWeq : nvW = entrywise v (fun i => o.momentum * v.entry i
          + (1 - o.momentum) * (gW.entry i + o.l2 * W.entry i)) :=
        eq_entrywise_of cnvW2 (fun i _ => by
          rw [envW, entry_multiplyScalar, entry_multiplyScalar, eG]; ring)
      have hvbeq : nvb = entrywise u (fun i => o.momentum * u.entry i
          + (1 - o.momentum) * gb.entry i) :=
        eq_entrywise_of cnvb2 (fun i _ => by
          rw [envb, entry_multiplyScalar, entry_multiplyScalar]; ring)
      have hWeq : W2 = entrywise W (fun i => (1 - o.lr * o.weightDecay) * W.entry i
          - o.lr * nvW.entry i) :=
        eq_entrywise_of (conforms_trans cW2 cD) (fun i _ => by
          rw [eW2, eD, entry_multiplyScalar]; ring)
      have hbeq : b2 = entrywise b (fun i => b.entry i - o.lr * nvb.entry i) :=
        eq_entrywise_of cb2 (fun i _ => by rw [eb2, entry_multiplyScalar]; ring)
      simp only [layerAt, Option.bind_eq_bind, Option.pure_def, Option.some_bind,
        getElem?_set_eq_ite _ _ _ _ lW, getElem?_set_eq_ite _ _ _ _ lb,
        getElem?_set_eq_ite _ _ _ _ lv, getElem?_set_eq_ite _ _ _ _ lu]
      by_cases hi : i = l
      · subst hi
        simp only [if_true, Option.some_bind, layerUpdateSpec, hmu, ne_eq,
          not_false_eq_true, ← hvWeq, ← hvbeq, ← hWeq, ← hbeq]
      · simp only [hi, if_false, hvW, hvb, Option.some_bind]
theorem sameConfig_refl (o : Optimizer R) : SameConfig o o :=
  ⟨rfl, rfl, rfl, rfl, rfl, id, id⟩

theorem sameConfig_trans {o o2 o3 : Optimizer R} (h1 : SameConfig o o2)
    (h2 : SameConfig o2 o3) : SameConfig o o3 := by
  obtain ⟨a1, a2, a3, a4, a5, a6, a7⟩ := h1
  obtain ⟨b1, b2, b3, b4, b5, b6, b7⟩ := h2
  exact ⟨b1.trans a1, b2.trans a2, b3.trans a3, b4.trans a4, b5.trans a5,
    fun h => b6 (a6 h), fun h => b7 (a7 h)⟩

theorem layerAfterSpec_congr (grads : Grads R) {o o2 : Optimizer R} {m m2 : MLP R}
    (hc : SameConfig o o2) (i : Nat) (h : layerAt o2 m2 i = layerAt o m i) :
    layerAfterSpec grads o2 m2 i = layerAfterSpec grads o m i := by
  obtain ⟨a1, a2, a3, a4, _⟩ := hc
  unfold layerAfterSpec
  rw [h, a1, a2, a3, a4]

/-- The loop of `apply` over ready layers `l, …, l + n - 1`: it returns, and changes
exactly these layers, each as `layerUpdateSpec` says. -/
theorem applyLoop_spec (grads : Grads R) :
    ∀ (n l : Nat) (o : Optimizer R) (m : MLP R),
      (∀ i, l ≤ i → i < l + n → LayerReady grads o m i) →
      ∃ o2 m2, applyLoop grads n l o m = some (o2, m2) ∧ SameConfig o o2 ∧
        (m2.weights.length = m.weights.length ∧ m2.biases.length = m.biases.length) ∧
        ∀ i, layerAt o2 m2 i
          = if l ≤ i ∧ i < l + n then layerAfterSpec grads o m i else layerAt o m i := by
  intro n
  induction n with
  | zero =>
      intro l o m _
      refine ⟨o, m, rfl, sameConfig_refl o, ⟨rfl, rfl⟩, fun i => ?_⟩
      rw [if_neg (by omega)]
  | succ n ih =>
      intro l o m hready
      obtain ⟨pre, gW, gb, hpre, hgW, hgb, c1, c2, c3, c4⟩ :=
        hready l (Nat.le_refl l) (by omega)
      obtain ⟨o1, m1, h1, hcfg, hlen, hat⟩ :=
        applyLayer_spec grads l o m pre gW gb hpre hgW hgb c1 c2 c3 c4
      obtain ⟨vW, vb, hvW, hvb⟩ : ∃ vW vb, o.vW = some vW ∧ o.vb = some vb := by
        obtain ⟨_, _, vW, vb, hvW, hvb, _, _⟩ := layerAt_eq_some hpre
        exact ⟨vW, vb, hvW, hvb⟩
      have hsome1 : o1.vW.isSome ∧ o1.vb.isSome := by
        have := hat l
        rw [if_pos rfl] at this
        obtain ⟨_, _, vW1, vb1, e1, e2, _, _⟩ := layerAt_eq_some this
        simp [e1, e2]
      have hcfg1 : SameConfig o o1 := by
        obtain ⟨a1, a2, a3, a4, a5⟩ := hcfg
        exact ⟨a1, a2, a3, a4, a5, fun _ => hsome1.1, fun _ => hsome1.2⟩
      have hready1 : ∀ i, l + 1 ≤ i → i < l + 1 + n → LayerReady grads o1 m1 i := by
        intro i hi1 hi2
        obtain ⟨p, g1, g2, hp, r⟩ := hready i (by omega) (by omega)
        refine ⟨p, g1, g2, ?_, r⟩
        rw [hat i, if_neg (by omega)]
        exact hp
      obtain ⟨o2, m2, h2, hcfg2, hlen2, hat2⟩ := ih (l + 1) o1 m1 hready1
      refine ⟨o2, m2, ?_, sameConfig_trans hcfg1 hcfg2,
        ⟨hlen2.1.trans hlen.1, hlen2.2.trans hlen.2⟩, fun i => ?_⟩
      · simp only [applyLoop, h1, Option.bind_eq_bind, Option.some_bind]
        exact h2
      · rw [hat2 i]
        by_cases hil : i = l
        · subst hil
          rw [if_neg (by omega), if_pos (by omega), hat i, if_pos rfl]
          simp only [layerAfterSpec, hpre, hgW, hgb, Option.bind_eq_bind, Option.pure_def,
            Option.some_bind]
        · have hati : layerAt o1 m1 i = layerAt o m i := by rw [hat i, if_neg hil]
          by_cases hin : l + 1 ≤ i ∧ i < l + 1 + n
          · rw [if_pos hin, if_pos (by omega)]
            exact layerAfterSpec_congr grads hcfg1 i hati
          · rw [if_neg hin, if_neg (by omega)]
            exact hati
/-! ## The whole of `apply` -/

theorem withState_config (o : Optimizer R) (m : MLP R) :
    (withState o m).lr = o.lr ∧ (withState o m).momentum = o.momentum ∧
    (withState o m).l2 = o.l2 ∧ (withState o m).weightDecay = o.weightDecay ∧
    (withState o m).clipNorm = o.clipNorm := by
  unfold withState
  split <;> simp [Optimizer._initState]

theorem maybeClip_withState (M : JsMath R) (o : Optimizer R) (m : MLP R) (grads : Grads R) :
    (withState o m)._maybeClip M grads = o._maybeClip M grads := by
  unfold Optimizer._maybeClip
  rw [(withState_config o m).2.2.2.2]

theorem zeros_conforms (W : NdArray R) (h : W.WF) : (NdArray.zeros W.shape : NdArray R).Conforms W :=
  ⟨rfl, by
    unfold NdArray.WF at h
    simp [NdArray.zeros, h]⟩

theorem covers_map_multiplyScalar (s : R) {xs ys : List (NdArray R)} (h : Covers xs ys) :
    Covers (xs.map (fun g => g.multiplyScalar s)) ys := by
  intro i hi
  obtain ⟨x, y, hx, hy, hc⟩ := h i hi
  exact ⟨x.multiplyScalar s, y, by simp [hx], hy,
    conforms_trans (multiplyScalar_conforms x s) hc⟩

theorem covers_maybeClip (M : JsMath R) (o : Optimizer R) (grads : Grads R)
    (ws bs : List (NdArray R)) (hW : Covers grads.dW ws) (hB : Covers grads.db bs) :
    Covers (o._maybeClip M grads).dW ws ∧ Covers (o._maybeClip M grads).db bs := by
  unfold Optimizer._maybeClip
  split
  · exact ⟨hW, hB⟩
  · dsimp only
    split
    · exact ⟨hW, hB⟩
    · exact ⟨covers_map_multiplyScalar _ hW, covers_map_multiplyScalar _ hB⟩

/-- Under the precondition of `apply` every layer is ready once the accumulators are
allocated. -/
theorem layerReady_of_applyReady (o : Optimizer R) (m : MLP R) (grads : Grads R)
    (h : ApplyReady o m grads) (i : Nat) (hi : i < m.weights.length) :
    LayerReady grads (withState o m) m i := by
  obtain ⟨hlen, hW, hB, hst⟩ := h
  obtain ⟨gW, W, hgW, hWi, cW⟩ := hW i hi
  obtain ⟨gb, b, hgb, hbi, cb⟩ := hB i (by omega)
  rcases hst with ⟨hnone, wfW, wfb⟩ | ⟨vW, vb, hvW, hvb, cvW, cvb⟩
  · refine ⟨⟨W, b, NdArray.zeros W.shape, NdArray.zeros b.shape⟩, gW, gb, ?_, hgW, hgb, cW, cb,
      zeros_conforms W (wfW W (List.getElem?_mem hWi)),
      zeros_conforms b (wfb b (List.getElem?_mem hbi))⟩
    simp [layerAt, withState, hnone, Optimizer._initState, hWi, hbi]
  · obtain ⟨v, W2, hv, hW2, cv⟩ := cvW i hi
    obtain ⟨u, b2, hu, hb2, cu⟩ := cvb i (by omega)
    rw [hWi] at hW2
    rw [hbi] at hb2
    cases hW2
    cases hb2
    refine ⟨⟨W, b, v, u⟩, gW, gb, ?_, hgW, hgb, cW, cb, cv, cu⟩
    simp [layerAt, withState, hvW, hvb, hWi, hbi, hv, hu]

theorem layerUpdateSpec_conforms (lr mu l2 wd : R) (gW gb : NdArray R) (pre : LayerState R)
    (c3 : pre.vW.Conforms pre.W) (c4 : pre.vb.Conforms pre.b) :
    (layerUpdateSpec lr mu l2 wd gW gb pre).W.Conforms pre.W ∧
    (layerUpdateSpec lr mu l2 wd gW gb pre).b.Conforms pre.b ∧
    (layerUpdateSpec lr mu l2 wd gW gb pre).vW.Conforms pre.W ∧
    (layerUpdateSpec lr mu l2 wd gW gb pre).vb.Conforms pre.b := by
  unfold layerUpdateSpec
  split
  · exact ⟨entrywise_conforms _ _, entrywise_conforms _ _,
      conforms_trans (entrywise_conforms _ _) c3, conforms_trans (entrywise_conforms _ _) c4⟩
  · exact ⟨entrywise_conforms _ _, entrywise_conforms _ _, c3, c4⟩

/-- The method `apply` under its precondition: it returns, every layer is updated as
`layerUpdateSpec` says from the clipped gradients and the accumulators after the lazy
allocation, and the precondition holds again for the result. -/
theorem apply_spec (M : JsMath R) (o : Optimizer R) (m : MLP R) (grads : Grads R)
    (h : ApplyReady o m grads) :
    ∃ o2 m2, o.apply M m grads = some (o2, m2) ∧ SameConfig (withState o m) o2 ∧
      (m2.weights.length = m.weights.length ∧ m2.biases.length = m.biases.length) ∧
      (∀ l, l < m.weights.length → ∃ pre gW gb, layerAt (withState o m) m l = some pre ∧
        (o._maybeClip M grads).dW[l]? = some gW ∧ (o._maybeClip M grads).db[l]? = some gb ∧
        gW.Conforms pre.W ∧ gb.Conforms pre.b ∧ pre.vW.Conforms pre.W ∧
        pre.vb.Conforms pre.b ∧
        layerAt o2 m2 l
          = some (layerUpdateSpec o.lr o.momentum o.l2 o.weightDecay gW gb pre)) ∧
      ApplyReady o2 m2 grads := by
  obtain ⟨cl1, cl2⟩ := covers_maybeClip M o grads m.weights m.biases h.2.1 h.2.2.1
  have hready : ∀ i, 0 ≤ i → i < 0 + m.weights.length →
      LayerReady (o._maybeClip M grads) (withState o m) m i := by
    intro i _ hi
    exact layerReady_of_applyReady o m (o._maybeClip M grads)
      ⟨h.1, cl1, cl2, h.2.2.2⟩ i (by omega)
  obtain ⟨o2, m2, hloop, hcfg, hlen, hat⟩ :=
    applyLoop_spec (o._maybeClip M grads) m.weights.length 0 (withState o m) m hready
  obtain ⟨k1, k2, k3, k4, k5⟩ := withState_config o m
  have hlayers : ∀ l, l < m.weights.length → ∃ pre gW gb,
      layerAt (withState o m) m l = some pre ∧
      (o._maybeClip M grads).dW[l]? = some gW ∧ (o._maybeClip M grads).db[l]? = some gb ∧
      gW.Conforms pre.W ∧ gb.Conforms pre.b ∧ pre.vW.Conforms pre.W ∧
      pre.vb.Conforms pre.b ∧
      layerAt o2 m2 l
        = some (layerUpdateSpec o.lr o.momentum o.l2 o.weightDecay gW gb pre) := by
    intro l hl
    obtain ⟨pre, gW, gb, hpre, hgW, hgb, c1, c2, c3, c4⟩ := hready l (Nat.zero_le l) (by omega)
    refine ⟨pre, gW, gb, hpre, hgW, hgb, c1, c2, c3, c4, ?_⟩
    rw [hat l, if_pos (by omega)]
    simp only [layerAfterSpec, hpre, hgW, hgb, Option.bind_eq_bind, Option.pure_def,
      Option.some_bind, k1, k2, k3, k4]
  refine ⟨o2, m2, ?_, hcfg, hlen, hlayers, ?_⟩
  · unfold Optimizer.apply
    have e : (if o.vW.isNone = true then o._initState m else o) = withState o m := rfl
    simp only [e, maybeClip_withState]
    exact hloop
  · -- the precondition holds again
    have hsome : (withState o m).vW.isSome ∧ (withState o m).vb.isSome := by
      rcases h.2.2.2 with ⟨hnone, _, _⟩ | ⟨vW, vb, hvW, hvb, _, _⟩
      · simp [withState, hnone, Optimizer._initState]
      · simp [withState, hvW, hvb]
    obtain ⟨vW2, hvW2⟩ := Option.isSome_iff_exists.mp (hcfg.2.2.2.2.2.1 hsome.1)
    obtain ⟨vb2, hvb2⟩ := Option.isSome_iff_exists.mp (hcfg.2.2.2.2.2.2 hsome.2)
    refine ⟨by rw [hlen.1, hlen.2]; exact h.1, ?_, ?_, Or.inr ⟨vW2, vb2, hvW2, hvb2, ?_, ?_⟩⟩
    · intro i hi
      rw [hlen.1] at hi
      obtain ⟨pre, gW, gb, hpre, _, _, _, _, c3, c4, hpost⟩ := hlayers i hi
      obtain ⟨x, y, hx, hy, hc⟩ := h.2.1 i hi
      obtain ⟨e1, _, _⟩ := layerAt_eq_some hpre
      obtain ⟨f1, _, _⟩ := layerAt_eq_some hpost
      rw [hy] at e1
      cases e1
      exact ⟨x, _, hx, f1, conforms_trans hc (conforms_symm
        (layerUpdateSpec_conforms _ _ _ _ gW gb pre c3 c4).1)⟩
    · intro i hi
      rw [hlen.2] at hi
      obtain ⟨pre, gW, gb, hpre, _, _, _, _, c3, c4, hpost⟩ := hlayers i (by rw [← h.1]; exact hi)
      obtain ⟨x, y, hx, hy, hc⟩ := h.2.2.1 i hi
      obtain ⟨_, e1, _⟩ := layerAt_eq_some hpre
      obtain ⟨_, f1, _⟩ := layerAt_eq_some hpost
      rw [hy] at e1
      cases e1
      exact ⟨x, _, hx, f1, conforms_trans hc (conforms_symm
        (layerUpdateSpec_conforms _ _ _ _ gW gb pre c3 c4).2.1)⟩
    · intro i hi
      rw [hlen.1] at hi
      obtain ⟨pre, gW, gb, hpre, _, _, _, _, c3, c4, hpost⟩ := hlayers i hi
      obtain ⟨f1, _, vW3, vb3, g1, g2, g3, g4⟩ := layerAt_eq_some hpost
      rw [hvW2] at g1
      cases g1
      obtain ⟨q1, q2, q3, q4⟩ := layerUpdateSpec_conforms o.lr o.momentum o.l2 o.weightDecay
        gW gb pre c3 c4
      exact ⟨_, _, g3, f1, conforms_trans q3 (conforms_symm q1)⟩
    · intro i hi
      rw [hlen.2] at hi
      obtain ⟨pre, gW, gb, hpre, _, _, _, _, c3, c4, hpost⟩ := hlayers i (by rw [← h.1]; exact hi)
      obtain ⟨_, f1, vW3, vb3, g1, g2, g3, g4⟩ := layerAt_eq_some hpost
      rw [hvb2] at g2
      cases g2
      obtain ⟨q1, q2, q3, q4⟩ := layerUpdateSpec_conforms o.lr o.momentum o.l2 o.weightDecay
        gW gb pre c3 c4
      exact ⟨_, _, g4, f1, conforms_trans q4 (conforms_symm q2)⟩

/-- C7: one `apply` under its precondition returns, and for every layer `l`, with
`gW, gb` the gradients of the layer after clipping and `W, b, vW, vb` the state of the
layer before (accumulators after the lazy allocation), the state after is
`layerUpdateSpec`: for `mu ≠ 0`, `vW' = mu·vW + (1-mu)·(gW + l2·W)`,
`vb' = mu·vb + (1-mu)·gb`, `W' = (1 - lr·wd)·W - lr·vW'`, `b' = b - lr·vb'`; for `mu = 0`
the accumulators are unchanged and `W' = (1 - lr·wd)·W - lr·(gW + l2·W)`,
`b' = b - lr·gb`. The L2 term uses `W` before decay and neither L2 nor decay touches
the bias. -/
theorem apply_layer_update (M : JsMath R) (o : Optimizer R) (m : MLP R) (grads : Grads R)
    (h : ApplyReady o m grads) :
    ∃ o2 m2, o.apply M m grads = some (o2, m2) ∧
      ∀ l, l < m.weights.length → ∃ pre gW gb,
        layerAt (withState o m) m l = some pre ∧
        (o._maybeClip M grads).dW[l]? = some gW ∧
        (o._maybeClip M grads).db[l]? = some gb ∧
        layerAt o2 m2 l
          = some (layerUpdateSpec o.lr o.momentum o.l2 o.weightDecay gW gb pre) := by
  obtain ⟨o2, m2, h1, _, _, h2, _⟩ := apply_spec M o m grads h
  refine ⟨o2, m2, h1, fun l hl => ?_⟩
  obtain ⟨pre, gW, gb, a1, a2, a3, _, _, _, _, a4⟩ := h2 l hl
  exact ⟨pre, gW, gb, a1, a2, a3, a4⟩

/-- C7, evaluated: the fresh `exOptimizer` (momentum `1/2`, L2 `1/4`, decay `1/5`) on
`exModel2` and `exGrads2`; the last layer ends with `vW' = [-47/8, -133/8]` and
`W' = [627/400, 273/400]`. -/
theorem apply_layer_update_witness :
    ApplyReady exOptimizer exModel2 exGrads2 ∧
    (∃ o2 m2, exOptimizer.apply ratMath exModel2 exGrads2 = some (o2, m2) ∧
      ∀ l, l < exModel2.weights.length → ∃ pre gW gb,
        layerAt (withState exOptimizer exModel2) exModel2 l = some pre ∧
        (exOptimizer._maybeClip ratMath exGrads2).dW[l]? = some gW ∧
        (exOptimizer._maybeClip ratMath exGrads2).db[l]? = some gb ∧
        layerAt o2 m2 l = some (layerUpdateSpec exOptimizer.lr exOptimizer.momentum
          exOptimizer.l2 exOptimizer.weightDecay gW gb pre)) ∧
    (exOptimizer.apply ratMath exModel2 exGrads2).map (fun r => layerAt r.1 r.2 1)
      = some (some ⟨⟨[1, 2], [627 / 400, 273 / 400]⟩, ⟨[1, 1], [103 / 20]⟩,
          ⟨[1, 2], [-47 / 8, -133 / 8]⟩, ⟨[1, 1], [-3 / 2]⟩⟩) :=
  have hready : ApplyReady exOptimizer exModel2 exGrads2 := by
    refine ⟨rfl, ?_, ?_, Or.inl ⟨rfl, ?_, ?_⟩⟩
    · intro i hi
      have hi2 : i = 0 ∨ i = 1 := by
        have : i < 2 := hi
        omega
      rcases hi2 with rfl | rfl <;> exact ⟨_, _, rfl, rfl, rfl, rfl⟩
    · intro i hi
      have hi2 : i = 0 ∨ i = 1 := by
        have : i < 2 := hi
        omega
      rcases hi2 with rfl | rfl <;> exact ⟨_, _, rfl, rfl, rfl, rfl⟩
    · intro W hW
      simp only [exModel2, List.mem_cons, List.mem_singleton, List.not_mem_nil, or_false] at hW
      rcases hW with rfl | rfl <;> rfl
    · intro b hb
      simp only [exModel2, List.mem_cons, List.mem_singleton, List.not_mem_nil, or_false] at hb
      rcases hb with rfl | rfl <;> rfl
  ⟨hready, apply_layer_update ratMath exOptimizer exModel2 exGrads2 hready, by decide!⟩

/-! ## Weight decay alone -/

theorem maybeClip_disabled (M : JsMath R) (o : Optimizer R) (grads : Grads R)
    (h : o.clipNorm = 0) : o._maybeClip M grads = grads := by
  unfold Optimizer._maybeClip
  rw [if_pos (Or.inl h)]

theorem entry_eq_zero_of_allZero {xs : List (NdArray R)} (hz : AllZero xs) {l : Nat}
    {g : NdArray R} (hg : xs[l]? = some g) (i : Nat) : g.entry i = 0 := by
  by_cases hi : i < g.data.length
  · unfold NdArray.entry
    rw [getD_eq_of_lt _ _ hi]
    exact hz g (List.getElem?_mem hg) _ (List.getElem_mem hi)
  · exact entry_of_le g i (by omega)

theorem scaleEntries_eq_entrywise (s : R) (W : NdArray R) :
    scaleEntries s W = entrywise W (fun i => s * W.entry i) := by
  have : scaleEntries s W = W.multiplyScalar s := rfl
  rw [this, multiplyScalar_eq_entrywise]
  exact entrywise_congr W _ _ (fun i _ => by ring)

theorem scaleEntries_one (W : NdArray R) : scaleEntries 1 W = W := by
  rw [scaleEntries_eq_entrywise]
  have h := entrywise_self W
  rw [← entrywise_congr W (fun i => W.entry i) (fun i => 1 * W.entry i) (fun i _ => by ring)]
  exact h

theorem scaleEntries_scaleEntries (s t : R) (W : NdArray R) :
    scaleEntries t (scaleEntries s W) = scaleEntries (s * t) W := by
  unfold scaleEntries
  simp only [List.map_map, NdArray.mk.injEq, true_and]
  apply List.map_congr_left
  intro v _
  simp only [Function.comp_apply]
  ring

/-- One `apply` with momentum, L2 and clipping off and all-zero gradients: every weight
entry is multiplied by `1 - lr·weightDecay`, the biases stay, and the precondition and the
coefficients are kept. -/
theorem apply_decay_step (M : JsMath R) (o : Optimizer R) (m : MLP R) (grads : Grads R)
    (h : ApplyReady o m grads) (hmu : o.momentum = 0) (hl2 : o.l2 = 0)
    (hclip : o.clipNorm = 0) (hzW : AllZero grads.dW) (hzb : AllZero grads.db) :
    ∃ o2 m2, o.apply M m grads = some (o2, m2) ∧
      m2.weights = m.weights.map (scaleEntries (1 - o.lr * o.weightDecay)) ∧
      m2.biases = m.biases ∧ ApplyReady o2 m2 grads ∧
      (o2.lr = o.lr ∧ o2.momentum = o.momentum ∧ o2.l2 = o.l2 ∧
        o2.weightDecay = o.weightDecay ∧ o2.clipNorm = o.clipNorm) := by
  obtain ⟨o2, m2, hap, hcfg, hlen, hlayers, hready⟩ := apply_spec M o m grads h
  obtain ⟨k1, k2, k3, k4, k5⟩ := withState_config o m
  refine ⟨o2, m2, hap, ?_, ?_, hready,
    ⟨hcfg.1.trans k1, hcfg.2.1.trans k2, hcfg.2.2.1.trans k3, hcfg.2.2.2.1.trans k4,
      hcfg.2.2.2.2.1.trans k5⟩⟩
  · apply List.ext_getElem?
    intro i
    by_cases hi : i < m.weights.length
    · obtain ⟨pre, gW, gb, hpre, hgW, hgb, _, _, _, _, hpost⟩ := hlayers i hi
      rw [maybeClip_disabled M o grads hclip] at hgW
      obtain ⟨e1, _, _⟩ := layerAt_eq_some hpre
      obtain ⟨f1, _, _⟩ := layerAt_eq_some hpost
      rw [f1, List.getElem?_map, e1, Option.map_some', scaleEntries_eq_entrywise]
      have hmu2 : ¬ (o.momentum ≠ 0) := not_not.mpr hmu
      simp only [layerUpdateSpec, hmu2, if_false]
      congr 1
      apply entrywise_congr
      intro j _
      rw [entry_eq_zero_of_allZero hzW hgW j, hl2]
      ring
    · rw [List.getElem?_eq_none (by omega), List.getElem?_eq_none (by simp; omega)]
  · apply List.ext_getElem?
    intro i
    by_cases hi : i < m.weights.length
    · obtain ⟨pre, gW, gb, hpre, hgW, hgb, _, _, _, _, hpost⟩ := hlayers i hi
      rw [maybeClip_disabled M o grads hclip] at hgb
      obtain ⟨_, e1, _⟩ := layerAt_eq_some hpre
      obtain ⟨_, f1, _⟩ := layerAt_eq_some hpost
      rw [f1, e1]
      have hmu2 : ¬ (o.momentum ≠ 0) := not_not.mpr hmu
      simp only [layerUpdateSpec, hmu2, if_false]
      congr 1
      rw [← entrywise_congr pre.b (fun j => pre.b.entry j)
        (fun j => pre.b.entry j - o.lr * gb.entry j) (fun j _ => by
          show pre.b.entry j = pre.b.entry j - o.lr * gb.entry j
          rw [entry_eq_zero_of_allZero hzb hgb j]; ring)]
      exact entrywise_self pre.b
    · rw [List.getElem?_eq_none (by rw [hlen.2, h.1]; omega),
        List.getElem?_eq_none (by rw [h.1]; omega)]

/-- C6: with `weightDecay = 0.1`, `momentum = 0`, `l2 = 0`, `clipNorm = 0` and all-zero
gradients, one `apply` multiplies every weight entry of every layer by exactly
`1 - lr·0.1` and leaves every bias unchanged, and `k` such steps multiply every weight
entry by `(1 - lr·0.1)^k`. -/
theorem weight_decay_only (M : JsMath R) (grads : Grads R) (hzW : AllZero grads.dW)
    (hzb : AllZero grads.db) (o : Optimizer R) (m : MLP R) (h : ApplyReady o m grads)
    (hwd : o.weightDecay = 1 / 10) (hmu : o.momentum = 0) (hl2 : o.l2 = 0)
    (hclip : o.clipNorm = 0) :
    (∃ o2 m2, o.apply M m grads = some (o2, m2) ∧
      m2.weights = m.weights.map (scaleEntries (1 - o.lr * (1 / 10))) ∧
      m2.biases = m.biases) ∧
    ∀ k : Nat, ∃ o2 m2, applyTimes M grads k o m = some (o2, m2) ∧
      m2.weights = m.weights.map (scaleEntries ((1 - o.lr * (1 / 10)) ^ k)) ∧
      m2.biases = m.biases := by
  constructor
  · obtain ⟨o2, m2, h1, h2, h3, _, _⟩ := apply_decay_step M o m grads h hmu hl2 hclip hzW hzb
    rw [hwd] at h2
    exact ⟨o2, m2, h1, h2, h3⟩
  · intro k
    induction k generalizing o m with
    | zero =>
        refine ⟨o, m, rfl, ?_, rfl⟩
        rw [pow_zero]
        conv_lhs => rw [← List.map_id m.weights]
        apply List.map_congr_left
        intro W _
        exact (scaleEntries_one W).symm
    | succ k ih =>
        obtain ⟨o1, m1, h1, h2, h3, hready1, c1, c2, c3, c4, c5⟩ :=
          apply_decay_step M o m grads h hmu hl2 hclip hzW hzb
        obtain ⟨o2, m2, g1, g2, g3⟩ := ih o1 m1 hready1 (c4.trans hwd) (c2.trans hmu)
          (c3.trans hl2) (c5.trans hclip)
        refine ⟨o2, m2, ?_, ?_, g3.trans h3⟩
        · simp only [applyTimes, h1, Option.bind_eq_bind, Option.some_bind]
          exact g1
        · rw [g2, h2, c1, hwd, List.map_map]
          apply List.map_congr_left
          intro W _
          simp only [Function.comp_apply]
          rw [scaleEntries_scaleEntries, pow_succ']

/-- C6, evaluated: `exDecayOptimizer` (`lr = 1/2`, so the factor is `19/20`) on
`exModel2` with zero gradients; two steps multiply the weights by `361/400`. -/
theorem weight_decay_only_witness :
    (∃ o2 m2, exDecayOptimizer.apply ratMath exModel2 exZeroGrads2 = some (o2, m2) ∧
      m2.weights
        = exModel2.weights.map (scaleEntries (1 - exDecayOptimizer.lr * (1 / 10))) ∧
      m2.biases = exModel2.biases) ∧
    (applyTimes ratMath exZeroGrads2 2 exDecayOptimizer exModel2).map
        (fun r => (r.2.weights, r.2.biases))
      = some ([⟨[2, 2], [361 / 400, 361 / 200, 1083 / 400, 361 / 100]⟩,
          ⟨[1, 2], [361 / 400, -361 / 400]⟩], [⟨[2, 1], [0, 1]⟩, ⟨[1, 1], [5]⟩]) :=
  have hzW : AllZero exZeroGrads2.dW := by
    intro g hg v hv
    simp only [exZeroGrads2, List.mem_cons, List.mem_singleton, List.not_mem_nil,
      or_false] at hg
    rcases hg with rfl | rfl <;> simpa using hv
  have hzb : AllZero exZeroGrads2.db := by
    intro g hg v hv
    simp only [exZeroGrads2, List.mem_cons, List.mem_singleton, List.not_mem_nil,
      or_false] at hg
    rcases hg with rfl | rfl <;> simpa using hv
  have hready : ApplyReady exDecayOptimizer exModel2 exZeroGrads2 := by
    refine ⟨rfl, ?_, ?_, Or.inl ⟨rfl, ?_, ?_⟩⟩
    · intro i hi
      have hi2 : i = 0 ∨ i = 1 := by
        have : i < 2 := hi
        omega
      rcases hi2 with rfl | rfl <;> exact ⟨_, _, rfl, rfl, rfl, rfl⟩
    · intro i hi
      have hi2 : i = 0 ∨ i = 1 := by
        have : i < 2 := hi
        omega
      rcases hi2 with rfl | rfl <;> exact ⟨_, _, rfl, rfl, rfl, rfl⟩
    · intro W hW
      simp only [exModel2, List.mem_cons, List.mem_singleton, List.not_mem_nil, or_false] at hW
      rcases hW with rfl | rfl <;> rfl
    · intro b hb
      simp only [exModel2, List.mem_cons, List.mem_singleton, List.not_mem_nil, or_false] at hb
      rcases hb with rfl | rfl <;> rfl
  ⟨(weight_decay_only ratMath exZeroGrads2 hzW hzb exDecayOptimizer exModel2 hready
      rfl rfl rfl rfl).1, by decide!⟩

/-! ## Construction -/

/-- An unknown name has no entry in the table, a supported name has its own. -/
theorem Activations_eq_none_iff (M : JsMath R) (name : String) :
    Activations M name = none ↔ name ∉ supportedNames := by
  unfold Activations supportedNames
  simp only [List.mem_cons, List.mem_singleton, List.not_mem_nil, or_false, not_or]
  constructor
  · intro h
    split_ifs at h with h1 h2 h3 h4 h5 h6 h7 h8 h9
    exact ⟨h1, h2, h3, h4, h5, h6, h7, h8, h9⟩
  · rintro ⟨h1, h2, h3, h4, h5, h6, h7, h8, h9⟩
    simp only [h1, h2, h3, h4, h5, h6, h7, h8, h9, if_false]

/-- C8 (amended): for a sizes sequence with fewer than 2 entries and a valid activation
the constructor does not fail: it returns a model without layers (no weights, no biases),
and it has allocated no weight matrix and no bias vector. -/
theorem construct_short_sizes (M : JsMath R) (random : Nat → List Nat → NdArray R)
    (sizes : List Nat) (activation : ActivationArg R) (act : Activation R)
    (hlen : sizes.length < 2) (hact : resolveActivation M activation = some act) :
    MLP.construct M random sizes activation = ⟨0, .ok ⟨sizes, [], [], act⟩⟩ := by
  have h0 : sizes.length - 1 = 0 := by omega
  simp only [MLP.construct, hact, h0, buildLayers]

/-- C8 (amended), evaluated at `sizes = [3]` and the activation `"relu"`. -/
theorem construct_short_sizes_witness :
    [3].length < 2 ∧
    resolveActivation ratMath (ActivationArg.name "relu") = some Activations.relu ∧
    MLP.construct ratMath exRandom [3] (.name "relu")
      = ⟨0, .ok ⟨[3], [], [], Activations.relu⟩⟩ :=
  ⟨by decide, by simp [resolveActivation, Activations],
    construct_short_sizes ratMath exRandom [3] (.name "relu") Activations.relu (by decide)
      (by simp [resolveActivation, Activations])⟩

/-- C8 fails as stated: with `sizes = []` and with `sizes = [3]` and the valid activation
`"relu"` the constructor returns a model (one without layers) instead of failing. -/
theorem construct_short_sizes_returns :
    (∃ m, (MLP.construct ratMath exRandom [] (.name "relu")).outcome = .ok m ∧
      m.weights = [] ∧ m.biases = []) ∧
    (∃ m, (MLP.construct ratMath exRandom [3] (.name "relu")).outcome = .ok m ∧
      m.weights = [] ∧ m.biases = []) := by
  constructor
  · exact ⟨⟨[], [], [], Activations.relu⟩,
      by simp [MLP.construct, resolveActivation, Activations, buildLayers], rfl, rfl⟩
  · exact ⟨⟨[3], [], [], Activations.relu⟩,
      by simp [MLP.construct, resolveActivation, Activations, buildLayers], rfl, rfl⟩

/-- C9: constructing with a string activation name fails if and only if the name is not
one of the nine supported names; when it fails nothing has been allocated; and for a
supported name the model's activation is the table entry of that name, which for the nine
names is the corresponding `f, df` pair. -/
theorem construct_name_error_iff (M : JsMath R) (random : Nat → List Nat → NdArray R)
    (sizes : List Nat) (name : String) :
    ((∃ e, (MLP.construct M random sizes (.name name)).outcome = .error e)
      ↔ name ∉ supportedNames) ∧
    ((∃ e, (MLP.construct M random sizes (.name name)).outcome = .error e) →
      (MLP.construct M random sizes (.name name)).allocated = 0) ∧
    (name ∈ supportedNames → ∃ m a, Activations M name = some a ∧
      (MLP.construct M random sizes (.name name)).outcome = .ok m ∧ m.act = a) ∧
    (Activations M "relu" = some Activations.relu ∧
     Activations M "leaky_relu" = some Activations.leaky_relu ∧
     Activations M "elu" = some (Activations.elu M) ∧
     Activations M "gelu" = some (Activations.gelu M) ∧
     Activations M "swish" = some (Activations.swish M) ∧
     Activations M "tanh" = some (Activations.tanh M) ∧
     Activations M "sigmoid" = some (Activations.sigmoid M) ∧
     Activations M "softsign" = some Activations.softsign ∧
     Activations M "linear" = some Activations.linear) := by
  have key := Activations_eq_none_iff M name
  refine ⟨?_, ?_, ?_, ?_⟩
  · rw [← key]
    cases h : Activations M name with
    | none => simp [MLP.construct, resolveActivation, h]
    | some a => simp [MLP.construct, resolveActivation, h]
  · rintro ⟨e, he⟩
    cases h : Activations M name with
    | none => simp [MLP.construct, resolveActivation, h]
    | some a => simp [MLP.construct, resolveActivation, h] at he
  · intro hmem
    cases h : Activations M name with
    | none => exact absurd hmem (key.mp h)
    | some a =>
        exact ⟨⟨sizes, (buildLayers M random sizes (sizes.length - 1) 0 [] [] 0).1,
          (buildLayers M random sizes (sizes.length - 1) 0 [] [] 0).2.1, a⟩, a, rfl,
          by simp only [MLP.construct, resolveActivation, h], rfl⟩
  · simp [Activations]

/-- C9, evaluated: the name `"relu"` is supported and gives a model with `relu`; the name
`"nope"` is not and gives an error with nothing allocated. -/
theorem construct_name_error_iff_witness :
    (∃ m, (MLP.construct ratMath exRandom [2, 1] (.name "relu")).outcome = .ok m ∧
      m.act = Activations.relu) ∧
    (∃ e, (MLP.construct ratMath exRandom [2, 1] (.name "nope")).outcome = .error e) ∧
    (MLP.construct ratMath exRandom [2, 1] (.name "nope")).allocated = 0 :=
  have h1 := construct_name_error_iff ratMath exRandom [2, 1] "relu"
  have h2 := construct_name_error_iff ratMath exRandom [2, 1] "nope"
  have hn : "nope" ∉ supportedNames := by decide
  have hr : "relu" ∈ supportedNames := by decide
  ⟨by
      obtain ⟨m, a, ha, hm, hma⟩ := h1.2.2.1 hr
      rw [h1.2.2.2.1] at ha
      exact ⟨m, hm, hma.trans (Option.some.inj ha).symm⟩,
    h2.1.mpr hn, h2.2.1 (h2.1.mpr hn)⟩

/-! ## Shapes through the forward and the backward pass -/

theorem dot_shape {A B : NdArray R} {p k n : Nat} (hA : A.shape = [p, k])
    (hB : B.shape = [k, n]) : ∃ C, dot A B = some C ∧ C.shape = [p, n] := by
  unfold dot
  rw [hA, hB]
  simp

theorem T_shape {A : NdArray R} {r c : Nat} (hA : A.shape = [r, c]) : A.T.shape = [c, r] := by
  unfold NdArray.T
  split
  · rename_i r2 c2 h
    rw [hA] at h
    simp only [List.cons.injEq, and_true] at h
    simp [h.1, h.2]
  · rename_i h
    exact absurd hA (h r c)

theorem add_shape_some {A B : NdArray R} (h : A.shape = B.shape) :
    ∃ C, A.add B = some C ∧ C.shape = A.shape := by
  unfold NdArray.add
  rw [if_pos h]
  exact ⟨_, rfl, rfl⟩

theorem multiply_shape_some {A B : NdArray R} (h : A.shape = B.shape) :
    ∃ C, A.multiply B = some C ∧ C.shape = A.shape := by
  unfold NdArray.multiply
  rw [if_pos h]
  exact ⟨_, rfl, rfl⟩

theorem asCol_of_col {A : NdArray R} {n k : Nat} (h : A.shape = [n, k]) : asCol A = A := by
  unfold asCol
  split
  · rename_i n2 h2
    rw [h] at h2
    simp at h2
  · rfl

theorem asCol_shape_of_vec {A : NdArray R} {n : Nat} (h : A.shape = [n]) :
    (asCol A).shape = [n, 1] := by
  unfold asCol
  split
  · rename_i n2 h2
    rw [h] at h2
    simp only [List.cons.injEq, and_true] at h2
    simp [NdArray.reshapeCol, h2]
  · rename_i h2
    exact absurd h (h2 n)

/-- Every activation of the table returns arrays of the shape of its argument. -/
theorem Activations_shapePreserving (M : JsMath R) (name : String) (a : Activation R)
    (h : Activations M name = some a) : ShapePreserving a := by
  unfold Activations at h
  split_ifs at h <;> cases h <;> intro z <;> exact ⟨rfl, rfl⟩

omit [LinearOrderedField R] in
theorem getElem?_append_singleton {α : Type} (xs : List α) (x : α) (i : Nat) :
    (xs ++ [x])[i]? = if i < xs.length then xs[i]? else if i = xs.length then some x else none := by
  by_cases h : i < xs.length
  · rw [if_pos h, List.getElem?_append_left h]
  · rw [if_neg h, List.getElem?_append_right (by omega)]
    by_cases h2 : i = xs.length
    · subst h2
      simp
    · rw [if_neg h2, List.getElem?_eq_none]
      simp only [List.length_singleton]
      omega

theorem cacheShaped_push (m : MLP R) (c : Cache R) (k : Nat) (a z : NdArray R)
    (hc : CacheShaped m c k) (ha : a.shape = [m.size (k + 1), 1])
    (hz : z.shape = [m.size (k + 1), 1]) :
    CacheShaped m ⟨c.a ++ [a], c.z ++ [z]⟩ (k + 1) := by
  obtain ⟨l1, l2, sa, sb⟩ := hc
  refine ⟨by simp [l1], by simp [l2], ?_, ?_⟩
  · intro i hi
    simp only [getElem?_append_singleton, l1]
    by_cases h1 : i < k + 1
    · rw [if_pos h1]
      exact sa i (by omega)
    · rw [if_neg h1, if_pos (by omega)]
      have : i = k + 1 := by omega
      subst this
      exact ⟨a, rfl, ha⟩
  · intro i hi
    simp only [getElem?_append_singleton, l2]
    by_cases h1 : i < k
    · rw [if_pos h1]
      exact sb i h1
    · rw [if_neg h1, if_pos (by omega)]
      have : i = k := by omega
      subst this
      exact ⟨z, rfl, hz⟩

/-- One layer's pre-activation `W[l]·a + b[l]` is defined and has shape `sizes[l+1] × 1`. -/
theorem layer_z_shape (m : MLP R) (hm : m.WellShaped) (l : Nat) (hl : l < m.weights.length)
    (a : NdArray R) (ha : a.shape = [m.size l, 1]) :
    ∃ W b d z, m.weights[l]? = some W ∧ m.biases[l]? = some b ∧ dot W a = some d ∧
      d.add b = some z ∧ z.shape = [m.size (l + 1), 1] := by
  obtain ⟨W, b, hW, hb, sW, sb⟩ := hm.2.2 l hl
  obtain ⟨d, hd, sd⟩ := dot_shape sW ha
  obtain ⟨z, hz, sz⟩ := add_shape_some (sd.trans sb.symm)
  exact ⟨W, b, d, z, hW, hb, hd, hz, sz.trans sd⟩

/-- The hidden-layer loop of `forward` in training mode returns, with the shapes of the
layer sizes. -/
theorem forwardLoop_shapes (m : MLP R) (hm : m.WellShaped) (hact : ShapePreserving m.act) :
    ∀ (n l : Nat) (a : NdArray R) (c : Cache R), l + n < m.weights.length →
      a.shape = [m.size l, 1] → CacheShaped m c l →
      ∃ a2 c2, forwardLoop m n l a (some c) = some (a2, some c2) ∧
        a2.shape = [m.size (l + n), 1] ∧ CacheShaped m c2 (l + n) := by
  intro n
  induction n with
  | zero => intro l a c _ ha hc; exact ⟨a, c, rfl, ha, hc⟩
  | succ n ih =>
      intro l a c hl ha hc
      obtain ⟨W, b, d, z, hW, hb, hd, hz, sz⟩ := layer_z_shape m hm l (by omega) a ha
      have sf : (m.act.f z).shape = [m.size (l + 1), 1] := (hact z).1.trans sz
      have ea : asCol (m.act.f z) = m.act.f z := asCol_of_col sf
      obtain ⟨a2, c2, h2, s2, hc2⟩ := ih (l + 1) (m.act.f z)
        ⟨c.a ++ [m.act.f z], c.z ++ [z]⟩ (by omega) sf (cacheShaped_push m c l _ z hc sf sz)
      have e : l + 1 + n = l + (n + 1) := by omega
      rw [e] at s2 hc2
      refine ⟨a2, c2, ?_, s2, hc2⟩
      · simp only [forwardLoop, hW, hb, hd, hz, ea, Option.bind_eq_bind, Option.some_bind,
          Option.map_some']
        exact h2

/-- In training mode `forward` returns on an input of length `sizes[0]`, with an output of
shape `sizes[L] × 1` and a cache of the shapes of the layer sizes. -/
theorem forward_shapes (m : MLP R) (hm : m.WellShaped) (hact : ShapePreserving m.act)
    (hL : 1 ≤ m.weights.length) (x : NdArray R)
    (hx : x.shape = [m.size 0] ∨ x.shape = [m.size 0, 1]) :
    ∃ y c, m.forward x true = some (y, some c) ∧ y.shape = [m.size m.weights.length, 1] ∧
      CacheShaped m c m.weights.length := by
  have sx : (asCol x).shape = [m.size 0, 1] := by
    rcases hx with h | h
    · exact asCol_shape_of_vec h
    · rw [asCol_of_col h]; exact h
  have hc0 : CacheShaped m ⟨[asCol x], []⟩ 0 := by
    refine ⟨rfl, rfl, ?_, ?_⟩
    · intro i hi
      have : i = 0 := by omega
      subst this
      exact ⟨asCol x, rfl, sx⟩
    · intro i hi
      omega
  obtain ⟨a, c, h1, sa, hc⟩ := forwardLoop_shapes m hm hact (m.weights.length - 1) 0
    (asCol x) ⟨[asCol x], []⟩ (by omega) sx hc0
  rw [Nat.zero_add] at sa hc
  obtain ⟨W, b, d, z, hW, hb, hd, hz, sz⟩ :=
    layer_z_shape m hm (m.weights.length - 1) (by omega) a sa
  have e : m.weights.length - 1 + 1 = m.weights.length := by omega
  have ez : asCol z = z := asCol_of_col sz
  have hc2 := cacheShaped_push m c (m.weights.length - 1) z z hc sz sz
  rw [e] at hc2 sz
  refine ⟨z, ⟨c.a ++ [z], c.z ++ [z]⟩, ?_, sz, hc2⟩
  have hne : ¬ (m.weights.length = 0) := by omega
  simp only [MLP.forward, hne, if_false, if_true, h1, hW, hb, hd, hz, ez,
    Option.bind_eq_bind, Option.some_bind, Option.pure_def, Option.map_some']

omit [LinearOrderedField R] in
theorem shapesOf_drop_eq_cons (xs : List (NdArray R)) (n : Nat) (X : NdArray R)
    (h : xs[n]? = some X) : shapesOf (xs.drop n) = X.shape :: shapesOf (xs.drop (n + 1)) := by
  have hlt := lt_length_of_getElem? h
  rw [List.drop_eq_getElem_cons hlt]
  have : xs[n] = X := by
    have h2 := List.getElem?_eq_getElem hlt
    rw [h] at h2
    exact (Option.some.inj h2).symm
  rw [this]
  rfl

/-- The loop of `backward` on a well-shaped model and cache returns, and the gradients it
completes have the shapes of the weights and biases. -/
theorem backwardLoop_shapes (m : MLP R) (hm : m.WellShaped) (hact : ShapePreserving m.act)
    (c : Cache R) (hc : CacheShaped m c m.weights.length) :
    ∀ (n : Nat) (delta : NdArray R) (accW accb : List (NdArray R)), n < m.weights.length →
      delta.shape = [m.size (n + 1), 1] →
      shapesOf accW = shapesOf (m.weights.drop n) →
      shapesOf accb = shapesOf (m.biases.drop n) →
      ∃ dW db, backwardLoop m c n delta accW accb = some (dW, db) ∧
        shapesOf dW = shapesOf m.weights ∧ shapesOf db = shapesOf m.biases := by
  intro n
  induction n with
  | zero =>
      intro delta accW accb _ _ hW hb
      exact ⟨accW, accb, rfl, by simpa using hW, by simpa using hb⟩
  | succ n ih =>
      intro delta accW accb hn sd hW hb
      obtain ⟨Wn, bn, hWn, hbn, sWn, sbn⟩ := hm.2.2 n (by omega)
      obtain ⟨W1, b1, hW1, hb1, sW1, sb1⟩ := hm.2.2 (n + 1) hn
      obtain ⟨zl, hzl, szl⟩ := hc.2.2.2 n (by omega)
      obtain ⟨al, hal, sal⟩ := hc.2.2.1 n (by omega)
      obtain ⟨p, hp, sp⟩ := dot_shape (T_shape sW1) sd
      obtain ⟨d2, hd2, sd2⟩ := multiply_shape_some (sp.trans ((hact zl).2.trans szl).symm)
      have sd2b : d2.shape = [m.size (n + 1), 1] := sd2.trans sp
      obtain ⟨g, hg, sg⟩ := dot_shape sd2b (T_shape sal)
      obtain ⟨dW, db, h1, h2, h3⟩ := ih d2 (g :: accW) (d2.clone :: accb) (by omega) sd2b
        (by
          rw [shapesOf_drop_eq_cons m.weights n Wn hWn, ← hW, sWn, ← sg]
          rfl)
        (by
          rw [shapesOf_drop_eq_cons m.biases n bn hbn, ← hb, sbn, ← sd2b]
          rfl)
      refine ⟨dW, db, ?_, h2, h3⟩
      simp only [backwardLoop, hW1, hzl, hp, hd2, hal, hg, Option.bind_eq_bind,
        Option.some_bind]
      exact h1

/-- C10: on a model with `L ≥ 1` layers whose layer `l` has a weight matrix of shape
`sizes[l+1] × sizes[l]` and a bias of shape `sizes[l+1] × 1`, with an activation that
keeps shapes, an input of length `sizes[0]` and a label of shape `sizes[L] × 1`:
`forward` in training mode returns, `backward` on its cache returns, so that no matrix
product hits a shape mismatch, and the gradients have the shapes of the weights and
biases, layer by layer. -/
theorem backward_shapes_match (m : MLP R) (x yTrue : NdArray R) (hm : m.WellShaped)
    (hact : ShapePreserving m.act) (hL : 1 ≤ m.weights.length)
    (hx : x.shape = [m.size 0] ∨ x.shape = [m.size 0, 1])
    (hy : yTrue.shape = [m.size m.weights.length, 1]) :
    ∃ y cache g, m.forward x true = some (y, some cache) ∧
      m.backward yTrue cache = some g ∧
      shapesOf g.dW = shapesOf m.weights ∧ shapesOf g.db = shapesOf m.biases := by
  obtain ⟨y, c, hf, sy, hc⟩ := forward_shapes m hm hact hL x hx
  obtain ⟨aL, haL, saL⟩ := hc.2.2.1 m.weights.length (Nat.le_refl _)
  obtain ⟨aP, haP, saP⟩ := hc.2.2.1 (m.weights.length - 1) (by omega)
  obtain ⟨Wn, bn, hWn, hbn, sWn, sbn⟩ := hm.2.2 (m.weights.length - 1) (by omega)
  have e : m.weights.length - 1 + 1 = m.weights.length := by omega
  rw [e] at sWn sbn
  obtain ⟨delta, hdelta⟩ := subtract_isSome (saL.trans hy.symm)
  have sdelta : delta.shape = [m.size m.weights.length, 1] :=
    (subtract_shape hdelta).trans saL
  obtain ⟨g0, hg0, sg0⟩ := dot_shape sdelta (T_shape saP)
  have hdropW : m.weights.drop (m.weights.length - 1 + 1) = [] :=
    List.drop_eq_nil_iff.mpr (by omega)
  have hdropb : m.biases.drop (m.weights.length - 1 + 1) = [] :=
    List.drop_eq_nil_iff.mpr (by rw [hm.2.1]; omega)
  obtain ⟨dW, db, h1, h2, h3⟩ := backwardLoop_shapes m hm hact c hc (m.weights.length - 1)
    delta [g0] [delta.clone] (by omega) (by rw [e]; exact sdelta)
    (by
      rw [shapesOf_drop_eq_cons m.weights _ Wn hWn, hdropW, sWn, ← sg0]
      rfl)
    (by
      rw [shapesOf_drop_eq_cons m.biases _ bn hbn, hdropb, sbn, ← sdelta]
      rfl)
  refine ⟨y, c, ⟨dW, db⟩, hf, ?_, h2, h3⟩
  have hne : ¬ (m.weights.length = 0) := by omega
  simp only [MLP.backward, hne, if_false, haL, mseGrad, hdelta, haP, hg0, h1,
    Option.bind_eq_bind, Option.some_bind, Option.pure_def]

/-- C10, evaluated on `exModel2` (sizes `[2, 2, 1]`, `relu`), the input `[2, 1]` of
length `2` and the label `[[1]]`: `forward` returns the cache `exCache2`. -/
theorem backward_shapes_match_witness :
    exModel2.WellShaped ∧ ShapePreserving exModel2.act ∧
    (∃ y cache g, exModel2.forward ⟨[2], [2, 1]⟩ true = some (y, some cache) ∧
      exModel2.backward ⟨[1, 1], [1]⟩ cache = some g ∧
      shapesOf g.dW = shapesOf exModel2.weights ∧
      shapesOf g.db = shapesOf exModel2.biases) ∧
    exModel2.forward ⟨[2], [2, 1]⟩ true = some (⟨[1, 1], [-2]⟩, some exCache2) ∧
    shapesOf exGrads2.dW = shapesOf exModel2.weights :=
  have hm : exModel2.WellShaped := by
    refine ⟨rfl, rfl, ?_⟩
    intro l hl
    have hl2 : l = 0 ∨ l = 1 := by
      have : l < 2 := hl
      omega
    rcases hl2 with rfl | rfl <;> exact ⟨_, _, rfl, rfl, rfl, rfl⟩
  have hact : ShapePreserving exModel2.act := fun _ => ⟨rfl, rfl⟩
  ⟨hm, hact,
    backward_shapes_match exModel2 ⟨[2], [2, 1]⟩ ⟨[1, 1], [1]⟩ hm hact (by decide)
      (Or.inl rfl) rfl,
    by decide!, by decide⟩

/-! ## The derivative functions of `sigmoid` and `tanh` -/

/-- C12 (amended): the `df` of `sigmoid` and of `tanh` take the pre-activation value, like
every other `df`: they recompute the activation's output from it and return `s·(1 - s)`,
resp. `1 - t²`, of that output. So `sigmoid.df(v) = sigmoid.f(v)·(1 - sigmoid.f(v))` and
`tanh.df(v) = 1 - tanh.f(v)²` for every `v`. -/
theorem sigmoid_tanh_df_of_preactivation (M : JsMath R) (z : NdArray R) (v : R) :
    (Activations.sigmoid M).df z
      = mapNd ((Activations.sigmoid M).f z) (fun s => s * (1 - s)) ∧
    (Activations.tanh M).df z = mapNd ((Activations.tanh M).f z) (fun t => 1 - t * t) ∧
    scalarOf (Activations.sigmoid M).df v
      = scalarOf (Activations.sigmoid M).f v * (1 - scalarOf (Activations.sigmoid M).f v) ∧
    scalarOf (Activations.tanh M).df v
      = 1 - scalarOf (Activations.tanh M).f v * scalarOf (Activations.tanh M).f v :=
  ⟨rfl, rfl, rfl, rfl⟩

/-- C12 fails as stated: with the real exponential, `sigmoid.df(0) = 1/4` although
`0·(1 - 0) = 0`, and `tanh.df(1) ≠ 0` although `1 - 1² = 0`. -/
theorem sigmoid_tanh_df_not_of_output :
    scalarOf (Activations.sigmoid ⟨Real.exp, Real.tanh, Real.sqrt, Real.pi⟩).df 0 = 1 / 4 ∧
    scalarOf (Activations.sigmoid ⟨Real.exp, Real.tanh, Real.sqrt, Real.pi⟩).df 0
      ≠ 0 * (1 - 0) ∧
    scalarOf (Activations.tanh ⟨Real.exp, Real.tanh, Real.sqrt, Real.pi⟩).df 1
      ≠ 1 - 1 * 1 := by
  have h0 : scalarOf (Activations.sigmoid ⟨Real.exp, Real.tanh, Real.sqrt, Real.pi⟩).df 0
      = 1 / 4 := by
    simp only [scalarOf, Activations.sigmoid, mapNd, dataOf, NdArray.clone, NdArray.entry,
      List.map_cons, List.map_nil, List.getD_cons_zero, neg_zero, Real.exp_zero]
    norm_num
  refine ⟨h0, ?_, ?_⟩
  · rw [h0]
    norm_num
  · simp only [scalarOf, Activations.tanh, mapNd, dataOf, NdArray.clone, NdArray.entry,
      List.map_cons, List.map_nil, List.getD_cons_zero]
    have he : 0 < Real.exp (2 * 1) := Real.exp_pos _
    have hne : Real.exp (2 * 1) + 1 ≠ 0 := by positivity
    have key : 1 - (Real.exp (2 * 1) - 1) / (Real.exp (2 * 1) + 1)
        * ((Real.exp (2 * 1) - 1) / (Real.exp (2 * 1) + 1))
        = 4 * Real.exp (2 * 1) / ((Real.exp (2 * 1) + 1) * (Real.exp (2 * 1) + 1)) := by
      field_simp
      ring
    rw [key]
    have hpos : 0 < 4 * Real.exp (2 * 1) / ((Real.exp (2 * 1) + 1) * (Real.exp (2 * 1) + 1)) := by
      positivity
    have h11 : (1 : ℝ) - 1 * 1 = 0 := by norm_num
    rw [h11]
    exact ne_of_gt hpos

/-! ## The derivatives of the activations, over the reals -/

/-- A function with derivative `d` at `x` has central differences within any `ε > 0` of
`d` for all sufficiently small steps. -/
theorem central_difference_of_hasDerivAt {f : ℝ → ℝ} {d x : ℝ} (hf : HasDerivAt f d x)
    {ε : ℝ} (hε : 0 < ε) :
    ∃ δ, 0 < δ ∧ ∀ h, 0 < h → h < δ → |d - (f (x + h) - f (x - h)) / (2 * h)| ≤ ε := by
  have ht := hasDerivAt_iff_tendsto_slope_zero.mp hf
  rw [Metric.tendsto_nhdsWithin_nhds] at ht
  obtain ⟨δ, hδ, hclose⟩ := ht ε hε
  refine ⟨δ, hδ, fun h h0 hlt => ?_⟩
  have h1 := hclose (x := h) (by simp [ne_of_gt h0]) (by
    rw [Real.dist_eq, sub_zero, abs_of_pos h0]; exact hlt)
  have h2 := hclose (x := -h) (by simp [ne_of_gt h0]) (by
    rw [Real.dist_eq, sub_zero, abs_neg, abs_of_pos h0]; exact hlt)
  rw [Real.dist_eq] at h1 h2
  simp only [smul_eq_mul] at h1 h2
  have hne : h ≠ 0 := ne_of_gt h0
  have key : d - (f (x + h) - f (x - h)) / (2 * h)
      = -((h⁻¹ * (f (x + h) - f x) - d) + ((-h)⁻¹ * (f (x + -h) - f x) - d)) / 2 := by
    have e : x + -h = x - h := by ring
    rw [e, inv_neg]
    field_simp
    ring
  rw [key, abs_div, abs_neg, abs_of_pos (by norm_num : (0 : ℝ) < 2)]
  have := abs_add (h⁻¹ * (f (x + h) - f x) - d) ((-h)⁻¹ * (f (x + -h) - f x) - d)
  rw [div_le_iff₀ (by norm_num : (0 : ℝ) < 2)]
  linarith

theorem scalarOf_relu_f (x : ℝ) :
    scalarOf (Activations.relu : Activation ℝ).f x = if x > 0 then x else 0 := rfl

theorem scalarOf_relu_df (x : ℝ) :
    scalarOf (Activations.relu : Activation ℝ).df x = if x > 0 then 1 else 0 := rfl

theorem relu_hasDerivAt (x : ℝ) (hx : x ≠ 0) :
    HasDerivAt (scalarOf (Activations.relu : Activation ℝ).f)
      (scalarOf (Activations.relu : Activation ℝ).df x) x := by
  rcases lt_or_gt_of_ne hx with hneg | hpos
  · have hev : (fun _ : ℝ => (0 : ℝ)) =ᶠ[nhds x] scalarOf (Activations.relu : Activation ℝ).f := by
      filter_upwards [Iio_mem_nhds hneg] with y hy
      rw [scalarOf_relu_f, if_neg (not_lt.mpr (le_of_lt (Set.mem_Iio.mp hy)))]
    rw [scalarOf_relu_df, if_neg (not_lt.mpr (le_of_lt hneg))]
    exact (hasDerivAt_const x (0 : ℝ)).congr_of_eventuallyEq hev.symm
  · have hev : (fun y : ℝ => y) =ᶠ[nhds x] scalarOf (Activations.relu : Activation ℝ).f := by
      filter_upwards [Ioi_mem_nhds hpos] with y hy
      rw [scalarOf_relu_f, if_pos (Set.mem_Ioi.mp hy)]
    rw [scalarOf_relu_df, if_pos hpos]
    exact (hasDerivAt_id x).congr_of_eventuallyEq hev.symm
theorem scalarOf_leaky_relu_f (x : ℝ) :
    scalarOf (Activations.leaky_relu : Activation ℝ).f x
      = if x > 0 then x else 1 / 100 * x := rfl

theorem scalarOf_leaky_relu_df (x : ℝ) :
    scalarOf (Activations.leaky_relu : Activation ℝ).df x = if x > 0 then 1 else 1 / 100 := rfl

theorem leaky_relu_hasDerivAt (x : ℝ) (hx : x ≠ 0) :
    HasDerivAt (scalarOf (Activations.leaky_relu : Activation ℝ).f)
      (scalarOf (Activations.leaky_relu : Activation ℝ).df x) x := by
  rcases lt_or_gt_of_ne hx with hneg | hpos
  · have hev : (fun y : ℝ => 1 / 100 * y)
        =ᶠ[nhds x] scalarOf (Activations.leaky_relu : Activation ℝ).f := by
      filter_upwards [Iio_mem_nhds hneg] with y hy
      rw [scalarOf_leaky_relu_f, if_neg (not_lt.mpr (le_of_lt (Set.mem_Iio.mp hy)))]
    rw [scalarOf_leaky_relu_df, if_neg (not_lt.mpr (le_of_lt hneg))]
    have h := (hasDerivAt_id x).const_mul (1 / 100 : ℝ)
    rw [mul_one] at h
    exact h.congr_of_eventuallyEq hev.symm
  · have hev : (fun y : ℝ => y)
        =ᶠ[nhds x] scalarOf (Activations.leaky_relu : Activation ℝ).f := by
      filter_upwards [Ioi_mem_nhds hpos] with y hy
      rw [scalarOf_leaky_relu_f, if_pos (Set.mem_Ioi.mp hy)]
    rw [scalarOf_leaky_relu_df, if_pos hpos]
    exact (hasDerivAt_id x).congr_of_eventuallyEq hev.symm

theorem linear_hasDerivAt (x : ℝ) :
    HasDerivAt (scalarOf (Activations.linear : Activation ℝ).f)
      (scalarOf (Activations.linear : Activation ℝ).df x) x :=
  hasDerivAt_id x

/-- A function that agrees with `g` on the left of `x` and with `k` on the right, where
`g` and `k` agree at `x` and have the same derivative there, has that derivative at `x`. -/
theorem hasDerivAt_of_glue {f g k : ℝ → ℝ} {d x : ℝ} (hg : HasDerivAt g d x)
    (hk : HasDerivAt k d x) (hle : ∀ y, y ≤ x → f y = g y) (hge : ∀ y, x ≤ y → f y = k y) :
    HasDerivAt f d x := by
  have h1 : HasDerivWithinAt f d (Set.Iic x) x :=
    hg.hasDerivWithinAt.congr (fun y hy => hle y hy) (hle x (le_refl x))
  have h2 : HasDerivWithinAt f d (Set.Ici x) x :=
    hk.hasDerivWithinAt.congr (fun y hy => hge y hy) (hge x (le_refl x))
  have h3 := h1.union h2
  rw [Set.Iic_union_Ici] at h3
  exact hasDerivWithinAt_univ.mp h3

theorem scalarOf_elu_f (M : JsMath ℝ) (x : ℝ) :
    scalarOf (Activations.elu M).f x = if x ≥ 0 then x else 1 * (M.exp x - 1) := rfl

theorem scalarOf_elu_df (M : JsMath ℝ) (x : ℝ) :
    scalarOf (Activations.elu M).df x = if x ≥ 0 then 1 else 1 * M.exp x := rfl

theorem elu_hasDerivAt (M : JsMath ℝ) (hexp : M.exp = Real.exp) (x : ℝ) :
    HasDerivAt (scalarOf (Activations.elu M).f) (scalarOf (Activations.elu M).df x) x := by
  have hE : ∀ y : ℝ, HasDerivAt (fun v : ℝ => 1 * (Real.exp v - 1)) (Real.exp y) y := by
    intro y
    have h := ((Real.hasDerivAt_exp y).sub_const 1).const_mul (1 : ℝ)
    rw [one_mul] at h
    exact h
  rcases lt_trichotomy x 0 with hneg | hzero | hpos
  · have hev : (fun v : ℝ => 1 * (Real.exp v - 1)) =ᶠ[nhds x] scalarOf (Activations.elu M).f := by
      filter_upwards [Iio_mem_nhds hneg] with y hy
      rw [scalarOf_elu_f, if_neg (not_le.mpr (Set.mem_Iio.mp hy)), hexp]
    rw [scalarOf_elu_df, if_neg (not_le.mpr hneg), hexp, one_mul]
    exact (hE x).congr_of_eventuallyEq hev.symm
  · subst hzero
    rw [scalarOf_elu_df, if_pos (le_refl _)]
    have hE0 := hE 0
    rw [Real.exp_zero] at hE0
    refine hasDerivAt_of_glue hE0 (hasDerivAt_id (0 : ℝ)) ?_ ?_
    · intro y hy
      rw [scalarOf_elu_f, hexp]
      rcases eq_or_lt_of_le hy with h0 | hlt
      · subst h0
        simp
      · rw [if_neg (not_le.mpr hlt)]
    · intro y hy
      rw [scalarOf_elu_f, if_pos hy]
      rfl
  · have hev : (fun y : ℝ => y) =ᶠ[nhds x] scalarOf (Activations.elu M).f := by
      filter_upwards [Ioi_mem_nhds hpos] with y hy
      rw [scalarOf_elu_f, if_pos (le_of_lt (Set.mem_Ioi.mp hy))]
    rw [scalarOf_elu_df, if_pos (le_of_lt hpos)]
    exact (hasDerivAt_id x).congr_of_eventuallyEq hev.symm

theorem scalarOf_sigmoid_f (M : JsMath ℝ) (x : ℝ) :
    scalarOf (Activations.sigmoid M).f x = 1 / (1 + M.exp (-x)) := rfl

theorem scalarOf_sigmoid_df (M : JsMath ℝ) (x : ℝ) :
    scalarOf (Activations.sigmoid M).df x
      = 1 / (1 + M.exp (-x)) * (1 - 1 / (1 + M.exp (-x))) := rfl

/-- The logistic function `1 / (1 + exp(-x))` has derivative `s·(1 - s)`. -/
theorem logistic_hasDerivAt (x : ℝ) :
    HasDerivAt (fun v : ℝ => 1 / (1 + Real.exp (-v)))
      (1 / (1 + Real.exp (-x)) * (1 - 1 / (1 + Real.exp (-x)))) x := by
  have hpos : 0 < 1 + Real.exp (-x) := by positivity
  have h1 : HasDerivAt (fun v : ℝ => 1 + Real.exp (-v)) (-Real.exp (-x)) x := by
    have h := ((hasDerivAt_neg x).exp).const_add (1 : ℝ)
    simpa using h
  have h2 := (hasDerivAt_const x (1 : ℝ)).div h1 (ne_of_gt hpos)
  convert h2 using 1
  field_simp
  ring

theorem sigmoid_hasDerivAt (M : JsMath ℝ) (hexp : M.exp = Real.exp) (x : ℝ) :
    HasDerivAt (scalarOf (Activations.sigmoid M).f) (scalarOf (Activations.sigmoid M).df x) x := by
  have hf : scalarOf (Activations.sigmoid M).f = fun v : ℝ => 1 / (1 + Real.exp (-v)) := by
    funext v
    rw [scalarOf_sigmoid_f, hexp]
  rw [hf, scalarOf_sigmoid_df, hexp]
  exact logistic_hasDerivAt x
theorem scalarOf_swish_f (M : JsMath ℝ) (x : ℝ) :
    scalarOf (Activations.swish M).f x = x * (1 / (1 + M.exp (-x))) := rfl

theorem scalarOf_swish_df (M : JsMath ℝ) (x : ℝ) :
    scalarOf (Activations.swish M).df x
      = 1 / (1 + M.exp (-x)) + x * (1 / (1 + M.exp (-x))) * (1 - 1 / (1 + M.exp (-x))) := rfl

theorem swish_hasDerivAt (M : JsMath ℝ) (hexp : M.exp = Real.exp) (x : ℝ) :
    HasDerivAt (scalarOf (Activations.swish M).f) (scalarOf (Activations.swish M).df x) x := by
  have hf : scalarOf (Activations.swish M).f
      = fun v : ℝ => v * (1 / (1 + Real.exp (-v))) := by
    funext v
    rw [scalarOf_swish_f, hexp]
  rw [hf, scalarOf_swish_df, hexp]
  have h := (hasDerivAt_id x).mul (logistic_hasDerivAt x)
  convert h using 1
  simp only [id]
  ring

theorem scalarOf_tanh_f (M : JsMath ℝ) (x : ℝ) :
    scalarOf (Activations.tanh M).f x = (M.exp (2 * x) - 1) / (M.exp (2 * x) + 1) := rfl

theorem scalarOf_tanh_df (M : JsMath ℝ) (x : ℝ) :
    scalarOf (Activations.tanh M).df x
      = 1 - (M.exp (2 * x) - 1) / (M.exp (2 * x) + 1)
        * ((M.exp (2 * x) - 1) / (M.exp (2 * x) + 1)) := rfl

theorem tanh_hasDerivAt (M : JsMath ℝ) (hexp : M.exp = Real.exp) (x : ℝ) :
    HasDerivAt (scalarOf (Activations.tanh M).f) (scalarOf (Activations.tanh M).df x) x := by
  have hf : scalarOf (Activations.tanh M).f
      = fun v : ℝ => (Real.exp (2 * v) - 1) / (Real.exp (2 * v) + 1) := by
    funext v
    rw [scalarOf_tanh_f, hexp]
  rw [hf, scalarOf_tanh_df, hexp]
  have hpos : 0 < Real.exp (2 * x) + 1 := by positivity
  have he : HasDerivAt (fun v : ℝ => Real.exp (2 * v)) (Real.exp (2 * x) * 2) x := by
    have h := ((hasDerivAt_id x).const_mul (2 : ℝ)).exp
    simpa using h
  have h := (he.sub_const 1).div (he.add_const 1) (ne_of_gt hpos)
  convert h using 1
  field_simp
  ring

/-- The hyperbolic tangent has derivative `1 - tanh²`. -/
theorem real_tanh_hasDerivAt (x : ℝ) :
    HasDerivAt Real.tanh (1 - Real.tanh x * Real.tanh x) x := by
  have hc : Real.cosh x ≠ 0 := ne_of_gt (Real.cosh_pos x)
  have h := (Real.hasDerivAt_sinh x).div (Real.hasDerivAt_cosh x) hc
  have hf : Real.tanh = fun v => Real.sinh v / Real.cosh v := by
    funext v
    exact Real.tanh_eq_sinh_div_cosh v
  have hval : 1 - Real.tanh x * Real.tanh x
      = (Real.cosh x * Real.cosh x - Real.sinh x * Real.sinh x) / Real.cosh x ^ 2 := by
    rw [Real.tanh_eq_sinh_div_cosh, eq_div_iff (pow_ne_zero 2 hc), div_mul_div_comm,
      sub_mul, ← sq (Real.cosh x), div_mul_cancel₀ _ (pow_ne_zero 2 hc)]
    ring
  rw [hval, hf]
  exact h

theorem scalarOf_gelu_f (M : JsMath ℝ) (x : ℝ) :
    scalarOf (Activations.gelu M).f x
      = 1 / 2 * x * (1 + M.tanh (M.sqrt (2 / M.PI) * (x + 44715 / 1000000 * (x * x * x)))) :=
  rfl

theorem scalarOf_gelu_df (M : JsMath ℝ) (x : ℝ) :
    scalarOf (Activations.gelu M).df x
      = 1 / 2 * (1 + M.tanh (M.sqrt (2 / M.PI) * (x + 44715 / 1000000 * (x * x * x))))
        + 1 / 2 * x
          * (1 - M.tanh (M.sqrt (2 / M.PI) * (x + 44715 / 1000000 * (x * x * x)))
            * M.tanh (M.sqrt (2 / M.PI) * (x + 44715 / 1000000 * (x * x * x))))
          * (M.sqrt (2 / M.PI) * (1 + 3 * (44715 / 1000000) * (x * x))) := rfl

theorem gelu_hasDerivAt (M : JsMath ℝ) (htanh : M.tanh = Real.tanh) (x : ℝ) :
    HasDerivAt (scalarOf (Activations.gelu M).f) (scalarOf (Activations.gelu M).df x) x := by
  have hf : scalarOf (Activations.gelu M).f = fun v : ℝ =>
      1 / 2 * v * (1 + Real.tanh (M.sqrt (2 / M.PI) * (v + 44715 / 1000000 * (v * v * v)))) := by
    funext v
    rw [scalarOf_gelu_f, htanh]
  rw [hf, scalarOf_gelu_df, htanh]
  have hcube : HasDerivAt (fun v : ℝ => v * v * v) (3 * (x * x)) x := by
    have h := ((hasDerivAt_id x).mul (hasDerivAt_id x)).mul (hasDerivAt_id x)
    convert h using 1
    simp only [id]
    ring
  have hu : HasDerivAt (fun v : ℝ => M.sqrt (2 / M.PI) * (v + 44715 / 1000000 * (v * v * v)))
      (M.sqrt (2 / M.PI) * (1 + 3 * (44715 / 1000000) * (x * x))) x := by
    have h := ((hasDerivAt_id x).add (hcube.const_mul (44715 / 1000000 : ℝ))).const_mul
      (M.sqrt (2 / M.PI))
    convert h using 1
    ring
  have ht := (real_tanh_hasDerivAt _).comp x hu
  have h := ((hasDerivAt_id x).const_mul (1 / 2 : ℝ)).mul (ht.const_add 1)
  convert h using 1
  simp only [id, Function.comp]
  ring

theorem scalarOf_softsign_f (x : ℝ) :
    scalarOf (Activations.softsign : Activation ℝ).f x = x / (1 + |x|) := rfl

theorem scalarOf_softsign_df (x : ℝ) :
    scalarOf (Activations.softsign : Activation ℝ).df x = 1 / ((1 + |x|) * (1 + |x|)) := rfl

theorem softsign_hasDerivAt (x : ℝ) :
    HasDerivAt (scalarOf (Activations.softsign : Activation ℝ).f)
      (scalarOf (Activations.softsign : Activation ℝ).df x) x := by
  have hR : ∀ y : ℝ, 0 ≤ y →
      HasDerivAt (fun v : ℝ => v / (1 + v)) (1 / ((1 + y) * (1 + y))) y := by
    intro y hy
    have hpos : (1 + y) ≠ 0 := by positivity
    have h := (hasDerivAt_id y).div ((hasDerivAt_id y).const_add 1) hpos
    convert h using 1
    simp only [id]
    field_simp
    ring
  have hL : ∀ y : ℝ, y ≤ 0 →
      HasDerivAt (fun v : ℝ => v / (1 - v)) (1 / ((1 - y) * (1 - y))) y := by
    intro y hy
    have hpos : (1 - y) ≠ 0 := by
      have : 0 < 1 - y := by linarith
      exact ne_of_gt this
    have h := (hasDerivAt_id y).div ((hasDerivAt_id y).const_sub 1) hpos
    convert h using 1
    simp only [id]
    field_simp
    ring
  have fR : ∀ y : ℝ, 0 ≤ y →
      scalarOf (Activations.softsign : Activation ℝ).f y = y / (1 + y) := by
    intro y hy
    rw [scalarOf_softsign_f, abs_of_nonneg hy]
  have fL : ∀ y : ℝ, y ≤ 0 →
      scalarOf (Activations.softsign : Activation ℝ).f y = y / (1 - y) := by
    intro y hy
    rw [scalarOf_softsign_f, abs_of_nonpos hy, sub_eq_add_neg]
  rcases lt_trichotomy x 0 with hneg | hzero | hpos
  · have hev : (fun v : ℝ => v / (1 - v))
        =ᶠ[nhds x] scalarOf (Activations.softsign : Activation ℝ).f := by
      filter_upwards [Iio_mem_nhds hneg] with y hy
      exact (fL y (le_of_lt (Set.mem_Iio.mp hy))).symm
    rw [scalarOf_softsign_df, abs_of_neg hneg, ← sub_eq_add_neg]
    exact (hL x (le_of_lt hneg)).congr_of_eventuallyEq hev.symm
  · subst hzero
    rw [scalarOf_softsign_df, abs_zero]
    have h1 := hL 0 (le_refl 0)
    have h2 := hR 0 (le_refl 0)
    rw [sub_zero] at h1
    rw [add_zero] at h2 ⊢
    exact hasDerivAt_of_glue h1 h2 (fun y hy => fL y hy) (fun y hy => fR y hy)
  · have hev : (fun v : ℝ => v / (1 + v))
        =ᶠ[nhds x] scalarOf (Activations.softsign : Activation ℝ).f := by
      filter_upwards [Ioi_mem_nhds hpos] with y hy
      exact (fR y (le_of_lt (Set.mem_Ioi.mp hy))).symm
    rw [scalarOf_softsign_df, abs_of_pos hpos]
    exact (hR x (le_of_lt hpos)).congr_of_eventuallyEq hev.symm
/-- C11 (amended): for every supported activation name and every sample point
`x ∈ {-5, -1, -0.1, 0, 0.1, 1, 5}`, except `relu` and `leaky_relu` at `x = 0`, over the
reals `df(x)` is the derivative of `f` at `x`, and hence
`|df(x) - (f(x+h) - f(x-h)) / (2h)| ≤ 1e-4` for all sufficiently small `h > 0`. -/
theorem df_is_derivative_at_samples (M : JsMath ℝ) (hexp : M.exp = Real.exp)
    (htanh : M.tanh = Real.tanh) (name : String) (a : Activation ℝ)
    (ha : Activations M name = some a) (x : ℝ) (hx : x ∈ (samplePoints : List ℝ))
    (hkink : ¬ ((name = "relu" ∨ name = "leaky_relu") ∧ x = 0)) :
    HasDerivAt (scalarOf a.f) (scalarOf a.df x) x ∧
    ∃ δ, 0 < δ ∧ ∀ h, 0 < h → h < δ →
      |scalarOf a.df x - (scalarOf a.f (x + h) - scalarOf a.f (x - h)) / (2 * h)|
        ≤ 1 / 10000 := by
  have hd : HasDerivAt (scalarOf a.f) (scalarOf a.df x) x := by
    unfold Activations at ha
    split_ifs at ha with h1 h2 h3 h4 h5 h6 h7 h8 h9
    · cases ha
      exact relu_hasDerivAt x (fun h0 => hkink ⟨Or.inl h1, h0⟩)
    · cases ha
      exact leaky_relu_hasDerivAt x (fun h0 => hkink ⟨Or.inr h2, h0⟩)
    · cases ha
      exact elu_hasDerivAt M hexp x
    · cases ha
      exact gelu_hasDerivAt M htanh x
    · cases ha
      exact swish_hasDerivAt M hexp x
    · cases ha
      exact tanh_hasDerivAt M hexp x
    · cases ha
      exact sigmoid_hasDerivAt M hexp x
    · cases ha
      exact softsign_hasDerivAt x
    · cases ha
      exact linear_hasDerivAt x
  exact ⟨hd, central_difference_of_hasDerivAt hd (by norm_num)⟩

/-- C11 (amended), evaluated: `gelu` at the sample point `1` and `relu` at the sample
point `-0.1`, with the real exponential and hyperbolic tangent. -/
theorem df_is_derivative_at_samples_witness :
    (HasDerivAt (scalarOf (Activations.gelu ⟨Real.exp, Real.tanh, Real.sqrt, Real.pi⟩).f)
        (scalarOf (Activations.gelu ⟨Real.exp, Real.tanh, Real.sqrt, Real.pi⟩).df 1) 1 ∧
      ∃ δ, 0 < δ ∧ ∀ h, 0 < h → h < δ →
        |scalarOf (Activations.gelu ⟨Real.exp, Real.tanh, Real.sqrt, Real.pi⟩).df 1
          - (scalarOf (Activations.gelu ⟨Real.exp, Real.tanh, Real.sqrt, Real.pi⟩).f (1 + h)
            - scalarOf (Activations.gelu ⟨Real.exp, Real.tanh, Real.sqrt, Real.pi⟩).f (1 - h))
            / (2 * h)| ≤ 1 / 10000) ∧
    HasDerivAt (scalarOf (Activations.relu : Activation ℝ).f)
      (scalarOf (Activations.relu : Activation ℝ).df (-(1 / 10))) (-(1 / 10)) :=
  ⟨df_is_derivative_at_samples ⟨Real.exp, Real.tanh, Real.sqrt, Real.pi⟩ rfl rfl "gelu"
      (Activations.gelu ⟨Real.exp, Real.tanh, Real.sqrt, Real.pi⟩)
      (by simp [Activations]) 1 (by simp [samplePoints]) (by simp),
    (df_is_derivative_at_samples ⟨Real.exp, Real.tanh, Real.sqrt, Real.pi⟩ rfl rfl "relu"
      Activations.relu (by simp [Activations]) (-(1 / 10)) (by simp [samplePoints])
      (by norm_num)).1⟩

/-- C11 fails as stated at the sample point `0` for `relu` and `leaky_relu`:
`relu.df(0) = 0` and `leaky_relu.df(0) = 0.01`, while the central difference at `0` is
`0.5`, resp. `0.505`, for the step `h = 0.001`, and no bound on `h` brings it within
`1e-4`. -/
theorem relu_df_not_central_difference_at_zero :
    (0 : ℝ) ∈ (samplePoints : List ℝ) ∧
    scalarOf (Activations.relu : Activation ℝ).df 0 = 0 ∧
    (scalarOf (Activations.relu : Activation ℝ).f (0 + 1 / 1000)
      - scalarOf (Activations.relu : Activation ℝ).f (0 - 1 / 1000)) / (2 * (1 / 1000))
      = 1 / 2 ∧
    (¬ ∃ δ : ℝ, 0 < δ ∧ ∀ h : ℝ, 0 < h → h < δ →
      |scalarOf (Activations.relu : Activation ℝ).df 0
        - (scalarOf (Activations.relu : Activation ℝ).f (0 + h)
          - scalarOf (Activations.relu : Activation ℝ).f (0 - h)) / (2 * h)| ≤ 1 / 10000) ∧
    scalarOf (Activations.leaky_relu : Activation ℝ).df 0 = 1 / 100 ∧
    (scalarOf (Activations.leaky_relu : Activation ℝ).f (0 + 1 / 1000)
      - scalarOf (Activations.leaky_relu : Activation ℝ).f (0 - 1 / 1000)) / (2 * (1 / 1000))
      = 101 / 200 ∧
    (¬ ∃ δ : ℝ, 0 < δ ∧ ∀ h : ℝ, 0 < h → h < δ →
      |scalarOf (Activations.leaky_relu : Activation ℝ).df 0
        - (scalarOf (Activations.leaky_relu : Activation ℝ).f (0 + h)
          - scalarOf (Activations.leaky_relu : Activation ℝ).f (0 - h)) / (2 * h)|
        ≤ 1 / 10000) := by
  have cdR : ∀ h : ℝ, 0 < h →
      (scalarOf (Activations.relu : Activation ℝ).f (0 + h)
        - scalarOf (Activations.relu : Activation ℝ).f (0 - h)) / (2 * h) = 1 / 2 := by
    intro h h0
    rw [scalarOf_relu_f, scalarOf_relu_f, zero_add, zero_sub, if_pos h0,
      if_neg (by linarith)]
    field_simp
    ring
  have cdL : ∀ h : ℝ, 0 < h →
      (scalarOf (Activations.leaky_relu : Activation ℝ).f (0 + h)
        - scalarOf (Activations.leaky_relu : Activation ℝ).f (0 - h)) / (2 * h)
        = 101 / 200 := by
    intro h h0
    rw [scalarOf_leaky_relu_f, scalarOf_leaky_relu_f, zero_add, zero_sub, if_pos h0,
      if_neg (by linarith)]
    field_simp
    ring
  have dR : scalarOf (Activations.relu : Activation ℝ).df 0 = 0 := by
    rw [scalarOf_relu_df, if_neg (lt_irrefl 0)]
  have dL : scalarOf (Activations.leaky_relu : Activation ℝ).df 0 = 1 / 100 := by
    rw [scalarOf_leaky_relu_df, if_neg (lt_irrefl 0)]
  refine ⟨by simp [samplePoints], dR, cdR _ (by norm_num), ?_, dL, cdL _ (by norm_num), ?_⟩
  · rintro ⟨δ, hδ, hall⟩
    have h := hall (δ / 2) (by linarith) (by linarith)
    rw [dR, cdR _ (by linarith), zero_sub, abs_neg,
      abs_of_pos (by norm_num : (0 : ℝ) < 1 / 2)] at h
    norm_num at h
  · rintro ⟨δ, hδ, hall⟩
    have h := hall (δ / 2) (by linarith) (by linarith)
    rw [dL, cdL _ (by linarith),
      abs_of_neg (by norm_num : (1 : ℝ) / 100 - 101 / 200 < 0)] at h
    norm_num at h

/-! ## Entries of matrix products -/

omit [LinearOrderedField R] in
/-- The row-major table of `F i j` for `i < p`, `j < q` has `p * q` entries. -/
theorem length_table (p q : Nat) (F : Nat → Nat → R) :
    ((List.range p).flatMap (fun i => (List.range q).map (fun j => F i j))).length = p * q := by
  induction p with
  | zero => simp
  | succ p ih =>
      rw [List.range_succ, List.flatMap_append, List.length_append, ih]
      simp [Nat.succ_mul]

/-- Entry `i * q + j` of the row-major table of `F` is `F i j`. -/
theorem getD_table (p q : Nat) (F : Nat → Nat → R) (i j : Nat) (hi : i < p) (hj : j < q) :
    ((List.range p).flatMap (fun i => (List.range q).map (fun j => F i j))).getD (i * q + j) 0
      = F i j := by
  induction p with
  | zero => omega
  | succ p ih =>
      rw [List.range_succ, List.flatMap_append]
      by_cases hip : i < p
      · have hlt : i * q + j < ((List.range p).flatMap
            (fun i => (List.range q).map (fun j => F i j))).length := by
          rw [length_table]
          calc i * q + j < i * q + q := by omega
            _ = (i + 1) * q := by ring
            _ ≤ p * q := Nat.mul_le_mul_right q hip
        rw [List.getD_append _ _ _ _ hlt]
        exact ih hip
      · have hip2 : i = p := by omega
        subst hip2
        have hge : ((List.range i).flatMap
            (fun i => (List.range q).map (fun j => F i j))).length ≤ i * q + j := by
          rw [length_table]
          omega
        rw [List.getD_append_right _ _ _ _ hge, length_table]
        simp [hj]

theorem entry_table (shape : List Nat) (p q : Nat) (F : Nat → Nat → R) (i j : Nat)
    (hi : i < p) (hj : j < q) :
    (⟨shape, (List.range p).flatMap (fun i => (List.range q).map (fun j => F i j))⟩ :
      NdArray R).entry (i * q + j) = F i j :=
  getD_table p q F i j hi hj

theorem list_sum_range_eq (n : Nat) (f : Nat → R) :
    ((List.range n).map f).sum = ∑ i ∈ Finset.range n, f i := by
  induction n with
  | zero => simp
  | succ n ih =>
      rw [List.range_succ, List.map_append, List.sum_append, ih, Finset.sum_range_succ]
      simp

/-- The transpose of a `p × q` matrix is a `q × p` matrix with the entries swapped. -/
theorem T_isMat {W : NdArray R} {p q : Nat} (hW : W.IsMat p q) :
    W.T.IsMat q p ∧ ∀ i j, i < p → j < q → W.T.entry (j * p + i) = W.entry (i * q + j) := by
  have hT : W.T = ⟨[q, p], (List.range q).flatMap
      (fun j => (List.range p).map (fun i => W.at2 q i j))⟩ := by
    unfold NdArray.T
    rw [hW.1]
  rw [hT]
  refine ⟨⟨rfl, length_table q p _⟩, fun i j hi hj => ?_⟩
  rw [entry_table _ q p _ j i hj hi]
  rfl

/-- The product of a `p × q` matrix and a column of `q` entries. -/
theorem dot_mat_col {W a : NdArray R} {p q : Nat} (hW : W.IsMat p q) (ha : a.IsCol q) :
    ∃ z, dot W a = some z ∧ z.IsCol p ∧
      ∀ i, i < p → z.entry i = ∑ t ∈ Finset.range q, W.entry (i * q + t) * a.entry t := by
  refine ⟨⟨[p, 1], (List.range p).flatMap (fun i => (List.range 1).map (fun j =>
    ((List.range q).map (fun t => W.at2 q i t * a.at2 1 t j)).sum))⟩, ?_, ⟨rfl, ?_⟩, ?_⟩
  · unfold dot
    rw [hW.1, ha.1]
    simp
  · rw [length_table]
    omega
  · intro i hi
    have h := entry_table [p, 1] p 1 (fun i j =>
      ((List.range q).map (fun t => W.at2 q i t * a.at2 1 t j)).sum) i 0 hi (by omega)
    rw [Nat.mul_one, Nat.add_zero] at h
    rw [h]
    dsimp only
    rw [list_sum_range_eq]
    apply Finset.sum_congr rfl
    intro t _
    simp [NdArray.at2, NdArray.entry]

/-- The product of a column of `p` entries and the transpose of a column of `q` entries
is the `p × q` matrix of the products of their entries. -/
theorem dot_col_rowT {d a : NdArray R} {p q : Nat} (hd : d.IsCol p) (ha : a.IsCol q) :
    ∃ g, dot d a.T = some g ∧ g.IsMat p q ∧
      ∀ i j, i < p → j < q → g.entry (i * q + j) = d.entry i * a.entry j := by
  have haM : a.IsMat q 1 := ⟨ha.1, by rw [ha.2]; omega⟩
  obtain ⟨hT, hTe⟩ := T_isMat haM
  refine ⟨⟨[p, q], (List.range p).flatMap (fun i => (List.range q).map (fun j =>
    ((List.range 1).map (fun t => d.at2 1 i t * a.T.at2 q t j)).sum))⟩, ?_, ⟨rfl, ?_⟩, ?_⟩
  · unfold dot
    rw [hd.1, hT.1]
    simp
  · rw [length_table]
  · intro i j hi hj
    rw [entry_table _ p q _ i j hi hj]
    have e := hTe j 0 hj (by omega)
    simp only [Nat.zero_mul, Nat.zero_add, Nat.mul_one, Nat.add_zero] at e
    simp only [NdArray.entry, List.getD_eq_getElem?_getD] at e
    simp [NdArray.at2, NdArray.entry, List.range_succ, e]

/-! ## Columns through the elementwise operations -/

theorem isCol_conforms {A B : NdArray R} {n : Nat} (hA : A.IsCol n) (hB : B.IsCol n) :
    A.Conforms B :=
  ⟨hA.1.trans hB.1.symm, hA.2.trans hB.2.symm⟩

theorem isCol_of_conforms {A B : NdArray R} {n : Nat} (h : A.Conforms B) (hB : B.IsCol n) :
    A.IsCol n :=
  ⟨h.1.trans hB.1, h.2.trans hB.2⟩

theorem asCol_of_isCol {A : NdArray R} {n : Nat} (hA : A.IsCol n) : asCol A = A :=
  asCol_of_col hA.1

theorem mapNd_isCol {z : NdArray R} {n : Nat} (hz : z.IsCol n) (fn : R → R) :
    (mapNd z fn).IsCol n ∧ ∀ i, i < n → (mapNd z fn).entry i = fn (z.entry i) := by
  refine ⟨⟨hz.1, by simp [mapNd, dataOf, NdArray.clone, hz.2]⟩, fun i hi => ?_⟩
  have hi2 : i < z.data.length := by rw [hz.2]; exact hi
  simp [mapNd, dataOf, NdArray.clone, NdArray.entry, List.getElem?_eq_getElem hi2]

theorem add_isCol {A B : NdArray R} {n : Nat} (hA : A.IsCol n) (hB : B.IsCol n) :
    ∃ C, A.add B = some C ∧ C.IsCol n ∧ ∀ i, C.entry i = A.entry i + B.entry i := by
  obtain ⟨C, h1, h2, h3⟩ := add_spec A B (isCol_conforms hA hB)
  exact ⟨C, h1, isCol_of_conforms h2 hA, h3⟩

theorem subtract_isCol {A B : NdArray R} {n : Nat} (hA : A.IsCol n) (hB : B.IsCol n) :
    ∃ C, A.subtract B = some C ∧ C.IsCol n ∧ ∀ i, C.entry i = A.entry i - B.entry i := by
  obtain ⟨C, h1, h2, h3⟩ := subtract_spec A B (isCol_conforms hA hB)
  exact ⟨C, h1, isCol_of_conforms h2 hA, h3⟩

theorem multiply_isCol {A B : NdArray R} {n : Nat} (hA : A.IsCol n) (hB : B.IsCol n) :
    ∃ C, A.multiply B = some C ∧ C.IsCol n ∧ ∀ i, i < n → C.entry i = A.entry i * B.entry i := by
  refine ⟨⟨A.shape, List.zipWith (fun x y => x * y) A.data B.data⟩, ?_, ⟨hA.1, ?_⟩, ?_⟩
  · unfold NdArray.multiply
    rw [if_pos (hA.1.trans hB.1.symm)]
  · simp [hA.2, hB.2]
  · intro i hi
    have h1 : i < A.data.length := by rw [hA.2]; exact hi
    have h2 : i < B.data.length := by rw [hB.2]; exact hi
    have h3 : i < (List.zipWith (fun x y => x * y) A.data B.data).length := by
      simp [h1, h2]
    simp [NdArray.entry, List.getElem?_eq_getElem h1, List.getElem?_eq_getElem h2,
      List.getElem?_eq_getElem h3]

/-! ## The forward pass on columns -/

theorem isMat_of_shape {W : NdArray R} {p q : Nat} (hs : W.shape = [p, q]) (hw : W.WF) :
    W.IsMat p q := by
  refine ⟨hs, ?_⟩
  unfold NdArray.WF at hw
  rw [hw, hs]
  simp

theorem isCol_of_shape {b : NdArray R} {p : Nat} (hs : b.shape = [p, 1]) (hw : b.WF) :
    b.IsCol p := by
  refine ⟨hs, ?_⟩
  unfold NdArray.WF at hw
  rw [hw, hs]
  simp

/-- The layers of a well-formed model. -/
theorem layer_of_wellFormed (m : MLP R) (hm : m.WellFormed) (l : Nat)
    (hl : l < m.weights.length) :
    ∃ W b, m.weights[l]? = some W ∧ m.biases[l]? = some b ∧
      W.IsMat (m.size (l + 1)) (m.size l) ∧ b.IsCol (m.size (l + 1)) := by
  obtain ⟨W, b, hW, hb, sW, sb⟩ := hm.1.2.2 l hl
  exact ⟨W, b, hW, hb, isMat_of_shape sW (hm.2.1 W (List.getElem?_mem hW)),
    isCol_of_shape sb (hm.2.2 b (List.getElem?_mem hb))⟩

theorem asCol_isCol_of_input (m : MLP R) (x : NdArray R) (hx : m.IsInput x) :
    (asCol x).IsCol (m.size 0) := by
  obtain ⟨hs, hw⟩ := hx
  unfold NdArray.WF at hw
  rcases hs with h | h
  · refine ⟨asCol_shape_of_vec h, ?_⟩
    have : (asCol x).data = x.data := by
      unfold asCol
      rw [h]
      rfl
    rw [this, hw, h]
    simp
  · rw [asCol_of_col h]
    exact isCol_of_shape h hw

/-- The affine map of a layer on a column: `W·a + b` is a column with the entries
`sum_t W[i,t]·a[t] + b[i]`. -/
theorem affine_col {W b a : NdArray R} {p q : Nat} (hW : W.IsMat p q) (hb : b.IsCol p)
    (ha : a.IsCol q) :
    ∃ d z, dot W a = some d ∧ d.add b = some z ∧ z.IsCol p ∧
      ∀ i, i < p →
        z.entry i = (∑ t ∈ Finset.range q, W.entry (i * q + t) * a.entry t) + b.entry i := by
  obtain ⟨d, hd, cd, ed⟩ := dot_mat_col hW ha
  obtain ⟨z, hz, cz, ez⟩ := add_isCol cd hb
  exact ⟨d, z, hd, hz, cz, fun i hi => by rw [ez, ed i hi]⟩

theorem elementwise_f_isCol {act : Activation R} (hact : Elementwise act) {z : NdArray R}
    {n : Nat} (hz : z.IsCol n) :
    (asCol (act.f z)).IsCol n ∧ asCol (act.f z) = act.f z ∧
      ∀ i, i < n → (act.f z).entry i = scalarOf act.f (z.entry i) := by
  obtain ⟨c, e⟩ := mapNd_isCol hz (scalarOf act.f)
  rw [← (hact z).1] at c e
  rw [asCol_of_isCol c]
  exact ⟨c, rfl, e⟩

theorem elementwise_df_isCol {act : Activation R} (hact : Elementwise act) {z : NdArray R}
    {n : Nat} (hz : z.IsCol n) :
    (act.df z).IsCol n ∧ ∀ i, i < n → (act.df z).entry i = scalarOf act.df (z.entry i) := by
  obtain ⟨c, e⟩ := mapNd_isCol hz (scalarOf act.df)
  rw [← (hact z).2] at c e
  exact ⟨c, e⟩

theorem preActivation_succ (m : MLP R) (x : NdArray R) (k : Nat) :
    preActivation m x (k + 1) = (preActivation m x k).bind (nextPreActivation m k) := by
  unfold preActivation nextPreActivation
  simp only [layerInput, Option.bind_eq_bind, Option.pure_def]
  cases layerInput m x k <;> simp
  cases m.weights[k]? <;> simp
  cases m.biases[k]? <;> simp
  rename_i a W b
  cases dot W a <;> simp
  rename_i d
  cases d.add b <;> simp

/-- On a well-formed model with an entrywise activation every layer input and every
pre-activation of the forward pass is defined and is a column of the layer's size. -/
theorem forward_cols (m : MLP R) (hm : m.WellFormed) (hact : Elementwise m.act)
    (x : NdArray R) (hx : m.IsInput x) :
    ∀ l, l < m.weights.length →
      ∃ a z, layerInput m x l = some a ∧ a.IsCol (m.size l) ∧
        preActivation m x l = some z ∧ z.IsCol (m.size (l + 1)) := by
  intro l
  induction l with
  | zero =>
      intro hl
      obtain ⟨W, b, hW, hb, cW, cb⟩ := layer_of_wellFormed m hm 0 hl
      have ca := asCol_isCol_of_input m x hx
      obtain ⟨d, z, hd, hz, cz, _⟩ := affine_col cW cb ca
      refine ⟨asCol x, z, rfl, ca, ?_, cz⟩
      simp only [preActivation, layerInput, hW, hb, hd, hz, Option.bind_eq_bind,
        Option.some_bind]
  | succ l ih =>
      intro hl
      obtain ⟨a, z, ha, ca, hz, cz⟩ := ih (by omega)
      obtain ⟨W0, b0, hW0, hb0, _, _⟩ := layer_of_wellFormed m hm l (by omega)
      obtain ⟨W, b, hW, hb, cW, cb⟩ := layer_of_wellFormed m hm (l + 1) hl
      obtain ⟨ca2, ea2, _⟩ := elementwise_f_isCol hact cz
      obtain ⟨d, z2, hd, hz2, cz2, _⟩ := affine_col cW cb ca2
      have hz' := hz
      simp only [preActivation, ha, hW0, hb0, Option.bind_eq_bind, Option.some_bind] at hz'
      have hin : layerInput m x (l + 1) = some (asCol (m.act.f z)) := by
        simp only [layerInput, ha, hW0, hb0, Option.bind_eq_bind, Option.some_bind,
          Option.pure_def]
        obtain ⟨d0, hd0, hz0⟩ := Option.bind_eq_some.mp hz'
        simp only [hd0, Option.some_bind, hz0]
      refine ⟨asCol (m.act.f z), z2, hin, ca2, ?_, cz2⟩
      rw [preActivation_succ, hz, Option.some_bind]
      simp only [nextPreActivation, hW, hb, hd, hz2, Option.bind_eq_bind, Option.some_bind]

/-! ## The loss as a function of one layer's pre-activation -/

/-- The output of `forward` is `asCol` of the last pre-activation (as for C2, restated
for use in the proofs below). -/
theorem forward_fst_eq (m : MLP R) (x : NdArray R) (training : Bool) :
    (m.forward x training).map Prod.fst
      = (preActivation m x (m.weights.length - 1)).map asCol := by
  unfold MLP.forward preActivation
  by_cases hL : m.weights.length = 0
  · have hw : m.weights[0]? = none := by
      rw [List.getElem?_eq_none]; omega
    simp [hL, hw, layerInput]
  · simp only [hL, if_false, Option.bind_eq_bind, Option.pure_def]
    have h := forwardLoop_fst m x (m.weights.length - 1) 0 (asCol x)
      (if training = true then some ⟨[asCol x], []⟩ else none) rfl
    rw [Nat.zero_add] at h
    rw [← h]
    cases forwardLoop m (m.weights.length - 1) 0 (asCol x)
      (if training = true then some ⟨[asCol x], []⟩ else none) with
    | none => rfl
    | some r =>
        obtain ⟨a, c⟩ := r
        simp only [Option.some_bind, Option.map_some']
        cases m.weights[m.weights.length - 1]? <;> simp
        cases m.biases[m.weights.length - 1]? <;> simp
        cases dot _ a <;> simp
        rename_i W b d
        cases d.add b <;> simp

theorem lossOf_eq (m : MLP R) (x t : NdArray R) :
    lossOf m x t = ((preActivation m x (m.weights.length - 1)).map
      (fun z => halfSumSquares (asCol z) t)).getD 0 := by
  have h := forward_fst_eq m x false
  unfold lossOf
  cases hf : m.forward x false with
  | none =>
      rw [hf] at h
      simp only [Option.map_none'] at h
      cases hp : preActivation m x (m.weights.length - 1) with
      | none => rfl
      | some z => rw [hp] at h; cases h
  | some r =>
      obtain ⟨y, c⟩ := r
      rw [hf] at h
      simp only [Option.map_some'] at h
      cases hp : preActivation m x (m.weights.length - 1) with
      | none => rw [hp] at h; cases h
      | some z =>
          rw [hp] at h
          simp only [Option.map_some', Option.some.injEq] at h
          simp [h]

/-- The loss can be read off the pre-activation of any layer `k`. -/
theorem lossFrom_preActivation (m : MLP R) (x t : NdArray R) :
    ∀ (n k : Nat), k + n = m.weights.length - 1 →
      (preActivation m x k).bind (lossFrom m t n k)
        = (preActivation m x (m.weights.length - 1)).map
            (fun z => halfSumSquares (asCol z) t) := by
  intro n
  induction n with
  | zero =>
      intro k hk
      have : k = m.weights.length - 1 := by omega
      subst this
      cases preActivation m x (m.weights.length - 1) <;> rfl
  | succ n ih =>
      intro k hk
      rw [← ih (k + 1) (by omega), preActivation_succ]
      cases preActivation m x k with
      | none => rfl
      | some z =>
          simp only [Option.some_bind, lossFrom, Option.bind_eq_bind]

theorem lossOf_eq_lossFrom (m : MLP R) (x t : NdArray R) (n k : Nat)
    (hk : k + n = m.weights.length - 1) :
    lossOf m x t = ((preActivation m x k).bind (lossFrom m t n k)).getD 0 := by
  rw [lossOf_eq, lossFrom_preActivation m x t n k hk]

/-! ## A model with one layer replaced -/

theorem layerInput_congr (m m2 : MLP R) (x : NdArray R) (l0 : Nat) (hact : m2.act = m.act)
    (hw : ∀ l, l ≠ l0 → m2.weights[l]? = m.weights[l]?)
    (hb : ∀ l, l ≠ l0 → m2.biases[l]? = m.biases[l]?) :
    ∀ l, l ≤ l0 → layerInput m2 x l = layerInput m x l := by
  intro l
  induction l with
  | zero => intro _; rfl
  | succ l ih =>
      intro hl
      simp only [layerInput, ih (by omega), hw l (by omega), hb l (by omega), hact]

theorem nextPreActivation_congr (m m2 : MLP R) (l0 : Nat) (hact : m2.act = m.act)
    (hw : ∀ l, l ≠ l0 → m2.weights[l]? = m.weights[l]?)
    (hb : ∀ l, l ≠ l0 → m2.biases[l]? = m.biases[l]?) (k : Nat) (hk : l0 ≤ k)
    (z : NdArray R) : nextPreActivation m2 k z = nextPreActivation m k z := by
  simp only [nextPreActivation, hw (k + 1) (by omega), hb (k + 1) (by omega), hact]

theorem lossFrom_congr (m m2 : MLP R) (t : NdArray R) (l0 : Nat) (hact : m2.act = m.act)
    (hw : ∀ l, l ≠ l0 → m2.weights[l]? = m.weights[l]?)
    (hb : ∀ l, l ≠ l0 → m2.biases[l]? = m.biases[l]?) :
    ∀ (n k : Nat), l0 ≤ k → ∀ z, lossFrom m2 t n k z = lossFrom m t n k z := by
  intro n
  induction n with
  | zero => intro k _ z; rfl
  | succ n ih =>
      intro k hk z
      simp only [lossFrom, nextPreActivation_congr m m2 l0 hact hw hb k hk z]
      cases nextPreActivation m k z with
      | none => rfl
      | some z2 => exact ih (k + 1) (by omega) z2

/-- The loss of a model that differs from `m` in layer `l0` only: the layer inputs up to
`l0` are those of `m`, the layer `l0` is the new one, and the rest is that of `m`. -/
theorem lossOf_replaced (m m2 : MLP R) (x t : NdArray R) (l0 n : Nat)
    (hact : m2.act = m.act) (hlen : m2.weights.length = m.weights.length)
    (hw : ∀ l, l ≠ l0 → m2.weights[l]? = m.weights[l]?)
    (hb : ∀ l, l ≠ l0 → m2.biases[l]? = m.biases[l]?)
    (hn : l0 + n = m.weights.length - 1) (a W2 b2 z2 : NdArray R)
    (ha : layerInput m x l0 = some a) (hW2 : m2.weights[l0]? = some W2)
    (hb2 : m2.biases[l0]? = some b2) (hz2 : (dot W2 a).bind (fun d => d.add b2) = some z2) :
    lossOf m2 x t = (lossFrom m t n l0 z2).getD 0 := by
  rw [lossOf_eq_lossFrom m2 x t n l0 (by rw [hlen]; exact hn)]
  have hp : preActivation m2 x l0 = some z2 := by
    unfold preActivation
    rw [layerInput_congr m m2 x l0 hact hw hb l0 (le_refl _), ha]
    simp only [Option.bind_eq_bind, Option.some_bind, hW2, hb2]
    exact hz2
  rw [hp, Option.some_bind, lossFrom_congr m m2 t l0 hact hw hb n l0 (le_refl _) z2]

/-! ## The contents of the cache -/

theorem cacheOf_push (m : MLP R) (x : NdArray R) (c : Cache R) (k : Nat) (a z : NdArray R)
    (hc : CacheOf m x c k) (ha : layerInput m x (k + 1) = some a)
    (hz : preActivation m x k = some z) :
    CacheOf m x ⟨c.a ++ [a], c.z ++ [z]⟩ (k + 1) := by
  obtain ⟨l1, l2, sa, sb⟩ := hc
  refine ⟨by simp [l1], by simp [l2], ?_, ?_⟩
  · intro i hi
    simp only [getElem?_append_singleton, l1]
    by_cases h1 : i < k + 1
    · rw [if_pos h1]
      exact sa i (by omega)
    · rw [if_neg h1, if_pos (by omega)]
      have : i = k + 1 := by omega
      subst this
      exact ha.symm
  · intro i hi
    simp only [getElem?_append_singleton, l2]
    by_cases h1 : i < k
    · rw [if_pos h1]
      exact sb i h1
    · rw [if_neg h1, if_pos (by omega)]
      have : i = k := by omega
      subst this
      exact hz.symm

/-- The hidden-layer loop of `forward` in training mode records the layer inputs and
the pre-activations. -/
theorem forwardLoop_cache (m : MLP R) (x : NdArray R) :
    ∀ (n l : Nat) (a : NdArray R) (c : Cache R) (a2 : NdArray R) (oc : Option (Cache R)),
      layerInput m x l = some a → CacheOf m x c l →
      forwardLoop m n l a (some c) = some (a2, oc) →
      ∃ c2, oc = some c2 ∧ CacheOf m x c2 (l + n) ∧ layerInput m x (l + n) = some a2 := by
  intro n
  induction n with
  | zero =>
      intro l a c a2 oc ha hc h
      simp only [forwardLoop, Option.some.injEq, Prod.mk.injEq] at h
      obtain ⟨h1, h2⟩ := h
      subst h1
      exact ⟨c, h2.symm, hc, ha⟩
  | succ n ih =>
      intro l a c a2 oc ha hc h
      simp only [forwardLoop, Option.bind_eq_bind, Option.bind_eq_some,
        Option.map_some'] at h
      obtain ⟨W, hW, b, hb, d, hd, z, hz, hrec⟩ := h
      have hpre : preActivation m x l = some z := by
        simp only [preActivation, ha, hW, hb, hd, hz, Option.bind_eq_bind, Option.some_bind]
      have hin : layerInput m x (l + 1) = some (asCol (m.act.f z)) := by
        simp only [layerInput, ha, hW, hb, hd, hz, Option.bind_eq_bind, Option.some_bind,
          Option.pure_def]
      obtain ⟨c2, e1, e2, e3⟩ := ih (l + 1) _ _ a2 oc hin
        (cacheOf_push m x c l _ z hc hin hpre) hrec
      have e : l + 1 + n = l + (n + 1) := by omega
      rw [e] at e2 e3
      exact ⟨c2, e1, e2, e3⟩

/-- The cache returned by `forward` in training mode: `a[l]` is the input of layer `l`,
`z[l]` the pre-activation of layer `l`, and the last entries `a[L]` and `z[L-1]` are the
output, the last pre-activation. -/
theorem forward_cache (m : MLP R) (x y : NdArray R) (oc : Option (Cache R))
    (h : m.forward x true = some (y, oc)) :
    ∃ c zL, oc = some c ∧ preActivation m x (m.weights.length - 1) = some zL ∧
      y = asCol zL ∧ c.a[m.weights.length]? = some y ∧
      c.z[m.weights.length - 1]? = some y ∧
      (∀ i, i < m.weights.length → c.a[i]? = layerInput m x i) ∧
      (∀ i, i + 1 < m.weights.length → c.z[i]? = preActivation m x i) := by
  unfold MLP.forward at h
  by_cases hL : m.weights.length = 0
  · simp [hL] at h
  · simp only [hL, if_false, if_true, Option.bind_eq_bind, Option.bind_eq_some,
      Option.pure_def, Option.some.injEq, Prod.mk.injEq] at h
    obtain ⟨⟨a, oc1⟩, hloop, W, hW, b, hb, d, hd, out, hout, hy, hoc⟩ := h
    have hc0 : CacheOf m x ⟨[asCol x], []⟩ 0 := by
      refine ⟨rfl, rfl, ?_, ?_⟩
      · intro i hi
        have : i = 0 := by omega
        subst this
        rfl
      · intro i hi
        omega
    obtain ⟨c1, e1, e2, e3⟩ := forwardLoop_cache m x (m.weights.length - 1) 0 (asCol x)
      ⟨[asCol x], []⟩ a oc1 rfl hc0 hloop
    rw [Nat.zero_add] at e2 e3
    subst e1
    simp only [Option.map_some'] at hoc
    have hpre : preActivation m x (m.weights.length - 1) = some out := by
      simp only [preActivation, e3, hW, hb, hd, hout, Option.bind_eq_bind, Option.some_bind]
    obtain ⟨l1, l2, sa, sb⟩ := e2
    have eL : m.weights.length - 1 + 1 = m.weights.length := by omega
    refine ⟨_, out, hoc.symm, hpre, hy.symm, ?_, ?_, ?_, ?_⟩
    · simp only [getElem?_append_singleton, l1, eL]
      simp [hy]
    · simp only [getElem?_append_singleton, l2]
      simp [hy]
    · intro i hi
      simp only [getElem?_append_singleton, l1]
      rw [if_pos (by omega)]
      exact sa i (by omega)
    · intro i hi
      simp only [getElem?_append_singleton, l2]
      rw [if_pos (by omega)]
      exact sb i (by omega)

/-- The recurrences of back-propagation for the result of `backward` (as for C3,
restated for use in the proofs below). -/
theorem backward_recurrences (m : MLP R) (yTrue : NdArray R) (cache : Cache R) (g : Grads R)
    (hL : 1 ≤ m.weights.length) (h : m.backward yTrue cache = some g) :
    g.dW.length = m.weights.length ∧ g.db.length = m.weights.length ∧
    (∃ aL, cache.a[m.weights.length]? = some aL ∧
      aL.subtract yTrue = g.db[m.weights.length - 1]?) ∧
    (∀ l, l + 1 < m.weights.length → ∃ W zl d1, m.weights[l + 1]? = some W ∧
      cache.z[l]? = some zl ∧ g.db[l + 1]? = some d1 ∧
      (dot W.T d1).bind (fun p => p.multiply (m.act.df zl)) = g.db[l]?) ∧
    (∀ l, l < m.weights.length → ∃ dl al, g.db[l]? = some dl ∧ cache.a[l]? = some al ∧
      dot dl al.T = g.dW[l]?) := by
  obtain ⟨n, hn⟩ : ∃ n, m.weights.length = n + 1 := ⟨m.weights.length - 1, by omega⟩
  have hne : ¬ (n + 1 = 0) := by omega
  obtain ⟨dW, db⟩ := g
  simp only [MLP.backward, hn, hne, if_false, Nat.add_sub_cancel, mseGrad,
    Option.bind_eq_bind, Option.pure_def] at h ⊢
  simp only [Option.bind_eq_some, Option.some.injEq, Grads.mk.injEq] at h
  obtain ⟨aL, haL, delta, hdelta, aPrev, hPrev, g0, hg0, ⟨dW2, db2⟩, hloop, h1, h2⟩ := h
  simp only at h1 h2
  subst h1 h2
  obtain ⟨e1, e2, _, r1, r2⟩ :=
    (backwardLoop_iff m cache n delta [g0] [delta.clone] dW2 db2
      (by simp [NdArray.clone])).mp hloop
  obtain ⟨l1, g1, g2⟩ := drop_cons_facts e1
  obtain ⟨l2, b1, b2⟩ := drop_cons_facts e2
  have hlW : dW2.length = n + 1 := by
    have := List.drop_eq_nil_iff.mp g2
    omega
  have hlb : db2.length = n + 1 := by
    have := List.drop_eq_nil_iff.mp b2
    omega
  refine ⟨hlW, hlb, ⟨aL, haL, ?_⟩, fun l hl => r1 l (by omega), ?_⟩
  · rw [hdelta, b1]
    rfl
  · intro l hl
    rcases Nat.lt_succ_iff_lt_or_eq.mp hl with hlt | heq
    · exact r2 l hlt
    · subst heq
      exact ⟨delta, aPrev, b1, hPrev, by rw [hg0, g1]⟩

/-- A finite sum of functions differentiable at `x` has the sum of their derivatives as
its derivative at `x`. -/
theorem hasDerivAt_range_sum (s : Finset Nat) (F : Nat → ℝ → ℝ) (G : Nat → ℝ) (x : ℝ)
    (h : ∀ i ∈ s, HasDerivAt (F i) (G i) x) :
    HasDerivAt (fun v => ∑ i ∈ s, F i v) (∑ i ∈ s, G i) x :=
  HasDerivAt.sum h

/-! ## The derivative of the loss along a curve of pre-activations -/

/-- The next pre-activation of a column: a column with the entries
`sum_t W[i,t]·f(z[t]) + b[i]`. -/
theorem nextPreActivation_col (m : MLP R) (hm : m.WellFormed) (hact : Elementwise m.act)
    (k : Nat) (hk : k + 1 < m.weights.length) (z : NdArray R)
    (hz : z.IsCol (m.size (k + 1))) :
    ∃ W b z2, m.weights[k + 1]? = some W ∧ m.biases[k + 1]? = some b ∧
      W.IsMat (m.size (k + 2)) (m.size (k + 1)) ∧ b.IsCol (m.size (k + 2)) ∧
      nextPreActivation m k z = some z2 ∧ z2.IsCol (m.size (k + 2)) ∧
      ∀ i, i < m.size (k + 2) →
        z2.entry i = (∑ t ∈ Finset.range (m.size (k + 1)),
          W.entry (i * m.size (k + 1) + t) * scalarOf m.act.f (z.entry t)) + b.entry i := by
  obtain ⟨W, b, hW, hb, cW, cb⟩ := layer_of_wellFormed m hm (k + 1) hk
  obtain ⟨ca, ea, fa⟩ := elementwise_f_isCol hact hz
  obtain ⟨d, z2, hd, hz2, cz2, ez2⟩ := affine_col cW cb ca
  refine ⟨W, b, z2, hW, hb, cW, cb, ?_, cz2, fun i hi => ?_⟩
  · simp only [nextPreActivation, hW, hb, hd, hz2, Option.bind_eq_bind, Option.some_bind]
  · rw [ez2 i hi]
    congr 1
    apply Finset.sum_congr rfl
    intro t ht
    rw [ea, fa t (Finset.mem_range.mp ht)]

/-- The chain rule of back-propagation. Along a curve `v ↦ zc v` of pre-activations of
layer `k` through the pre-activation of the forward pass, whose entries have the
derivatives `zd i` at `v0`, the loss has the derivative `sum_i delta[k][i] · zd i`, where
the `delta` satisfy the recurrences of `backward` entry by entry. -/
theorem lossFrom_hasDerivAt (m : MLP ℝ) (hm : m.WellFormed) (hact : Elementwise m.act)
    (x t : NdArray ℝ) (db : List (NdArray ℝ))
    (hφ : ∀ j z, j + 1 < m.weights.length → preActivation m x j = some z →
      ∀ i, i < m.size (j + 1) →
        HasDerivAt (scalarOf m.act.f) (scalarOf m.act.df (z.entry i)) (z.entry i))
    (htop : ∀ zL D, preActivation m x (m.weights.length - 1) = some zL →
      db[m.weights.length - 1]? = some D →
      ∀ i, i < m.size m.weights.length → D.entry i = zL.entry i - t.entry i)
    (hrec : ∀ k W zk D1 D, k + 1 < m.weights.length → m.weights[k + 1]? = some W →
      preActivation m x k = some zk → db[k + 1]? = some D1 → db[k]? = some D →
      ∀ j, j < m.size (k + 1) →
        D.entry j = (∑ i ∈ Finset.range (m.size (k + 2)),
          W.entry (i * m.size (k + 1) + j) * D1.entry i) * scalarOf m.act.df (zk.entry j))
    (hdb : ∀ k, k < m.weights.length → ∃ D, db[k]? = some D) :
    ∀ (n k : Nat), k + n + 1 = m.weights.length →
      ∀ (zc : ℝ → NdArray ℝ) (zd : Nat → ℝ) (v0 : ℝ) (D : NdArray ℝ),
        (∀ v, (zc v).IsCol (m.size (k + 1))) → preActivation m x k = some (zc v0) →
        (∀ i, i < m.size (k + 1) → HasDerivAt (fun v => (zc v).entry i) (zd i) v0) →
        db[k]? = some D →
        HasDerivAt (fun v => (lossFrom m t n k (zc v)).getD 0)
          (∑ i ∈ Finset.range (m.size (k + 1)), D.entry i * zd i) v0 := by
  intro n
  induction n with
  | zero =>
      intro k hk zc zd v0 D hcol hbase hder hD
      have hkL : k = m.weights.length - 1 := by omega
      have hsz : m.size (k + 1) = m.size m.weights.length := by rw [hkL]; congr 1; omega
      have hfun : (fun v => (lossFrom m t 0 k (zc v)).getD 0)
          = fun v => 1 / 2 * ∑ i ∈ Finset.range (m.size (k + 1)),
              ((zc v).entry i - t.entry i) * ((zc v).entry i - t.entry i) := by
        funext v
        simp only [lossFrom, Option.getD_some, halfSumSquares, asCol_of_isCol (hcol v),
          (hcol v).2]
      rw [hfun]
      have hsum := hasDerivAt_range_sum (Finset.range (m.size (k + 1)))
        (fun i v => ((zc v).entry i - t.entry i) * ((zc v).entry i - t.entry i))
        (fun i => zd i * ((zc v0).entry i - t.entry i)
          + ((zc v0).entry i - t.entry i) * zd i) (v0)
        (fun i hi => by
          have h1 := (hder i (Finset.mem_range.mp hi)).sub_const (t.entry i)
          exact h1.mul h1)
      have hmul := hsum.const_mul (1 / 2 : ℝ)
      convert hmul using 1
      rw [Finset.mul_sum]
      apply Finset.sum_congr rfl
      intro i hi
      have hi2 : i < m.size m.weights.length := by
        rw [← hsz]; exact Finset.mem_range.mp hi
      rw [htop (zc v0) D (by rw [← hkL]; exact hbase) (by rw [← hkL]; exact hD) i hi2]
      ring
  | succ n ih =>
      intro k hk zc zd v0 D hcol hbase hder hD
      have hk1 : k + 1 < m.weights.length := by omega
      -- the curve of the next pre-activations
      have hnext : ∀ v, ∃ W b z2, m.weights[k + 1]? = some W ∧ m.biases[k + 1]? = some b ∧
          W.IsMat (m.size (k + 2)) (m.size (k + 1)) ∧ b.IsCol (m.size (k + 2)) ∧
          nextPreActivation m k (zc v) = some z2 ∧ z2.IsCol (m.size (k + 2)) ∧
          ∀ i, i < m.size (k + 2) →
            z2.entry i = (∑ t ∈ Finset.range (m.size (k + 1)),
              W.entry (i * m.size (k + 1) + t) * scalarOf m.act.f ((zc v).entry t))
              + b.entry i :=
        fun v => nextPreActivation_col m hm hact k hk1 (zc v) (hcol v)
      obtain ⟨W, b, _, hW, hb, cW, cb, _, _, _⟩ := hnext v0
      have hz2 : ∀ v, ∃ z2, nextPreActivation m k (zc v) = some z2 ∧
          z2.IsCol (m.size (k + 2)) ∧
          ∀ i, i < m.size (k + 2) →
            z2.entry i = (∑ t ∈ Finset.range (m.size (k + 1)),
              W.entry (i * m.size (k + 1) + t) * scalarOf m.act.f ((zc v).entry t))
              + b.entry i := by
        intro v
        obtain ⟨W2, b2, z2, hW2, hb2, _, _, h1, h2, h3⟩ := hnext v
        rw [hW] at hW2
        rw [hb] at hb2
        cases hW2
        cases hb2
        exact ⟨z2, h1, h2, h3⟩
      let z2c : ℝ → NdArray ℝ := fun v => (nextPreActivation m k (zc v)).getD (zc v)
      have hz2c : ∀ v, nextPreActivation m k (zc v) = some (z2c v) := by
        intro v
        obtain ⟨z2, h1, _, _⟩ := hz2 v
        show nextPreActivation m k (zc v) = some ((nextPreActivation m k (zc v)).getD (zc v))
        rw [h1]
        rfl
      have hcol2 : ∀ v, (z2c v).IsCol (m.size (k + 1 + 1)) := by
        intro v
        obtain ⟨z2, h1, h2, _⟩ := hz2 v
        have := hz2c v
        rw [h1] at this
        rw [← Option.some.inj this]
        exact h2
      have hent2 : ∀ v i, i < m.size (k + 2) →
          (z2c v).entry i = (∑ t ∈ Finset.range (m.size (k + 1)),
            W.entry (i * m.size (k + 1) + t) * scalarOf m.act.f ((zc v).entry t))
            + b.entry i := by
        intro v i hi
        obtain ⟨z2, h1, _, h3⟩ := hz2 v
        have := hz2c v
        rw [h1] at this
        rw [← Option.some.inj this]
        exact h3 i hi
      have hbase2 : preActivation m x (k + 1) = some (z2c v0) := by
        rw [preActivation_succ, hbase, Option.some_bind]
        exact hz2c v0
      obtain ⟨D1, hD1⟩ := hdb (k + 1) hk1
      have hder2 : ∀ i, i < m.size (k + 1 + 1) →
          HasDerivAt (fun v => (z2c v).entry i)
            (∑ t ∈ Finset.range (m.size (k + 1)),
              W.entry (i * m.size (k + 1) + t)
                * (scalarOf m.act.df ((zc v0).entry t) * zd t)) v0 := by
        intro i hi
        have hfun : (fun v => (z2c v).entry i)
            = fun v => (∑ t ∈ Finset.range (m.size (k + 1)),
                W.entry (i * m.size (k + 1) + t) * scalarOf m.act.f ((zc v).entry t))
                + b.entry i := by
          funext v
          exact hent2 v i hi
        rw [hfun]
        have hsum := hasDerivAt_range_sum (Finset.range (m.size (k + 1)))
          (fun t v => W.entry (i * m.size (k + 1) + t)
            * scalarOf m.act.f ((zc v).entry t))
          (fun t => W.entry (i * m.size (k + 1) + t)
            * (scalarOf m.act.df ((zc v0).entry t) * zd t)) (v0)
          (fun t ht => by
            have ht2 := Finset.mem_range.mp ht
            have h1 := hφ k (zc v0) hk1 hbase t ht2
            have h2 := HasDerivAt.comp v0 h1 (hder t ht2)
            exact h2.const_mul _)
        exact hsum.add_const (b.entry i)
      have hIH := ih (k + 1) (by omega) z2c _ v0 D1 hcol2 hbase2 hder2 hD1
      have hfun : (fun v => (lossFrom m t (n + 1) k (zc v)).getD 0)
          = fun v => (lossFrom m t n (k + 1) (z2c v)).getD 0 := by
        funext v
        simp only [lossFrom, hz2c v, Option.bind_eq_bind, Option.some_bind]
      rw [hfun]
      convert hIH using 1
      -- the adjoint identity
      have hDj : ∀ j, j < m.size (k + 1) →
          D.entry j = (∑ i ∈ Finset.range (m.size (k + 2)),
            W.entry (i * m.size (k + 1) + j) * D1.entry i)
            * scalarOf m.act.df ((zc v0).entry j) :=
        hrec k W (zc v0) D1 D hk1 hW hbase hD1 hD
      calc ∑ j ∈ Finset.range (m.size (k + 1)), D.entry j * zd j
          = ∑ j ∈ Finset.range (m.size (k + 1)), ∑ i ∈ Finset.range (m.size (k + 2)),
              D1.entry i * (W.entry (i * m.size (k + 1) + j)
                * (scalarOf m.act.df ((zc v0).entry j) * zd j)) := by
            apply Finset.sum_congr rfl
            intro j hj
            rw [hDj j (Finset.mem_range.mp hj), Finset.sum_mul, Finset.sum_mul]
            apply Finset.sum_congr rfl
            intro i _
            ring
        _ = ∑ i ∈ Finset.range (m.size (k + 2)), ∑ j ∈ Finset.range (m.size (k + 1)),
              D1.entry i * (W.entry (i * m.size (k + 1) + j)
                * (scalarOf m.act.df ((zc v0).entry j) * zd j)) := Finset.sum_comm
        _ = ∑ i ∈ Finset.range (m.size (k + 1 + 1)), D1.entry i *
              ∑ t ∈ Finset.range (m.size (k + 1)), W.entry (i * m.size (k + 1) + t)
                * (scalarOf m.act.df ((zc v0).entry t) * zd t) := by
            apply Finset.sum_congr rfl
            intro i _
            rw [Finset.mul_sum]

/-! ## The entries of the gradients returned by `backward` -/

/-- One step of back-propagation on columns: `(Wᵀ·d1) ⊙ df(z)` is a column with the
entries `(sum_i W[i,j]·d1[i]) · df(z[j])`. -/
theorem delta_step {act : Activation R} (hact : Elementwise act) {W d1 zl : NdArray R}
    {p q : Nat} (hW : W.IsMat p q) (hd1 : d1.IsCol p) (hz : zl.IsCol q) :
    ∃ D, (dot W.T d1).bind (fun r => r.multiply (act.df zl)) = some D ∧ D.IsCol q ∧
      ∀ j, j < q → D.entry j
        = (∑ i ∈ Finset.range p, W.entry (i * q + j) * d1.entry i)
          * scalarOf act.df (zl.entry j) := by
  obtain ⟨cT, eT⟩ := T_isMat hW
  obtain ⟨r, hr, cr, er⟩ := dot_mat_col cT hd1
  obtain ⟨cdf, edf⟩ := elementwise_df_isCol hact hz
  obtain ⟨D, hD, cD, eD⟩ := multiply_isCol cr cdf
  refine ⟨D, by rw [hr, Option.some_bind, hD], cD, fun j hj => ?_⟩
  rw [eD j hj, er j hj, edf j hj]
  congr 1
  apply Finset.sum_congr rfl
  intro i hi
  rw [eT i j (Finset.mem_range.mp hi) hj]

/-- The gradients returned by `backward` on the cache of `forward`, entry by entry:
every `db[k]` is a column, `db[L-1] = z[L-1] - t`,
`db[k][j] = (sum_i W[k+1][i,j]·db[k+1][i]) · df(z[k][j])`, and
`dW[l][i,j] = db[l][i] · a[l][j]`. -/
theorem backward_entries (m : MLP R) (hm : m.WellFormed) (hact : Elementwise m.act)
    (x t y : NdArray R) (c : Cache R) (g : Grads R) (hL : 1 ≤ m.weights.length)
    (hx : m.IsInput x) (ht : t.IsCol (m.size m.weights.length))
    (hf : m.forward x true = some (y, some c)) (hb : m.backward t c = some g) :
    (∀ k, k < m.weights.length → ∃ D, g.db[k]? = some D ∧ D.IsCol (m.size (k + 1))) ∧
    (∀ zL D, preActivation m x (m.weights.length - 1) = some zL →
      g.db[m.weights.length - 1]? = some D →
      ∀ i, i < m.size m.weights.length → D.entry i = zL.entry i - t.entry i) ∧
    (∀ k W zk D1 D, k + 1 < m.weights.length → m.weights[k + 1]? = some W →
      preActivation m x k = some zk → g.db[k + 1]? = some D1 → g.db[k]? = some D →
      ∀ j, j < m.size (k + 1) →
        D.entry j = (∑ i ∈ Finset.range (m.size (k + 2)),
          W.entry (i * m.size (k + 1) + j) * D1.entry i) * scalarOf m.act.df (zk.entry j)) ∧
    (∀ l a D gW, l < m.weights.length → layerInput m x l = some a → g.db[l]? = some D →
      g.dW[l]? = some gW → gW.IsMat (m.size (l + 1)) (m.size l) ∧
      ∀ i j, i < m.size (l + 1) → j < m.size l →
        gW.entry (i * m.size l + j) = D.entry i * a.entry j) := by
  obtain ⟨c2, zL, hc2, hzL, hy, haL, hzLc, hca, hcz⟩ := forward_cache m x y (some c) hf
  cases hc2
  obtain ⟨_, _, ⟨aL, haL2, htopeq⟩, hrecs, hdWs⟩ := backward_recurrences m t c g hL hb
  rw [haL] at haL2
  cases haL2
  have eL : m.weights.length - 1 + 1 = m.weights.length := by omega
  have hcols := forward_cols m hm hact x hx
  have czL : zL.IsCol (m.size m.weights.length) := by
    obtain ⟨_, z, _, _, hz, cz⟩ := hcols (m.weights.length - 1) (by omega)
    rw [hzL] at hz
    cases hz
    rw [eL] at cz
    exact cz
  have hyz : y = zL := by rw [hy, asCol_of_isCol czL]
  subst hyz
  obtain ⟨Dtop, hDtop, cDtop, eDtop⟩ := subtract_isCol czL ht
  rw [hDtop] at htopeq
  -- the step from layer k + 1 to layer k
  have hstep : ∀ k D1, k + 1 < m.weights.length → g.db[k + 1]? = some D1 →
      D1.IsCol (m.size (k + 2)) →
      ∃ W zk D, m.weights[k + 1]? = some W ∧ preActivation m x k = some zk ∧
        g.db[k]? = some D ∧ D.IsCol (m.size (k + 1)) ∧
        ∀ j, j < m.size (k + 1) →
          D.entry j = (∑ i ∈ Finset.range (m.size (k + 2)),
            W.entry (i * m.size (k + 1) + j) * D1.entry i)
            * scalarOf m.act.df (zk.entry j) := by
    intro k D1 hk hD1 cD1
    obtain ⟨W, zl, d1, hW, hzl, hd1, heq⟩ := hrecs k hk
    rw [hD1] at hd1
    cases hd1
    obtain ⟨W2, _, hW2, _, cW, _⟩ := layer_of_wellFormed m hm (k + 1) hk
    rw [hW] at hW2
    cases hW2
    obtain ⟨_, zk, _, _, hzk, czk⟩ := hcols k (by omega)
    rw [hcz k hk, hzk] at hzl
    have ezz : zk = zl := Option.some.inj hzl
    subst ezz
    obtain ⟨D, hD, cD, eD⟩ := delta_step hact cW cD1 czk
    rw [hD] at heq
    exact ⟨W, zk, D, hW, hzk, heq.symm, cD, eD⟩
  have hcolsD : ∀ n k, k + n + 1 = m.weights.length →
      ∃ D, g.db[k]? = some D ∧ D.IsCol (m.size (k + 1)) := by
    intro n
    induction n with
    | zero =>
        intro k hk
        have hk2 : k = m.weights.length - 1 := by omega
        subst hk2
        rw [eL]
        exact ⟨Dtop, htopeq.symm, cDtop⟩
    | succ n ih =>
        intro k hk
        obtain ⟨D1, hD1, cD1⟩ := ih (k + 1) (by omega)
        obtain ⟨_, _, D, _, _, hD, cD, _⟩ := hstep k D1 (by omega) hD1 cD1
        exact ⟨D, hD, cD⟩
  have hall : ∀ k, k < m.weights.length →
      ∃ D, g.db[k]? = some D ∧ D.IsCol (m.size (k + 1)) :=
    fun k hk => hcolsD (m.weights.length - 1 - k) k (by omega)
  refine ⟨hall, ?_, ?_, ?_⟩
  · intro zL2 D h1 h2 i _
    rw [hzL] at h1
    cases h1
    rw [← htopeq] at h2
    cases h2
    exact eDtop i
  · intro k W zk D1 D hk hW hzk hD1 hD j hj
    obtain ⟨D1b, hD1b, cD1⟩ := hall (k + 1) hk
    rw [hD1] at hD1b
    cases hD1b
    obtain ⟨W2, zk2, D2, hW2, hzk2, hD2, _, eD2⟩ := hstep k D1 hk hD1 cD1
    rw [hW] at hW2
    rw [hzk] at hzk2
    rw [hD] at hD2
    cases hW2
    cases hzk2
    cases hD2
    exact eD2 j hj
  · intro l a D gW hl ha hD hgW
    obtain ⟨dl, al, hdl, hal, hdot⟩ := hdWs l hl
    rw [hD] at hdl
    cases hdl
    rw [hca l hl, ha] at hal
    cases hal
    obtain ⟨D2, hD2, cD⟩ := hall l hl
    rw [hD] at hD2
    cases hD2
    obtain ⟨a2, _, ha2, ca, _, _⟩ := hcols l hl
    rw [ha] at ha2
    cases ha2
    obtain ⟨g0, hg0, cg0, eg0⟩ := dot_col_rowT cD ca
    rw [hg0, hgW] at hdot
    cases hdot
    exact ⟨cg0, eg0⟩

/-! ## Perturbing one entry of a weight matrix or of a bias -/

theorem setEntry_isMat {W : NdArray R} {p q : Nat} (hW : W.IsMat p q) (i : Nat) (v : R) :
    (W.setEntry i v).IsMat p q :=
  ⟨hW.1, by simp [NdArray.setEntry, hW.2]⟩

theorem setEntry_isCol {b : NdArray R} {p : Nat} (hb : b.IsCol p) (i : Nat) (v : R) :
    (b.setEntry i v).IsCol p :=
  ⟨hb.1, by simp [NdArray.setEntry, hb.2]⟩

theorem setEntry_entry (A : NdArray R) (i j : Nat) (v : R) (hi : i < A.data.length) :
    (A.setEntry i v).entry j = if j = i then v else A.entry j := by
  unfold NdArray.setEntry NdArray.entry
  simp only [List.getD_eq_getElem?_getD]
  by_cases h : j = i
  · subst h
    rw [if_pos rfl, List.getElem?_set_self hi]
    rfl
  · rw [if_neg h, List.getElem?_set_ne (fun e => h e.symm)]

theorem setEntry_self (A : NdArray R) (i : Nat) (hi : i < A.data.length) :
    A.setEntry i (A.entry i) = A := by
  obtain ⟨shape, data⟩ := A
  unfold NdArray.setEntry NdArray.entry
  simp only [NdArray.mk.injEq, true_and]
  simp only at hi
  rw [getD_eq_of_lt data i hi]
  apply List.ext_getElem?
  intro j
  rw [getElem?_set_eq_ite _ _ _ _ hi]
  by_cases h : j = i
  · subst h
    rw [if_pos rfl, List.getElem?_eq_getElem hi]
  · rw [if_neg h]

theorem withWeight_eq (m : MLP R) (l i : Nat) (v : R) (W : NdArray R)
    (hW : m.weights[l]? = some W) :
    m.withWeight l i v = { m with weights := m.weights.set l (W.setEntry i v) } := by
  unfold MLP.withWeight
  rw [hW]

theorem withBias_eq (m : MLP R) (l i : Nat) (v : R) (b : NdArray R)
    (hb : m.biases[l]? = some b) :
    m.withBias l i v = { m with biases := m.biases.set l (b.setEntry i v) } := by
  unfold MLP.withBias
  rw [hb]

/-- The derivative of the loss along a curve of pre-activations of layer `l0`, with the
`delta` of `backward`. -/
theorem loss_curve_hasDerivAt (m : MLP ℝ) (hm : m.WellFormed) (hact : Elementwise m.act)
    (x t y : NdArray ℝ) (c : Cache ℝ) (g : Grads ℝ) (hL : 1 ≤ m.weights.length)
    (hx : m.IsInput x) (ht : t.IsCol (m.size m.weights.length))
    (hφ : ∀ j z, j + 1 < m.weights.length → preActivation m x j = some z →
      ∀ u, u ∈ z.data → HasDerivAt (scalarOf m.act.f) (scalarOf m.act.df u) u)
    (hf : m.forward x true = some (y, some c)) (hb : m.backward t c = some g)
    (l0 : Nat) (hl0 : l0 < m.weights.length) (zc : ℝ → NdArray ℝ) (zd : Nat → ℝ) (v0 : ℝ)
    (D : NdArray ℝ) (hcol : ∀ v, (zc v).IsCol (m.size (l0 + 1)))
    (hbase : preActivation m x l0 = some (zc v0))
    (hder : ∀ i, i < m.size (l0 + 1) → HasDerivAt (fun v => (zc v).entry i) (zd i) v0)
    (hD : g.db[l0]? = some D) :
    HasDerivAt (fun v => (lossFrom m t (m.weights.length - 1 - l0) l0 (zc v)).getD 0)
      (∑ i ∈ Finset.range (m.size (l0 + 1)), D.entry i * zd i) v0 := by
  obtain ⟨h1, h2, h3, _⟩ := backward_entries m hm hact x t y c g hL hx ht hf hb
  have hφ2 : ∀ j z, j + 1 < m.weights.length → preActivation m x j = some z →
      ∀ i, i < m.size (j + 1) →
        HasDerivAt (scalarOf m.act.f) (scalarOf m.act.df (z.entry i)) (z.entry i) := by
    intro j z hj hz i hi
    obtain ⟨_, z2, _, _, hz2, cz2⟩ := forward_cols m hm hact x hx j (by omega)
    rw [hz] at hz2
    cases hz2
    have hi2 : i < z.data.length := by rw [cz2.2]; exact hi
    have hmem : z.entry i ∈ z.data := by
      unfold NdArray.entry
      rw [getD_eq_of_lt _ _ hi2]
      exact List.getElem_mem hi2
    exact hφ j z hj hz _ hmem
  exact lossFrom_hasDerivAt m hm hact x t g.db hφ2 h2 h3
    (fun k hk => by
      obtain ⟨D, hD, _⟩ := h1 k hk
      exact ⟨D, hD⟩)
    (m.weights.length - 1 - l0) l0 (by omega) zc zd v0 D hcol hbase hder hD

theorem sum_indicator_table (p q idx : Nat) (hidx : idx < p * q) (D a : Nat → ℝ) :
    ∑ i ∈ Finset.range p, D i * ∑ t ∈ Finset.range q,
        (if i * q + t = idx then (1 : ℝ) else 0) * a t
      = D (idx / q) * a (idx % q) := by
  have hq : 0 < q := by
    rcases Nat.eq_zero_or_pos q with h | h
    · subst h
      simp at hidx
    · exact h
  have hi0 : idx / q < p := Nat.div_lt_of_lt_mul (by rw [Nat.mul_comm]; exact hidx)
  have hj0 : idx % q < q := Nat.mod_lt _ hq
  have hdecomp : idx / q * q + idx % q = idx := by
    rw [Nat.mul_comm]
    exact Nat.div_add_mod idx q
  rw [Finset.sum_eq_single (idx / q)]
  · rw [Finset.sum_eq_single (idx % q)]
    · rw [if_pos hdecomp, one_mul]
    · intro t _ ht
      rw [if_neg (by omega), zero_mul]
    · intro h
      exact absurd (Finset.mem_range.mpr hj0) h
  · intro i _ hi
    have hzero : ∑ t ∈ Finset.range q, (if i * q + t = idx then (1 : ℝ) else 0) * a t = 0 := by
      apply Finset.sum_eq_zero
      intro t ht
      have ht2 := Finset.mem_range.mp ht
      have hne : i * q + t ≠ idx := by
        intro e
        apply hi
        rw [← e, Nat.mul_comm, Nat.mul_add_div hq, Nat.div_eq_of_lt ht2, Nat.add_zero]
      rw [if_neg hne, zero_mul]
    rw [hzero, mul_zero]
  · intro h
    exact absurd (Finset.mem_range.mpr hi0) h

/-- The entry `dW[l0][idx]` returned by `backward` is the derivative of the loss with
respect to entry `idx` of `weights[l0]`. -/
theorem weight_hasDerivAt (m : MLP ℝ) (hm : m.WellFormed) (hact : Elementwise m.act)
    (x t y : NdArray ℝ) (c : Cache ℝ) (g : Grads ℝ) (hL : 1 ≤ m.weights.length)
    (hx : m.IsInput x) (ht : t.IsCol (m.size m.weights.length))
    (hφ : ∀ j z, j + 1 < m.weights.length → preActivation m x j = some z →
      ∀ u, u ∈ z.data → HasDerivAt (scalarOf m.act.f) (scalarOf m.act.df u) u)
    (hf : m.forward x true = some (y, some c)) (hb : m.backward t c = some g)
    (l0 : Nat) (W gW : NdArray ℝ) (hW : m.weights[l0]? = some W)
    (hgW : g.dW[l0]? = some gW) (idx : Nat) (hidx : idx < W.data.length) :
    HasDerivAt (fun v => lossOf (m.withWeight l0 idx v) x t) (gW.entry idx) (W.entry idx) := by
  have hl0 : l0 < m.weights.length := lt_length_of_getElem? hW
  obtain ⟨W2, b, hW2, hbb, cW, cb⟩ := layer_of_wellFormed m hm l0 hl0
  rw [hW] at hW2
  cases hW2
  obtain ⟨a, z0, ha, ca, hz0, cz0⟩ := forward_cols m hm hact x hx l0 hl0
  have haff := fun v : ℝ => affine_col (setEntry_isMat cW idx v) cb ca
  let zc : ℝ → NdArray ℝ :=
    fun v => ((dot (W.setEntry idx v) a).bind (fun d => d.add b)).getD z0
  have hzc : ∀ v, (dot (W.setEntry idx v) a).bind (fun d => d.add b) = some (zc v) := by
    intro v
    obtain ⟨d, z, hd, hz, _, _⟩ := haff v
    show _ = some (((dot (W.setEntry idx v) a).bind (fun d => d.add b)).getD z0)
    rw [hd, Option.some_bind, hz]
    rfl
  have hzc2 : ∀ v, (zc v).IsCol (m.size (l0 + 1)) ∧ ∀ i, i < m.size (l0 + 1) →
      (zc v).entry i = (∑ t ∈ Finset.range (m.size l0),
        (W.setEntry idx v).entry (i * m.size l0 + t) * a.entry t) + b.entry i := by
    intro v
    obtain ⟨d, z, hd, hz, cz, ez⟩ := haff v
    have h := hzc v
    rw [hd, Option.some_bind, hz] at h
    rw [← Option.some.inj h]
    exact ⟨cz, ez⟩
  have hbase : preActivation m x l0 = some (zc (W.entry idx)) := by
    have h := hzc (W.entry idx)
    rw [setEntry_self W idx hidx] at h
    rw [← h]
    simp only [preActivation, ha, hW, hbb, Option.bind_eq_bind, Option.some_bind]
  have hloss : ∀ v, lossOf (m.withWeight l0 idx v) x t
      = (lossFrom m t (m.weights.length - 1 - l0) l0 (zc v)).getD 0 := by
    intro v
    rw [withWeight_eq m l0 idx v W hW]
    exact lossOf_replaced m { m with weights := m.weights.set l0 (W.setEntry idx v) } x t l0
      (m.weights.length - 1 - l0) rfl (by simp)
      (fun l hl => List.getElem?_set_ne (fun e => hl e.symm)) (fun l _ => rfl) (by omega)
      a (W.setEntry idx v) b (zc v) ha (List.getElem?_set_self hl0) hbb (hzc v)
  obtain ⟨hD1, _, _, hD4⟩ := backward_entries m hm hact x t y c g hL hx ht hf hb
  obtain ⟨D, hD, cD⟩ := hD1 l0 hl0
  obtain ⟨cgW, egW⟩ := hD4 l0 a D gW hl0 ha hD hgW
  have hder : ∀ i, i < m.size (l0 + 1) →
      HasDerivAt (fun v => (zc v).entry i)
        (∑ t ∈ Finset.range (m.size l0),
          (if i * m.size l0 + t = idx then (1 : ℝ) else 0) * a.entry t) (W.entry idx) := by
    intro i hi
    have hfun : (fun v => (zc v).entry i)
        = fun v => (∑ t ∈ Finset.range (m.size l0),
            (if i * m.size l0 + t = idx then v else W.entry (i * m.size l0 + t))
              * a.entry t) + b.entry i := by
      funext v
      rw [(hzc2 v).2 i hi]
      congr 1
      apply Finset.sum_congr rfl
      intro t _
      rw [setEntry_entry W idx _ v hidx]
    rw [hfun]
    have hsum := hasDerivAt_range_sum (Finset.range (m.size l0))
      (fun t v => (if i * m.size l0 + t = idx then v else W.entry (i * m.size l0 + t))
        * a.entry t)
      (fun t => (if i * m.size l0 + t = idx then (1 : ℝ) else 0) * a.entry t) (W.entry idx)
      (fun t _ => by
        by_cases hc : i * m.size l0 + t = idx
        · simp only [hc, if_true]
          exact (hasDerivAt_id (W.entry idx)).mul_const (a.entry t)
        · simp only [hc, if_false]
          exact (hasDerivAt_const (W.entry idx) _).mul_const (a.entry t))
    exact hsum.add_const (b.entry i)
  have hmain := loss_curve_hasDerivAt m hm hact x t y c g hL hx ht hφ hf hb l0 hl0 zc _
    (W.entry idx) D (fun v => (hzc2 v).1) hbase hder hD
  have hfun : (fun v => lossOf (m.withWeight l0 idx v) x t)
      = fun v => (lossFrom m t (m.weights.length - 1 - l0) l0 (zc v)).getD 0 := by
    funext v
    exact hloss v
  rw [hfun]
  convert hmain using 1
  have hidx2 : idx < m.size (l0 + 1) * m.size l0 := by rw [← cW.2]; exact hidx
  rw [sum_indicator_table (m.size (l0 + 1)) (m.size l0) idx hidx2 (fun i => D.entry i)
    (fun t => a.entry t)]
  have hq : 0 < m.size l0 := by
    rcases Nat.eq_zero_or_pos (m.size l0) with h | h
    · rw [h] at hidx2
      simp at hidx2
    · exact h
  have hdecomp : idx / m.size l0 * m.size l0 + idx % m.size l0 = idx := by
    rw [Nat.mul_comm]
    exact Nat.div_add_mod idx (m.size l0)
  rw [← egW (idx / m.size l0) (idx % m.size l0)
    (Nat.div_lt_of_lt_mul (by rw [Nat.mul_comm]; exact hidx2)) (Nat.mod_lt _ hq), hdecomp]

/-- The entry `db[l0][idx]` returned by `backward` is the derivative of the loss with
respect to entry `idx` of `biases[l0]`. -/
theorem bias_hasDerivAt (m : MLP ℝ) (hm : m.WellFormed) (hact : Elementwise m.act)
    (x t y : NdArray ℝ) (c : Cache ℝ) (g : Grads ℝ) (hL : 1 ≤ m.weights.length)
    (hx : m.IsInput x) (ht : t.IsCol (m.size m.weights.length))
    (hφ : ∀ j z, j + 1 < m.weights.length → preActivation m x j = some z →
      ∀ u, u ∈ z.data → HasDerivAt (scalarOf m.act.f) (scalarOf m.act.df u) u)
    (hf : m.forward x true = some (y, some c)) (hb : m.backward t c = some g)
    (l0 : Nat) (hl0 : l0 < m.weights.length) (b gb : NdArray ℝ)
    (hbb : m.biases[l0]? = some b) (hgb : g.db[l0]? = some gb) (idx : Nat)
    (hidx : idx < b.data.length) :
    HasDerivAt (fun v => lossOf (m.withBias l0 idx v) x t) (gb.entry idx) (b.entry idx) := by
  obtain ⟨W, b2, hW, hbb2, cW, cb⟩ := layer_of_wellFormed m hm l0 hl0
  rw [hbb] at hbb2
  cases hbb2
  have hlb : l0 < m.biases.length := lt_length_of_getElem? hbb
  obtain ⟨a, z0, ha, ca, hz0, cz0⟩ := forward_cols m hm hact x hx l0 hl0
  obtain ⟨d, hd, cd, _⟩ := dot_mat_col cW ca
  have haff := fun v : ℝ => add_isCol cd (setEntry_isCol cb idx v)
  let zc : ℝ → NdArray ℝ := fun v => (d.add (b.setEntry idx v)).getD z0
  have hzc : ∀ v, (dot W a).bind (fun d => d.add (b.setEntry idx v)) = some (zc v) := by
    intro v
    obtain ⟨z, hz, _, _⟩ := haff v
    show _ = some ((d.add (b.setEntry idx v)).getD z0)
    rw [hd, Option.some_bind, hz]
    rfl
  have hzc2 : ∀ v, (zc v).IsCol (m.size (l0 + 1)) ∧ ∀ i,
      (zc v).entry i = d.entry i + (b.setEntry idx v).entry i := by
    intro v
    obtain ⟨z, hz, cz, ez⟩ := haff v
    have h := hzc v
    rw [hd, Option.some_bind, hz] at h
    rw [← Option.some.inj h]
    exact ⟨cz, ez⟩
  have hbase : preActivation m x l0 = some (zc (b.entry idx)) := by
    have h := hzc (b.entry idx)
    rw [setEntry_self b idx hidx] at h
    rw [← h]
    simp only [preActivation, ha, hW, hbb, Option.bind_eq_bind, Option.some_bind]
  have hloss : ∀ v, lossOf (m.withBias l0 idx v) x t
      = (lossFrom m t (m.weights.length - 1 - l0) l0 (zc v)).getD 0 := by
    intro v
    rw [withBias_eq m l0 idx v b hbb]
    exact lossOf_replaced m { m with biases := m.biases.set l0 (b.setEntry idx v) } x t l0
      (m.weights.length - 1 - l0) rfl rfl
      (fun l _ => rfl) (fun l hl => List.getElem?_set_ne (fun e => hl e.symm)) (by omega)
      a W (b.setEntry idx v) (zc v) ha hW (List.getElem?_set_self hlb) (hzc v)
  have hder : ∀ i, i < m.size (l0 + 1) →
      HasDerivAt (fun v => (zc v).entry i) (if i = idx then (1 : ℝ) else 0)
        (b.entry idx) := by
    intro i _
    have hfun : (fun v => (zc v).entry i)
        = fun v => d.entry i + (if i = idx then v else b.entry i) := by
      funext v
      rw [(hzc2 v).2 i, setEntry_entry b idx i v hidx]
    rw [hfun]
    by_cases hc : i = idx
    · simp only [hc, if_true]
      exact (hasDerivAt_id (b.entry idx)).const_add (d.entry idx)
    · simp only [hc, if_false]
      exact hasDerivAt_const (b.entry idx) _
  have hmain := loss_curve_hasDerivAt m hm hact x t y c g hL hx ht hφ hf hb l0 hl0 zc _
    (b.entry idx) gb (fun v => (hzc2 v).1) hbase hder hgb
  have hfun : (fun v => lossOf (m.withBias l0 idx v) x t)
      = fun v => (lossFrom m t (m.weights.length - 1 - l0) l0 (zc v)).getD 0 := by
    funext v
    exact hloss v
  rw [hfun]
  convert hmain using 1
  have hidx2 : idx < m.size (l0 + 1) := by rw [← cb.2]; exact hidx
  rw [Finset.sum_eq_single idx]
  · rw [if_pos rfl, mul_one]
  · intro i _ hi
    rw [if_neg hi, mul_zero]
  · intro h
    exact absurd (Finset.mem_range.mpr hidx2) h

theorem elementwise_shapePreserving {act : Activation R} (h : Elementwise act) :
    ShapePreserving act := by
  intro z
  rw [(h z).1, (h z).2]
  exact ⟨rfl, rfl⟩

theorem linear_elementwise : Elementwise (Activations.linear : Activation R) := by
  intro z
  refine ⟨?_, rfl⟩
  show z = ⟨z.shape, z.data.map (fun x => x)⟩
  rw [List.map_id_fun']
  rfl

theorem sigmoid_elementwise (M : JsMath R) : Elementwise (Activations.sigmoid M) := by
  intro z
  refine ⟨rfl, ?_⟩
  simp only [Activations.sigmoid, mapNd, dataOf, NdArray.clone, List.map_map, scalarOf,
    NdArray.entry, List.map_cons, List.map_nil, List.getD_cons_zero]
  rfl

theorem tanh_elementwise (M : JsMath R) : Elementwise (Activations.tanh M) := by
  intro z
  refine ⟨rfl, ?_⟩
  simp only [Activations.tanh, mapNd, dataOf, NdArray.clone, List.map_map, scalarOf,
    NdArray.entry, List.map_cons, List.map_nil, List.getD_cons_zero]
  rfl

theorem softsign_elementwise : Elementwise (Activations.softsign : Activation R) :=
  fun _ => ⟨rfl, rfl⟩

/-- The loss that `script.js` reports, entry `[0][0]` of `0.5 · err²`, is
`0.5 · sum((y - t)²)` for an output and a label of shape `1 × 1`. -/
theorem mseLoss_eq_halfSumSquares {y t : NdArray R} (hy : y.IsCol 1) (ht : t.IsCol 1) :
    mseLoss y t = some (halfSumSquares y t) := by
  obtain ⟨err, herr, cerr, eerr⟩ := subtract_isCol hy ht
  obtain ⟨sq, hsq, csq, esq⟩ := multiply_isCol cerr cerr
  have hlen : 0 < (sq.multiplyScalar (1 / 2)).data.length := by
    simp [NdArray.multiplyScalar, csq.2]
  have hent : (sq.multiplyScalar (1 / 2)).entry 0 = 1 / 2 * sq.entry 0 := by
    have h0 : 0 < sq.data.length := by rw [csq.2]; exact Nat.one_pos
    simp [NdArray.multiplyScalar, NdArray.entry, List.getElem?_eq_getElem h0, mul_comm]
  have hshape : (sq.multiplyScalar (1 / 2)).shape = [1, 1] := csq.1
  unfold mseLoss
  simp only [herr, hsq, Option.bind_eq_bind, Option.some_bind, hshape, Nat.lt_one_iff,
    and_self, if_true, Nat.one_pos]
  rw [List.getElem?_eq_getElem hlen]
  congr 1
  have hg : (sq.multiplyScalar (1 / 2)).data[0] = (sq.multiplyScalar (1 / 2)).entry 0 := by
    unfold NdArray.entry
    rw [List.getD_eq_getElem?_getD, List.getElem?_eq_getElem hlen]
    rfl
  rw [hg, hent, esq 0 Nat.one_pos, eerr 0]
  unfold halfSumSquares
  rw [hy.2, Finset.sum_range_one]

/-- On a well-shaped model, `forward` in training mode returns a cache on which `backward`
returns. -/
theorem forward_backward_exists (m : MLP R) (x yTrue : NdArray R) (hm : m.WellShaped)
    (hact : ShapePreserving m.act) (hL : 1 ≤ m.weights.length)
    (hx : x.shape = [m.size 0] ∨ x.shape = [m.size 0, 1])
    (hy : yTrue.shape = [m.size m.weights.length, 1]) :
    ∃ y cache g, m.forward x true = some (y, some cache) ∧
      m.backward yTrue cache = some g := by
  obtain ⟨y, c, hf, sy, hc⟩ := forward_shapes m hm hact hL x hx
  obtain ⟨aL, haL, saL⟩ := hc.2.2.1 m.weights.length (Nat.le_refl _)
  obtain ⟨aP, haP, saP⟩ := hc.2.2.1 (m.weights.length - 1) (by omega)
  obtain ⟨Wn, bn, hWn, hbn, sWn, sbn⟩ := hm.2.2 (m.weights.length - 1) (by omega)
  have e : m.weights.length - 1 + 1 = m.weights.length := by omega
  rw [e] at sWn sbn
  obtain ⟨delta, hdelta⟩ := subtract_isSome (saL.trans hy.symm)
  have sdelta : delta.shape = [m.size m.weights.length, 1] :=
    (subtract_shape hdelta).trans saL
  obtain ⟨g0, hg0, sg0⟩ := dot_shape sdelta (T_shape saP)
  have hdropW : m.weights.drop (m.weights.length - 1 + 1) = [] :=
    List.drop_eq_nil_iff.mpr (by omega)
  have hdropb : m.biases.drop (m.weights.length - 1 + 1) = [] :=
    List.drop_eq_nil_iff.mpr (by rw [hm.2.1]; omega)
  obtain ⟨dW, db, h1, _, _⟩ := backwardLoop_shapes m hm hact c hc (m.weights.length - 1)
    delta [g0] [delta.clone] (by omega) (by rw [e]; exact sdelta)
    (by
      rw [shapesOf_drop_eq_cons m.weights _ Wn hWn, hdropW, sWn, ← sg0]
      rfl)
    (by
      rw [shapesOf_drop_eq_cons m.biases _ bn hbn, hdropb, sbn, ← sdelta]
      rfl)
  refine ⟨y, c, ⟨dW, db⟩, hf, ?_⟩
  have hne : ¬ (m.weights.length = 0) := by omega
  simp only [MLP.backward, hne, if_false, haL, mseGrad, hdelta, haP, hg0, h1,
    Option.bind_eq_bind, Option.some_bind, Option.pure_def]

/-! ## Backpropagation is the gradient of the loss -/

/-- C13: over the reals, for a model with `L ≥ 1` layers whose weights and biases are
well-formed arrays of the shapes of the layer sizes, an input `x` of length `sizes[0]`, a
label `t` of shape `sizes[L] × 1` and an activation acting entry by entry whose `df` is the
derivative of its `f` at every entry of every hidden pre-activation reached on `x`:
`forward(x, training = true)` returns a cache, `backward(t, cache)` returns gradients with
`L` entries in `dW` and `L` in `db`, and for every layer `l < L` the gradient `dW[l]` has
the shape and size of `weights[l]`, `db[l]` those of `biases[l]`, every entry `i` of
`dW[l]` is the derivative, at the current value of entry `i` of `weights[l]`, of the loss
`0.5 · sum((forward(x) - t)²)` as a function of that entry, and likewise every entry of
`db[l]` for `biases[l]`. -/
theorem backward_is_gradient (m : MLP ℝ) (x t : NdArray ℝ) (hm : m.WellFormed)
    (hact : Elementwise m.act) (hL : 1 ≤ m.weights.length) (hx : m.IsInput x)
    (ht : t.IsCol (m.size m.weights.length))
    (hφ : ∀ j z, j + 1 < m.weights.length → preActivation m x j = some z →
      ∀ u, u ∈ z.data → HasDerivAt (scalarOf m.act.f) (scalarOf m.act.df u) u) :
    ∃ y cache g, m.forward x true = some (y, some cache) ∧
      m.backward t cache = some g ∧
      g.dW.length = m.weights.length ∧ g.db.length = m.weights.length ∧
      ∀ l, l < m.weights.length → ∃ W gW b gb,
        m.weights[l]? = some W ∧ g.dW[l]? = some gW ∧
        m.biases[l]? = some b ∧ g.db[l]? = some gb ∧
        gW.shape = W.shape ∧ gW.data.length = W.data.length ∧
        gb.shape = b.shape ∧ gb.data.length = b.data.length ∧
        (∀ i, i < W.data.length →
          HasDerivAt (fun v => lossOf (m.withWeight l i v) x t) (gW.entry i) (W.entry i)) ∧
        (∀ i, i < b.data.length →
          HasDerivAt (fun v => lossOf (m.withBias l i v) x t) (gb.entry i) (b.entry i)) := by
  obtain ⟨y, c, g, hf, hb⟩ := forward_backward_exists m x t hm.1
    (elementwise_shapePreserving hact) hL hx.1 ht.1
  obtain ⟨hlW, hlb, _, _, _⟩ := backward_recurrences m t c g hL hb
  obtain ⟨hD1, _, _, hD4⟩ := backward_entries m hm hact x t y c g hL hx ht hf hb
  refine ⟨y, c, g, hf, hb, hlW, hlb, ?_⟩
  intro l hl
  obtain ⟨W, b, hW, hbb, cW, cb⟩ := layer_of_wellFormed m hm l hl
  obtain ⟨a, _, ha, _, _, _⟩ := forward_cols m hm hact x hx l hl
  obtain ⟨gb, hgb, cgb⟩ := hD1 l hl
  have hgW : g.dW[l]? = some (g.dW.get ⟨l, by rw [hlW]; exact hl⟩) :=
    List.getElem?_eq_getElem _
  obtain ⟨cgW, _⟩ := hD4 l a gb _ hl ha hgb hgW
  exact ⟨W, _, b, gb, hW, hgW, hbb, hgb, cgW.1.trans cW.1.symm, cgW.2.trans cW.2.symm,
    cgb.1.trans cb.1.symm, cgb.2.trans cb.2.symm,
    fun i hi => weight_hasDerivAt m hm hact x t y c g hL hx ht hφ hf hb l W _ hW hgW i hi,
    fun i hi => bias_hasDerivAt m hm hact x t y c g hL hx ht hφ hf hb l hl b gb hbb hgb i hi⟩

/-- C13, applied to `exModel3` (sizes `[2, 2, 1]`, `sigmoid` with the real exponential),
the input `[2, 1]` and the label `[[1]]`. -/
theorem backward_is_gradient_witness :
    (exModel3 ⟨Real.exp, Real.tanh, Real.sqrt, Real.pi⟩).WellFormed ∧
    Elementwise (exModel3 ⟨Real.exp, Real.tanh, Real.sqrt, Real.pi⟩).act ∧
    (∃ y cache g,
      (exModel3 ⟨Real.exp, Real.tanh, Real.sqrt, Real.pi⟩).forward ⟨[2], [2, 1]⟩ true
        = some (y, some cache) ∧
      (exModel3 ⟨Real.exp, Real.tanh, Real.sqrt, Real.pi⟩).backward ⟨[1, 1], [1]⟩ cache
        = some g ∧
      g.dW.length = 2 ∧ g.db.length = 2 ∧
      ∀ l, l < 2 → ∃ W gW b gb,
        (exModel3 ⟨Real.exp, Real.tanh, Real.sqrt, Real.pi⟩).weights[l]? = some W ∧
        g.dW[l]? = some gW ∧
        (exModel3 ⟨Real.exp, Real.tanh, Real.sqrt, Real.pi⟩).biases[l]? = some b ∧
        g.db[l]? = some gb ∧
        gW.shape = W.shape ∧ gW.data.length = W.data.length ∧
        gb.shape = b.shape ∧ gb.data.length = b.data.length ∧
        (∀ i, i < W.data.length →
          HasDerivAt (fun v => lossOf
            ((exModel3 ⟨Real.exp, Real.tanh, Real.sqrt, Real.pi⟩).withWeight l i v)
            ⟨[2], [2, 1]⟩ ⟨[1, 1], [1]⟩) (gW.entry i) (W.entry i)) ∧
        (∀ i, i < b.data.length →
          HasDerivAt (fun v => lossOf
            ((exModel3 ⟨Real.exp, Real.tanh, Real.sqrt, Real.pi⟩).withBias l i v)
            ⟨[2], [2, 1]⟩ ⟨[1, 1], [1]⟩) (gb.entry i) (b.entry i))) :=
  have hs : (exModel3 (⟨Real.exp, Real.tanh, Real.sqrt, Real.pi⟩ : JsMath ℝ)).WellShaped := by
    refine ⟨rfl, rfl, ?_⟩
    intro l hl
    have hl2 : l = 0 ∨ l = 1 := by
      have : l < 2 := hl
      omega
    rcases hl2 with rfl | rfl <;> exact ⟨_, _, rfl, rfl, rfl, rfl⟩
  have hm : (exModel3 (⟨Real.exp, Real.tanh, Real.sqrt, Real.pi⟩ : JsMath ℝ)).WellFormed := by
    refine ⟨hs, ?_, ?_⟩
    · intro W hW
      simp only [exModel3, List.mem_cons, List.mem_singleton, List.not_mem_nil,
        or_false] at hW
      rcases hW with rfl | rfl <;> rfl
    · intro b hb
      simp only [exModel3, List.mem_cons, List.mem_singleton, List.not_mem_nil,
        or_false] at hb
      rcases hb with rfl | rfl <;> rfl
  have hact : Elementwise (exModel3 (⟨Real.exp, Real.tanh, Real.sqrt, Real.pi⟩ : JsMath ℝ)).act :=
    sigmoid_elementwise _
  ⟨hm, hact,
    backward_is_gradient (exModel3 ⟨Real.exp, Real.tanh, Real.sqrt, Real.pi⟩)
      ⟨[2], [2, 1]⟩ ⟨[1, 1], [1]⟩ hm hact (by decide) ⟨Or.inl rfl, rfl⟩ ⟨rfl, rfl⟩
      (fun _ _ _ _ u _ => sigmoid_hasDerivAt _ rfl u)⟩

end Theorems

end OptimizerPlayground
